import Mathlib

/-!
Reference-counted shared-ownership pointers (`smart_pointers.cpp`)

A shallow embedding of `BaseControlBlock`, `SharedPtr<T>`, `WeakPtr<T>`,
`allocateShared` / `makeShared` and `EnableSharedFromThis<T>`.

* Pointers are natural numbers, `0` is `nullptr`.  Control blocks and payload
  objects live in two separate address spaces.
* The counters are C++ `int`s.  A counter holds an integer; `++` on a counter
  that is `INT_MAX` is a signed overflow, undefined behaviour, and the embedding
  returns the fault `overflow` there.  (The counters of every state a program
  reaches are between 0 and `INT_MAX`, so `--` is never applied to `INT_MIN`.)
* Every method is a function on the heap.  A method that dereferences a null
  pointer, touches a control block after `deallocate()`, touches a destroyed
  object or overflows a counter has undefined behaviour in C++; the embedding
  returns a `Fault` there.
* `optIn` is the compile-time constant
  `std::is_base_of_v<EnableSharedFromThis<T>, T>`.
-/

namespace SmartPointers

/-! ## Data model -/

/-- Undefined behaviour detected by the embedding. -/
inductive Fault
  | nullDeref
  | useAfterFree
  | overflow
  deriving DecidableEq, Repr

/-- The largest value of the type `int` of the two counters (32 bits). -/
def INT_MAX : Int := 2147483647

/-- A deleter functor.  `destroys` tells whether invoking it on `p` runs the
destructor of `*p` (as `std::default_delete<T>` does through `delete p`);
`tag` distinguishes user deleters. -/
structure Deleter where
  tag : Nat
  destroys : Bool
  deriving DecidableEq, Repr

/-- The deleter `std::default_delete<T>()`. -/
def Deleter.default_delete : Deleter := ⟨0, true⟩

/-- The two classes derived from `BaseControlBlock`:
`ControlBlockRegular` (fields `T* object; Deleter deleter`) and
`ControlBlockMakeShared` (field `T object`, an integer payload here). -/
inductive Variant
  | ControlBlockRegular (object : Nat) (deleter : Deleter)
  | ControlBlockMakeShared (object : Int)
  deriving DecidableEq, Repr

/-- A control block: `struct BaseControlBlock` with its dynamic type.  The last
four fields are observations that are not in the source: how often the virtual
hooks were called and with which argument the deleter functor was invoked. -/
structure BaseControlBlock where
  shared_counter : Int
  weak_counter : Int
  variant : Variant
  use_deleter_calls : Nat
  deleted : List Nat
  call_destructor_calls : Nat
  deallocations : Nat
  deriving DecidableEq, Repr

/-- The handle `class WeakPtr<T>`: `T* ptr; BaseControlBlock* cb`. -/
structure WeakPtr where
  ptr : Nat
  cb : Nat
  deriving DecidableEq, Repr

/-- The handle `class SharedPtr<T>`: `T* ptr; BaseControlBlock* cb`. -/
structure SharedPtr where
  ptr : Nat
  cb : Nat
  deriving DecidableEq, Repr

/-- The heap: control blocks by address (`1 .. next` are allocated), and for a
payload type deriving from `EnableSharedFromThis` the member `wptr` of the
object at each raw address (`none` once the object has been destroyed). -/
structure Heap where
  blocks : Nat → BaseControlBlock
  next : Nat
  wptr : Nat → Option WeakPtr

/-- Memory in which nothing has been allocated yet; every raw address holds a
live object whose `wptr` member is default-constructed. -/
def Heap.empty : Heap :=
  { blocks := fun _ => ⟨0, 0, .ControlBlockMakeShared 0, 0, [], 0, 0⟩
    next := 0
    wptr := fun _ => some ⟨0, 0⟩ }

/-! ## Memory access -/

/-- Reading through `cb->`. -/
def Heap.load (σ : Heap) (cb : Nat) : Except Fault BaseControlBlock :=
  if cb = 0 then .error .nullDeref
  else if (σ.blocks cb).deallocations ≠ 0 then .error .useAfterFree
  else .ok (σ.blocks cb)

/-- Overwrite the block at `cb`. -/
def Heap.store (σ : Heap) (cb : Nat) (b : BaseControlBlock) : Heap :=
  { σ with blocks := fun a => if a = cb then b else σ.blocks a }

/-- Writing through `cb->`. -/
def Heap.modify (σ : Heap) (cb : Nat) (f : BaseControlBlock → BaseControlBlock) :
    Except Fault Heap := do
  let b ← σ.load cb
  pure (σ.store cb (f b))

/-- Overwrite the member `wptr` of the object at `p`. -/
def Heap.setWptr (σ : Heap) (p : Nat) (w : Option WeakPtr) : Heap :=
  { σ with wptr := fun a => if a = p then w else σ.wptr a }

/-- Reading `ptr->wptr`. -/
def Heap.loadWptr (σ : Heap) (p : Nat) : Except Fault WeakPtr :=
  if p = 0 then .error .nullDeref
  else
    match σ.wptr p with
    | none => .error .useAfterFree
    | some w => .ok w

/-- The statement `++cb->shared_counter` on the member `int shared_counter`:
undefined (signed overflow) when the counter is `INT_MAX`. -/
def incShared (cb : Nat) (σ : Heap) : Except Fault Heap := do
  let b ← σ.load cb
  if INT_MAX ≤ b.shared_counter then .error .overflow
  else σ.modify cb (fun b => { b with shared_counter := b.shared_counter + 1 })

/-- The statement `--cb->shared_counter`. -/
def decShared (cb : Nat) (σ : Heap) : Except Fault Heap :=
  σ.modify cb (fun b => { b with shared_counter := b.shared_counter - 1 })

/-- The statement `++cb->weak_counter` on the member `int weak_counter`:
undefined (signed overflow) when the counter is `INT_MAX`. -/
def incWeak (cb : Nat) (σ : Heap) : Except Fault Heap := do
  let b ← σ.load cb
  if INT_MAX ≤ b.weak_counter then .error .overflow
  else σ.modify cb (fun b => { b with weak_counter := b.weak_counter + 1 })

/-- The statement `--cb->weak_counter`. -/
def decWeak (cb : Nat) (σ : Heap) : Except Fault Heap :=
  σ.modify cb (fun b => { b with weak_counter := b.weak_counter - 1 })

/-- The virtual hook `deallocate()` of both block classes: the block's storage
is handed back to the allocator. -/
def deallocate (cb : Nat) (σ : Heap) : Except Fault Heap :=
  σ.modify cb (fun b => { b with deallocations := b.deallocations + 1 })

/-- The virtual hook `call_destructor()`: a no-op for `ControlBlockRegular`,
the in-place destruction of the embedded payload for `ControlBlockMakeShared`
(whose `wptr` member, if any, is still default-constructed because no handle to
such a block ever has a non-null `ptr`). -/
def call_destructor (cb : Nat) (σ : Heap) : Except Fault Heap :=
  σ.modify cb (fun b => { b with call_destructor_calls := b.call_destructor_calls + 1 })

/-! ## `WeakPtr<T>`

The member `operator=(WeakPtr&&)` ends in `return this;`, a pointer where a
reference is required: no call of it compiles, so it is not embedded. -/

/-- The constructor `WeakPtr()`. -/
def WeakPtr.null : WeakPtr := ⟨0, 0⟩

/-- The constructor `WeakPtr(const SharedPtr<U>& other)`. -/
def WeakPtr.from_shared (other : SharedPtr) (σ : Heap) : Except Fault (WeakPtr × Heap) := do
  let σ1 ← incWeak other.cb σ
  pure (⟨other.ptr, other.cb⟩, σ1)

/-- The method `WeakPtr::expired()`. -/
def WeakPtr.expired (self : WeakPtr) (σ : Heap) : Except Fault Bool := do
  let b ← σ.load self.cb
  pure (decide (b.shared_counter = 0))

/-- The method `WeakPtr::lock()`; the result is built by the private
constructor `SharedPtr(BaseControlBlock* other_cb) : ptr(nullptr), cb(other_cb)`
or by `SharedPtr()`. -/
def WeakPtr.lock (self : WeakPtr) (σ : Heap) : Except Fault (SharedPtr × Heap) := do
  let e ← self.expired σ
  if e = false then
    let σ1 ← incShared self.cb σ
    pure (⟨0, self.cb⟩, σ1)
  else
    pure (⟨0, 0⟩, σ)

/-- The destructor `~WeakPtr()`. -/
def WeakPtr.dtor (self : WeakPtr) (σ : Heap) : Except Fault Heap :=
  if self.cb ≠ 0 then do
    let σ1 ← decWeak self.cb σ
    let b ← σ1.load self.cb
    if b.weak_counter = 0 ∧ b.shared_counter = 0 then
      deallocate self.cb σ1
    else
      pure σ1
  else
    pure σ

/-- The constructors `WeakPtr(const WeakPtr& other)` and
`WeakPtr(const WeakPtr<U>& other)`. -/
def WeakPtr.copy_ctor (other : WeakPtr) (σ : Heap) : Except Fault (WeakPtr × Heap) := do
  let σ1 ← incWeak other.cb σ
  pure (⟨other.ptr, other.cb⟩, σ1)

/-- The constructor `WeakPtr(WeakPtr&& other)`: the new handle and the
moved-from source. -/
def WeakPtr.move_ctor (other : WeakPtr) : WeakPtr × WeakPtr :=
  (⟨other.ptr, other.cb⟩, ⟨0, 0⟩)

/-- The method `WeakPtr::swap`. -/
def WeakPtr.swap (self other : WeakPtr) : WeakPtr × WeakPtr :=
  (⟨other.ptr, other.cb⟩, ⟨self.ptr, self.cb⟩)

/-- The body of `WeakPtr::operator=(const WeakPtr& other)` after the test
`this == &other`: `WeakPtr tmp = other; swap(tmp);` and the destruction of
`tmp`. -/
def WeakPtr.copy_assign (self other : WeakPtr) (σ : Heap) : Except Fault (WeakPtr × Heap) := do
  let r ← WeakPtr.copy_ctor other σ
  let σ2 ← (WeakPtr.swap self r.1).2.dtor r.2
  pure ((WeakPtr.swap self r.1).1, σ2)

/-- The operator `WeakPtr::operator=(const SharedPtr<U>& other)`:
`WeakPtr tmp = other; swap(tmp);` and the destruction of `tmp`. -/
def WeakPtr.assign_shared (self : WeakPtr) (other : SharedPtr) (σ : Heap) :
    Except Fault (WeakPtr × Heap) := do
  let r ← WeakPtr.from_shared other σ
  let σ2 ← (WeakPtr.swap self r.1).2.dtor r.2
  pure ((WeakPtr.swap self r.1).1, σ2)

/-- The method `WeakPtr::use_count()`. -/
def WeakPtr.use_count (self : WeakPtr) (σ : Heap) : Except Fault Int :=
  if self.cb = 0 then
    pure 0
  else do
    let b ← σ.load self.cb
    pure b.shared_counter

/-! ## `EnableSharedFromThis<T>` -/

/-- The method `EnableSharedFromThis::shared_from_this()` of the live object at
raw address `p`: `return wptr.lock();`. -/
def EnableSharedFromThis.shared_from_this (p : Nat) (σ : Heap) :
    Except Fault (SharedPtr × Heap) := do
  let w ← σ.loadWptr p
  w.lock σ

/-- The statement `if constexpr (std::is_base_of_v<EnableSharedFromThis<T>, T>)
{ ptr->wptr = *this; }` executed by a handle `self`. -/
def SharedPtr.set_wptr (optIn : Bool) (self : SharedPtr) (σ : Heap) : Except Fault Heap :=
  if optIn then do
    let w ← σ.loadWptr self.ptr
    let r ← w.assign_shared self σ
    pure (r.2.setWptr self.ptr (some r.1))
  else
    pure σ

/-- The destructor of the payload object at raw address `p`, run by
`delete p`: for a type deriving from `EnableSharedFromThis` it destroys the
member `wptr`. -/
def destroy_object (optIn : Bool) (p : Nat) (σ : Heap) : Except Fault Heap :=
  if optIn then do
    let w ← σ.loadWptr p
    let σ1 ← w.dtor σ
    pure (σ1.setWptr p none)
  else
    pure σ

/-- The virtual hook `use_deleter()`: `if (object != nullptr) deleter(object);`
for `ControlBlockRegular`, nothing for `ControlBlockMakeShared`. -/
def use_deleter (optIn : Bool) (cb : Nat) (σ : Heap) : Except Fault Heap := do
  let b ← σ.load cb
  match b.variant with
  | .ControlBlockRegular object deleter =>
    if object ≠ 0 then
      let σ1 := σ.store cb { b with use_deleter_calls := b.use_deleter_calls + 1
                                    deleted := b.deleted ++ [object] }
      if deleter.destroys then
        destroy_object optIn object σ1
      else
        pure σ1
    else
      pure (σ.store cb { b with use_deleter_calls := b.use_deleter_calls + 1 })
  | .ControlBlockMakeShared _ =>
    pure (σ.store cb { b with use_deleter_calls := b.use_deleter_calls + 1 })

/-! ## `SharedPtr<T>` -/

/-- The constructor `SharedPtr()`. -/
def SharedPtr.null : SharedPtr := ⟨0, 0⟩

/-- The private constructor `SharedPtr(BaseControlBlock* other_cb)`. -/
def SharedPtr.from_block (other_cb : Nat) : SharedPtr := ⟨0, other_cb⟩

/-- The method `SharedPtr::get()`. -/
def SharedPtr.get (self : SharedPtr) : Nat := self.ptr

/-- The operator `SharedPtr::operator*()`: `return *get();`, the reference
being represented by the address it designates. -/
def SharedPtr.deref (self : SharedPtr) : Except Fault Nat :=
  if self.get = 0 then .error .nullDeref else .ok self.get

/-- The method `SharedPtr::use_count()`. -/
def SharedPtr.use_count (self : SharedPtr) (σ : Heap) : Except Fault Int :=
  if self.cb = 0 then
    pure 0
  else do
    let b ← σ.load self.cb
    pure b.shared_counter

/-- The method `SharedPtr::swap`. -/
def SharedPtr.swap (self other : SharedPtr) : SharedPtr × SharedPtr :=
  (⟨other.ptr, other.cb⟩, ⟨self.ptr, self.cb⟩)

/-- The constructor `SharedPtr(U* pt, Deleter deleter, Alloc alloc)`: a fresh
`ControlBlockRegular(1, 0, ptr, deleter, alloc)`. -/
def SharedPtr.from_raw (optIn : Bool) (pt : Nat) (deleter : Deleter) (σ : Heap) :
    Except Fault (SharedPtr × Heap) := do
  let new_cb := σ.next + 1
  let σ1 : Heap :=
    { (σ.store new_cb ⟨1, 0, .ControlBlockRegular pt deleter, 0, [], 0, 0⟩) with
      next := σ.next + 1 }
  let σ2 ← SharedPtr.set_wptr optIn ⟨pt, new_cb⟩ σ1
  pure (⟨pt, new_cb⟩, σ2)

/-- The converting constructor `SharedPtr(const SharedPtr<U>& other)`. -/
def SharedPtr.copy_ctor_conv (optIn : Bool) (other : SharedPtr) (σ : Heap) :
    Except Fault (SharedPtr × Heap) := do
  let σ1 ← incShared other.cb σ
  let σ2 ← SharedPtr.set_wptr optIn ⟨other.ptr, other.cb⟩ σ1
  pure (⟨other.ptr, other.cb⟩, σ2)

/-- The constructor `SharedPtr(const SharedPtr& other)`. -/
def SharedPtr.copy_ctor (optIn : Bool) (other : SharedPtr) (σ : Heap) :
    Except Fault (SharedPtr × Heap) :=
  if other.cb ≠ 0 then do
    let σ1 ← incShared other.cb σ
    let σ2 ← SharedPtr.set_wptr optIn ⟨other.ptr, other.cb⟩ σ1
    pure (⟨other.ptr, other.cb⟩, σ2)
  else
    pure (⟨other.ptr, other.cb⟩, σ)

/-- The constructor `SharedPtr(SharedPtr&& other)`: the new handle, the
moved-from source and the heap. -/
def SharedPtr.move_ctor (optIn : Bool) (other : SharedPtr) (σ : Heap) :
    Except Fault (SharedPtr × SharedPtr × Heap) :=
  if other.ptr ≠ 0 then do
    let σ1 ← SharedPtr.set_wptr optIn ⟨other.ptr, other.cb⟩ σ
    pure (⟨other.ptr, other.cb⟩, ⟨0, 0⟩, σ1)
  else
    pure (⟨other.ptr, other.cb⟩, ⟨0, 0⟩, σ)

/-- The destructor `~SharedPtr()`. -/
def SharedPtr.dtor (optIn : Bool) (self : SharedPtr) (σ : Heap) : Except Fault Heap :=
  if self.cb ≠ 0 then do
    let σ1 ← decShared self.cb σ
    let b1 ← σ1.load self.cb
    if b1.shared_counter = 0 then
      let σ2 ← (if self.ptr ≠ 0 then use_deleter optIn self.cb σ1 else pure σ1)
      let σ3 ← call_destructor self.cb σ2
      let b3 ← σ3.load self.cb
      if b3.weak_counter = 0 then
        deallocate self.cb σ3
      else
        pure σ3
    else
      pure σ1
  else
    pure σ

/-- The statement block `if (cb != nullptr) { --cb->shared_counter; ... }` with
which both `operator=(const SharedPtr&)` and `operator=(SharedPtr<U>&&)` give
up the handle's current block (the two copies in the source are identical;
unlike the destructor they call `use_deleter()` without testing `ptr`). -/
def SharedPtr.release_in_assign (optIn : Bool) (self : SharedPtr) (σ : Heap) :
    Except Fault Heap :=
  if self.cb ≠ 0 then do
    let σ1 ← decShared self.cb σ
    let b1 ← σ1.load self.cb
    if b1.shared_counter = 0 then
      let σ2 ← use_deleter optIn self.cb σ1
      let σ3 ← call_destructor self.cb σ2
      let b3 ← σ3.load self.cb
      if b3.weak_counter = 0 then
        deallocate self.cb σ3
      else
        pure σ3
    else
      pure σ1
  else
    pure σ

/-- The body of `SharedPtr::operator=(const SharedPtr& other)` after the test
`this == &other`. -/
def SharedPtr.copy_assign (optIn : Bool) (self other : SharedPtr) (σ : Heap) :
    Except Fault (SharedPtr × Heap) :=
  if other.cb = self.cb ∨ (other.ptr = self.ptr ∧ self.ptr ≠ 0) then
    pure (self, σ)
  else do
    let σ4 ← SharedPtr.release_in_assign optIn self σ
    if other.cb ≠ 0 then
      let σ5 ← incShared other.cb σ4
      pure (⟨other.ptr, other.cb⟩, σ5)
    else
      pure (⟨other.ptr, other.cb⟩, σ4)

/-- The converting operator `SharedPtr::operator=(SharedPtr<U>&& other)`: the
assigned handle, the moved-from source and the heap. -/
def SharedPtr.move_assign_conv (optIn : Bool) (self other : SharedPtr) (σ : Heap) :
    Except Fault (SharedPtr × SharedPtr × Heap) := do
  let σ4 ← SharedPtr.release_in_assign optIn self σ
  pure (⟨other.ptr, other.cb⟩, ⟨0, 0⟩, σ4)

/-- The body of `SharedPtr::operator=(SharedPtr&& other)` after the test
`this == &other`: `SharedPtr tmp = std::move(other); swap(tmp);` and the
destruction of `tmp`.  The result is the assigned handle, the moved-from source
and the heap. -/
def SharedPtr.move_assign (optIn : Bool) (self other : SharedPtr) (σ : Heap) :
    Except Fault (SharedPtr × SharedPtr × Heap) := do
  let r ← SharedPtr.move_ctor optIn other σ
  let σ2 ← SharedPtr.dtor optIn (SharedPtr.swap self r.1).2 r.2.2
  pure ((SharedPtr.swap self r.1).1, r.2.1, σ2)

/-- The method `SharedPtr::reset(Tp* new_ptr)`: `SharedPtr tmp(new_ptr);
swap(tmp); return;` and the destruction of `tmp` (the statements after the
`return` are never executed). -/
def SharedPtr.reset_raw (optIn : Bool) (self : SharedPtr) (new_ptr : Nat) (σ : Heap) :
    Except Fault (SharedPtr × Heap) := do
  let r ← SharedPtr.from_raw optIn new_ptr Deleter.default_delete σ
  let σ2 ← SharedPtr.dtor optIn (SharedPtr.swap self r.1).2 r.2
  pure ((SharedPtr.swap self r.1).1, σ2)

/-- The method `SharedPtr::reset()`: `SharedPtr tmp; swap(tmp);` and the
destruction of `tmp`. -/
def SharedPtr.reset (optIn : Bool) (self : SharedPtr) (σ : Heap) :
    Except Fault (SharedPtr × Heap) := do
  let σ1 ← SharedPtr.dtor optIn (SharedPtr.swap self SharedPtr.null).2 σ
  pure ((SharedPtr.swap self SharedPtr.null).1, σ1)

/-- The functions `allocateShared` and `makeShared` for a payload value `v`: a
fresh `ControlBlockMakeShared(1, 0, v, alloc)` wrapped by
`SharedPtr<Tp>(casted)`. -/
def allocateShared (v : Int) (σ : Heap) : SharedPtr × Heap :=
  let cb := σ.next + 1
  (SharedPtr.from_block cb,
   { (σ.store cb ⟨1, 0, .ControlBlockMakeShared v, 0, [], 0, 0⟩) with next := σ.next + 1 })

/-- The function `makeShared`: `allocateShared` with `std::allocator<Tp>()`. -/
def makeShared (v : Int) (σ : Heap) : SharedPtr × Heap :=
  allocateShared v σ

/-! ## Programs over named handles

A program state is the heap together with the handle variables declared so
far; a variable whose handle has been destroyed holds `none`.  An operation
that names a variable that does not exist or has been destroyed is not a
statement of any C++ program and leaves the state as it is. -/

/-- The heap and the declared `SharedPtr` and `WeakPtr` variables. -/
structure State where
  heap : Heap
  sp : List (Option SharedPtr)
  wp : List (Option WeakPtr)

/-- The state in which nothing has been declared. -/
def State.init : State := ⟨Heap.empty, [], []⟩

/-- The handle held by variable `i`, if it exists and is alive. -/
def lookup {α : Type} : List (Option α) → Nat → Option α
  | [], _ => none
  | o :: _, 0 => o
  | _ :: l, i + 1 => lookup l i

/-- The number of live handles in `l` whose block pointer is `b`. -/
def holders {α : Type} (cbOf : α → Nat) (b : Nat) : List (Option α) → Nat
  | [] => 0
  | none :: l => holders cbOf b l
  | some h :: l => (if cbOf h = b then 1 else 0) + holders cbOf b l

/-- The number of live `SharedPtr` variables whose `cb` is `b`. -/
def State.shared_holders (s : State) (b : Nat) : Nat := holders SharedPtr.cb b s.sp

/-- The number of live `WeakPtr` variables whose `cb` is `b`. -/
def State.weak_holders (s : State) (b : Nat) : Nat := holders WeakPtr.cb b s.wp

/-- The public operations, each applied to handle variables (by index) and, for
a constructor, declaring a new variable at the end of the list. -/
inductive Op
  | ctor_default
  | ctor_raw (pt : Nat) (deleter : Deleter)
  | make_shared (v : Int)
  | copy_ctor (src : Nat)
  | copy_ctor_conv (src : Nat)
  | move_ctor (src : Nat)
  | copy_assign (dst src : Nat)
  | move_assign (dst src : Nat)
  | move_assign_conv (dst src : Nat)
  | reset (x : Nat)
  | reset_raw (x : Nat) (new_ptr : Nat)
  | swap (x y : Nat)
  | dtor (x : Nat)
  | lock (w : Nat)
  | shared_from_this (p : Nat)
  | weak_default
  | weak_from_shared (src : Nat)
  | weak_copy_ctor (src : Nat)
  | weak_move_ctor (src : Nat)
  | weak_copy_assign (dst src : Nat)
  | weak_assign_shared (dst src : Nat)
  | weak_swap (x y : Nat)
  | weak_dtor (w : Nat)
  deriving DecidableEq, Repr

/-- One program statement.  The tests `this == &other` of the two same-type
assignment operators compare variables; the converting move assignment only
exists between handles of different types, hence between different
variables. -/
def step (optIn : Bool) (s : State) : Op → Except Fault State
  | .ctor_default => pure { s with sp := s.sp ++ [some SharedPtr.null] }
  | .ctor_raw pt deleter => do
    let r ← SharedPtr.from_raw optIn pt deleter s.heap
    pure { s with heap := r.2, sp := s.sp ++ [some r.1] }
  | .make_shared v =>
    pure { s with heap := (makeShared v s.heap).2, sp := s.sp ++ [some (makeShared v s.heap).1] }
  | .copy_ctor src =>
    match lookup s.sp src with
    | none => pure s
    | some other => do
      let r ← SharedPtr.copy_ctor optIn other s.heap
      pure { s with heap := r.2, sp := s.sp ++ [some r.1] }
  | .copy_ctor_conv src =>
    match lookup s.sp src with
    | none => pure s
    | some other => do
      let r ← SharedPtr.copy_ctor_conv optIn other s.heap
      pure { s with heap := r.2, sp := s.sp ++ [some r.1] }
  | .move_ctor src =>
    match lookup s.sp src with
    | none => pure s
    | some other => do
      let r ← SharedPtr.move_ctor optIn other s.heap
      pure { s with heap := r.2.2, sp := (s.sp.set src (some r.2.1)) ++ [some r.1] }
  | .copy_assign dst src =>
    if dst = src then pure s
    else
      match lookup s.sp dst, lookup s.sp src with
      | some self, some other => do
        let r ← SharedPtr.copy_assign optIn self other s.heap
        pure { s with heap := r.2, sp := s.sp.set dst (some r.1) }
      | _, _ => pure s
  | .move_assign dst src =>
    if dst = src then pure s
    else
      match lookup s.sp dst, lookup s.sp src with
      | some self, some other => do
        let r ← SharedPtr.move_assign optIn self other s.heap
        pure { s with heap := r.2.2, sp := (s.sp.set dst (some r.1)).set src (some r.2.1) }
      | _, _ => pure s
  | .move_assign_conv dst src =>
    if dst = src then pure s
    else
      match lookup s.sp dst, lookup s.sp src with
      | some self, some other => do
        let r ← SharedPtr.move_assign_conv optIn self other s.heap
        pure { s with heap := r.2.2, sp := (s.sp.set dst (some r.1)).set src (some r.2.1) }
      | _, _ => pure s
  | .reset x =>
    match lookup s.sp x with
    | none => pure s
    | some self => do
      let r ← SharedPtr.reset optIn self s.heap
      pure { s with heap := r.2, sp := s.sp.set x (some r.1) }
  | .reset_raw x new_ptr =>
    match lookup s.sp x with
    | none => pure s
    | some self => do
      let r ← SharedPtr.reset_raw optIn self new_ptr s.heap
      pure { s with heap := r.2, sp := s.sp.set x (some r.1) }
  | .swap x y =>
    if x = y then pure s
    else
      match lookup s.sp x, lookup s.sp y with
      | some self, some other =>
        pure { s with
          sp := List.set (List.set s.sp x (some (SharedPtr.swap self other).1)) y
            (some (SharedPtr.swap self other).2) }
      | _, _ => pure s
  | .dtor x =>
    match lookup s.sp x with
    | none => pure s
    | some self => do
      let σ ← SharedPtr.dtor optIn self s.heap
      pure { s with heap := σ, sp := s.sp.set x none }
  | .lock w =>
    match lookup s.wp w with
    | none => pure s
    | some self => do
      let r ← WeakPtr.lock self s.heap
      pure { s with heap := r.2, sp := s.sp ++ [some r.1] }
  | .shared_from_this p =>
    if optIn then do
      let r ← EnableSharedFromThis.shared_from_this p s.heap
      pure { s with heap := r.2, sp := s.sp ++ [some r.1] }
    else pure s
  | .weak_default => pure { s with wp := s.wp ++ [some WeakPtr.null] }
  | .weak_from_shared src =>
    match lookup s.sp src with
    | none => pure s
    | some other => do
      let r ← WeakPtr.from_shared other s.heap
      pure { s with heap := r.2, wp := s.wp ++ [some r.1] }
  | .weak_copy_ctor src =>
    match lookup s.wp src with
    | none => pure s
    | some other => do
      let r ← WeakPtr.copy_ctor other s.heap
      pure { s with heap := r.2, wp := s.wp ++ [some r.1] }
  | .weak_move_ctor src =>
    match lookup s.wp src with
    | none => pure s
    | some other =>
      pure { s with
        wp := (List.set s.wp src (some (WeakPtr.move_ctor other).2)) ++
          [some (WeakPtr.move_ctor other).1] }
  | .weak_copy_assign dst src =>
    if dst = src then pure s
    else
      match lookup s.wp dst, lookup s.wp src with
      | some self, some other => do
        let r ← WeakPtr.copy_assign self other s.heap
        pure { s with heap := r.2, wp := s.wp.set dst (some r.1) }
      | _, _ => pure s
  | .weak_assign_shared dst src =>
    match lookup s.wp dst, lookup s.sp src with
    | some self, some other => do
      let r ← WeakPtr.assign_shared self other s.heap
      pure { s with heap := r.2, wp := s.wp.set dst (some r.1) }
    | _, _ => pure s
  | .weak_swap x y =>
    if x = y then pure s
    else
      match lookup s.wp x, lookup s.wp y with
      | some self, some other =>
        pure { s with
          wp := List.set (List.set s.wp x (some (WeakPtr.swap self other).1)) y
            (some (WeakPtr.swap self other).2) }
      | _, _ => pure s
  | .weak_dtor w =>
    match lookup s.wp w with
    | none => pure s
    | some self => do
      let σ ← WeakPtr.dtor self s.heap
      pure { s with heap := σ, wp := s.wp.set w none }

/-- A program: the statements in order, stopping at the first fault. -/
def run (optIn : Bool) : State → List Op → Except Fault State
  | s, [] => pure s
  | s, op :: ops => do
    let s1 ← step optIn s op
    run optIn s1 ops

/-! ## Notions used to state the properties -/

/-- The deleter arguments recorded by one `use_deleter()` call on a block of
the given class. -/
def Variant.deleter_args : Variant → List Nat
  | .ControlBlockRegular object _ => if object ≠ 0 then [object] else []
  | .ControlBlockMakeShared _ => []

/-- Two heaps agree on everything the owning side of a block consists of: the
allocation frontier and each block's class, `shared_counter` and recorded
deleter invocations. -/
def Heap.SameOwners (σ σ' : Heap) : Prop :=
  σ'.next = σ.next ∧ ∀ b,
    (σ'.blocks b).shared_counter = (σ.blocks b).shared_counter ∧
    (σ'.blocks b).variant = (σ.blocks b).variant ∧
    (σ'.blocks b).deleted = (σ.blocks b).deleted

/-- The block left behind when one owner of a live block gives it up:
`--shared_counter`, and at zero `use_deleter()` (when `calls_deleter`),
`call_destructor()` and, with `weak_counter == 0`, `deallocate()`. -/
def BaseControlBlock.released (calls_deleter : Bool) (b : BaseControlBlock) :
    BaseControlBlock :=
  if b.shared_counter - 1 = 0 then
    { shared_counter := b.shared_counter - 1
      weak_counter := b.weak_counter
      variant := b.variant
      use_deleter_calls := if calls_deleter then b.use_deleter_calls + 1 else b.use_deleter_calls
      deleted := if calls_deleter then b.deleted ++ b.variant.deleter_args else b.deleted
      call_destructor_calls := b.call_destructor_calls + 1
      deallocations := if b.weak_counter = 0 then b.deallocations + 1 else b.deallocations }
  else
    { b with shared_counter := b.shared_counter - 1 }

/-- The block left behind when one observer of a live block gives it up:
`--weak_counter`, and `deallocate()` when both counters are zero. -/
def BaseControlBlock.unobserved (b : BaseControlBlock) : BaseControlBlock :=
  if b.weak_counter - 1 = 0 ∧ b.shared_counter = 0 then
    { b with weak_counter := b.weak_counter - 1, deallocations := b.deallocations + 1 }
  else
    { b with weak_counter := b.weak_counter - 1 }

/-- The owning side of an operation that takes one owner away from block `dec`
and adds one to block `inc` (`0` for none): the allocation frontier and the
classes are kept, the shared counters move accordingly, and the deleter
arguments of `dec` are recorded if that was its last owner and the operation
calls `use_deleter()`. -/
def Heap.Owners (σ σ' : Heap) (dec inc : Nat) (calls_deleter : Bool) : Prop :=
  σ'.next = σ.next ∧ ∀ b,
    (σ'.blocks b).variant = (σ.blocks b).variant ∧
    (σ'.blocks b).shared_counter =
      (σ.blocks b).shared_counter - (if b = dec ∧ dec ≠ 0 then 1 else 0)
        + (if b = inc ∧ inc ≠ 0 then 1 else 0) ∧
    (σ'.blocks b).deleted =
      if b = dec ∧ dec ≠ 0 ∧ (σ.blocks b).shared_counter = 1 ∧ calls_deleter = true then
        (σ.blocks b).deleted ++ (σ.blocks b).variant.deleter_args
      else (σ.blocks b).deleted

/-- The owning side of an allocation: block `next + 1` is new, of class `v`,
with one owner and no deleter invocation; nothing else changes. -/
def Heap.Alloc (σ σ' : Heap) (v : Variant) : Prop :=
  σ'.next = σ.next + 1 ∧
  (σ'.blocks (σ.next + 1)).variant = v ∧
  (σ'.blocks (σ.next + 1)).shared_counter = 1 ∧
  (σ'.blocks (σ.next + 1)).deleted = [] ∧
  ∀ b, b ≠ σ.next + 1 →
    (σ'.blocks b).shared_counter = (σ.blocks b).shared_counter ∧
    (σ'.blocks b).variant = (σ.blocks b).variant ∧
    (σ'.blocks b).deleted = (σ.blocks b).deleted

/-- Every block's `shared_counter` is the number of live `SharedPtr` variables
pointing to it, and no variable points beyond the allocation frontier. -/
def CountsOwners (σ : Heap) (sp : List (Option SharedPtr)) : Prop :=
  (∀ b, b ≠ 0 → (σ.blocks b).shared_counter = (holders SharedPtr.cb b sp : Int)) ∧
  (∀ b, σ.next < b → holders SharedPtr.cb b sp = 0)

/-- The operations whose result is built by the private constructor
`SharedPtr(BaseControlBlock*)` from a `WeakPtr`. -/
def Op.promotes : Op → Bool
  | .lock _ => true
  | .shared_from_this _ => true
  | _ => false

/-- What a program statement does to the owning side of the heap and to the
`SharedPtr` variables: it moves one owner from block `dec` to block `inc`, or
allocates a block for a new variable, or does one after the other.  With
`promoted` false no variable is created from a `WeakPtr`. -/
inductive Moves (promoted : Bool) :
    Heap → List (Option SharedPtr) → Heap → List (Option SharedPtr) → Prop
  | owners {σ σ' : Heap} {sp sp' : List (Option SharedPtr)} {dec inc : Nat} {c : Bool} :
      σ.Owners σ' dec inc c →
      (∀ b, b ≠ 0 → holders SharedPtr.cb b sp' + (if b = dec then 1 else 0) =
        holders SharedPtr.cb b sp + (if b = inc then 1 else 0)) →
      (inc ≠ 0 → (σ.blocks inc).shared_counter ≠ 0 ∨ ∃ h, some h ∈ sp ∧ h.cb = inc) →
      (dec ≠ 0 → dec ≠ inc ∧ ∃ h, some h ∈ sp ∧ h.cb = dec ∧ (h.ptr ≠ 0 → c = true)) →
      (∀ h, some h ∈ sp' → some h ∈ sp ∨ h.cb = 0 ∨ promoted = true) →
      Moves promoted σ sp σ' sp'
  | alloc {σ σ' : Heap} {sp : List (Option SharedPtr)} {pt : Nat} {v : Variant} :
      σ.Alloc σ' v → (∀ p d, v = .ControlBlockRegular p d → pt = p) →
      Moves promoted σ sp σ' (sp ++ [some ⟨pt, σ.next + 1⟩])
  | trans {σ1 σ2 σ3 : Heap} {sp1 sp2 sp3 : List (Option SharedPtr)} :
      Moves promoted σ1 sp1 σ2 sp2 → Moves promoted σ2 sp2 σ3 sp3 →
      Moves promoted σ1 sp1 σ3 sp3

/-- Storage is only handed back for a block without owners, and a block whose
storage has been handed back keeps its `shared_counter`. -/
def Heap.FreesUnowned (σ σ' : Heap) : Prop :=
  ∀ b, (σ'.blocks b).deallocations ≠ 0 →
    ((σ.blocks b).deallocations ≠ 0 ∧ (σ'.blocks b).shared_counter = (σ.blocks b).shared_counter)
      ∨ (σ'.blocks b).shared_counter = 0

/-- No block with owners has had its storage handed back. -/
def Heap.OwnedAlive (σ : Heap) : Prop :=
  ∀ b, (σ.blocks b).deallocations ≠ 0 → (σ.blocks b).shared_counter = 0

/-- For a payload type without the self-reference base: both counters of every
block are the numbers of live `SharedPtr` and `WeakPtr` variables pointing to
it, no variable points beyond the allocation frontier, and `deallocate()` has
been called on an allocated block once if no variable points to it and not at
all otherwise. -/
def State.WellCounted (s : State) : Prop :=
  (∀ b, b ≠ 0 → (s.heap.blocks b).shared_counter = (s.shared_holders b : Int) ∧
    (s.heap.blocks b).weak_counter = (s.weak_holders b : Int)) ∧
  (∀ b, s.heap.next < b → s.shared_holders b = 0 ∧ s.weak_holders b = 0) ∧
  (∀ b, b ≠ 0 → b ≤ s.heap.next → (s.heap.blocks b).deallocations =
    if s.shared_holders b = 0 ∧ s.weak_holders b = 0 then 1 else 0)

/-- The counters and the storage under an operation that takes an owner from
block `sdec`, gives one to `sinc`, gives an observer to `winc` and then takes
one from `wdec` (`0` for none): `deallocate()` is called on the block that loses
its last owner with no observer left, or its last observer with no owner
left. -/
def Heap.Acts (σ σ' : Heap) (sdec sinc wdec winc : Nat) : Prop :=
  σ'.next = σ.next ∧ ∀ b, b ≠ 0 →
    (σ'.blocks b).shared_counter =
      (σ.blocks b).shared_counter - (if b = sdec then 1 else 0) + (if b = sinc then 1 else 0) ∧
    (σ'.blocks b).weak_counter =
      (σ.blocks b).weak_counter - (if b = wdec then 1 else 0) + (if b = winc then 1 else 0) ∧
    (σ'.blocks b).deallocations = (σ.blocks b).deallocations +
      (if (b = sdec ∧ (σ.blocks b).shared_counter = 1 ∧ (σ.blocks b).weak_counter = 0) ∨
          (b = wdec ∧ (σ.blocks b).weak_counter + (if b = winc then 1 else 0) = 1 ∧
            (σ.blocks b).shared_counter = 0)
        then 1 else 0)

/-- The number of self-reference members `wptr` that point to block `b`, 0 or
1: only the object a `ControlBlockRegular` was built over can hold one. -/
def Heap.slot_holders (σ : Heap) (b : Nat) : Nat :=
  match (σ.blocks b).variant with
  | .ControlBlockRegular object _ =>
    match σ.wptr object with
    | some w => if w.cb = b then 1 else 0
    | none => 0
  | .ControlBlockMakeShared _ => 0

/-- Every non-null member `wptr` of a live object at `p` points to an allocated
`ControlBlockRegular` built over `p`. -/
def Heap.SlotsSound (σ : Heap) : Prop :=
  ∀ p w, σ.wptr p = some w → w.cb ≠ 0 →
    w.cb ≤ σ.next ∧ ∃ d, (σ.blocks w.cb).variant = .ControlBlockRegular p d

/-- A handle with a non-null address observes the object its (allocated) block
was built over. -/
def Heap.Observes (σ : Heap) (h : SharedPtr) : Prop :=
  h.cb ≠ 0 → h.ptr ≠ 0 →
    h.cb ≤ σ.next ∧ ∃ d, (σ.blocks h.cb).variant = .ControlBlockRegular h.ptr d

/-- The observing side of an operation on `WeakPtr` handles that takes one
observer away from block `dec` and adds one to block `inc` (`0` for none): the
classes, the allocation frontier and the members `wptr` are kept, the weak
counters move accordingly, and storage is handed back only for a block whose
`weak_counter` is zero. -/
def Heap.Observers (σ σ' : Heap) (dec inc : Nat) : Prop :=
  σ'.next = σ.next ∧ σ'.wptr = σ.wptr ∧ ∀ b,
    (σ'.blocks b).variant = (σ.blocks b).variant ∧
    (σ'.blocks b).weak_counter =
      (σ.blocks b).weak_counter - (if b = dec ∧ dec ≠ 0 then 1 else 0)
        + (if b = inc ∧ inc ≠ 0 then 1 else 0) ∧
    ((σ'.blocks b).deallocations ≠ 0 →
      ((σ.blocks b).deallocations ≠ 0 ∧
        (σ'.blocks b).weak_counter = (σ.blocks b).weak_counter) ∨
      (σ'.blocks b).weak_counter = 0)

/-- The observing side of an operation on `SharedPtr` handles: allocated blocks
keep their class, storage is handed back only for a block whose `weak_counter`
is zero, and, the members `wptr` being sound before, they are sound afterwards,
the `weak_counter` of every allocated block has moved exactly as the number of
members `wptr` pointing to it, and a block allocated by the operation has as
many observers as members `wptr` pointing to it. -/
def Heap.Steady (σ σ' : Heap) : Prop :=
  σ.next ≤ σ'.next ∧
  (∀ b, b ≤ σ.next → (σ'.blocks b).variant = (σ.blocks b).variant) ∧
  (∀ b, (σ'.blocks b).deallocations ≠ 0 →
    ((σ.blocks b).deallocations ≠ 0 ∧
      (σ'.blocks b).weak_counter = (σ.blocks b).weak_counter) ∨
    (σ'.blocks b).weak_counter = 0) ∧
  (σ.SlotsSound → σ'.SlotsSound ∧
    (∀ b, b ≠ 0 → b ≤ σ.next →
      (σ'.blocks b).weak_counter - (σ'.slot_holders b : Int) =
        (σ.blocks b).weak_counter - (σ.slot_holders b : Int)) ∧
    (∀ b, σ.next < b → b ≤ σ'.next →
      (σ'.blocks b).weak_counter = (σ'.slot_holders b : Int)))

/-- For any payload type: every `SharedPtr` variable observes the object of its
block, the members `wptr` are sound, the `weak_counter` of every allocated block
is the number of live `WeakPtr` variables plus the number of members `wptr`
pointing to it, no `WeakPtr` variable points beyond the allocation frontier, and
a block whose storage has been handed back has `weak_counter == 0`. -/
def State.Accounted (s : State) : Prop :=
  (∀ h, some h ∈ s.sp → s.heap.Observes h) ∧
  s.heap.SlotsSound ∧
  (∀ b, b ≠ 0 → b ≤ s.heap.next →
    (s.heap.blocks b).weak_counter = (s.weak_holders b : Int) + (s.heap.slot_holders b : Int)) ∧
  (∀ b, s.heap.next < b → s.weak_holders b = 0) ∧
  (∀ b, (s.heap.blocks b).deallocations ≠ 0 → (s.heap.blocks b).weak_counter = 0)

/-- No counter is beyond the largest `int`. -/
def Heap.Bounded (σ : Heap) : Prop :=
  ∀ b, (σ.blocks b).shared_counter ≤ INT_MAX ∧ (σ.blocks b).weak_counter ≤ INT_MAX

/-- An operation raises no counter beyond `INT_MAX`: afterwards each counter
is at most `INT_MAX` or at most what it was. -/
def Heap.Capped (σ σ' : Heap) : Prop :=
  ∀ b, ((σ'.blocks b).shared_counter ≤ INT_MAX ∨
      (σ'.blocks b).shared_counter ≤ (σ.blocks b).shared_counter) ∧
    ((σ'.blocks b).weak_counter ≤ INT_MAX ∨
      (σ'.blocks b).weak_counter ≤ (σ.blocks b).weak_counter)

theorem bind_ok_iff {ε α β : Type} (x : Except ε α) (f : α → Except ε β) (b : β) :
    (x >>= f) = .ok b ↔ ∃ a, x = .ok a ∧ f a = .ok b := by
  cases x <;> simp [bind, Except.bind]

theorem pure_ok_iff {ε α : Type} (a b : α) :
    (pure a : Except ε α) = .ok b ↔ a = b := by
  simp [pure, Except.pure]

theorem ite_ok_iff {ε α : Type} (c : Prop) [Decidable c] (x y : Except ε α) (r : α) :
    (if c then x else y) = .ok r ↔ (c ∧ x = .ok r) ∨ (¬c ∧ y = .ok r) := by
  split_ifs with h <;> simp [h]

theorem load_ok_iff (σ : Heap) (cb : Nat) (b : BaseControlBlock) :
    σ.load cb = .ok b ↔ cb ≠ 0 ∧ (σ.blocks cb).deallocations = 0 ∧ σ.blocks cb = b := by
  unfold Heap.load
  split_ifs <;> simp_all

theorem modify_ok_iff (σ σ' : Heap) (cb : Nat) (f : BaseControlBlock → BaseControlBlock) :
    σ.modify cb f = .ok σ' ↔
      cb ≠ 0 ∧ (σ.blocks cb).deallocations = 0 ∧ σ.store cb (f (σ.blocks cb)) = σ' := by
  simp only [Heap.modify, bind_ok_iff, load_ok_iff, pure_ok_iff]
  constructor
  · rintro ⟨a, ⟨h1, h2, rfl⟩, h3⟩; exact ⟨h1, h2, h3⟩
  · rintro ⟨h1, h2, h3⟩; exact ⟨_, ⟨h1, h2, rfl⟩, h3⟩

theorem incShared_modify {cb : Nat} {σ σ' : Heap} (h : incShared cb σ = .ok σ') :
    σ.modify cb (fun b => { b with shared_counter := b.shared_counter + 1 }) = .ok σ' ∧
      (σ.blocks cb).shared_counter < INT_MAX := by
  simp only [incShared, bind_ok_iff, load_ok_iff, ite_ok_iff] at h
  obtain ⟨b, ⟨-, -, rfl⟩, (⟨-, h1⟩ | ⟨h1, h2⟩)⟩ := h
  · cases h1
  · exact ⟨h2, by omega⟩

theorem zero_lt_INT_MAX : (0 : Int) < INT_MAX := by
  unfold INT_MAX
  norm_num

theorem one_lt_INT_MAX : (1 : Int) < INT_MAX := by
  unfold INT_MAX
  norm_num

theorem not_INT_MAX_le_zero : ¬ INT_MAX ≤ 0 := not_le.mpr zero_lt_INT_MAX

theorem not_INT_MAX_le_one : ¬ INT_MAX ≤ 1 := not_le.mpr one_lt_INT_MAX

theorem incWeak_modify {cb : Nat} {σ σ' : Heap} (h : incWeak cb σ = .ok σ') :
    σ.modify cb (fun b => { b with weak_counter := b.weak_counter + 1 }) = .ok σ' ∧
      (σ.blocks cb).weak_counter < INT_MAX := by
  simp only [incWeak, bind_ok_iff, load_ok_iff, ite_ok_iff] at h
  obtain ⟨b, ⟨-, -, rfl⟩, (⟨-, h1⟩ | ⟨h1, h2⟩)⟩ := h
  · cases h1
  · exact ⟨h2, by omega⟩

theorem Heap.SameOwners.so_refl (σ : Heap) : σ.SameOwners σ := ⟨rfl, fun _ => ⟨rfl, rfl, rfl⟩⟩

theorem Heap.SameOwners.so_trans {σ1 σ2 σ3 : Heap} (h1 : σ1.SameOwners σ2) (h2 : σ2.SameOwners σ3) :
    σ1.SameOwners σ3 := by
  refine ⟨h2.1.trans h1.1, fun b => ?_⟩
  obtain ⟨a1, a2, a3⟩ := h1.2 b
  obtain ⟨b1, b2, b3⟩ := h2.2 b
  exact ⟨b1.trans a1, b2.trans a2, b3.trans a3⟩

theorem Heap.SameOwners.so_store {σ : Heap} {cb : Nat} {blk : BaseControlBlock}
    (h1 : blk.shared_counter = (σ.blocks cb).shared_counter)
    (h2 : blk.variant = (σ.blocks cb).variant)
    (h3 : blk.deleted = (σ.blocks cb).deleted) : σ.SameOwners (σ.store cb blk) := by
  refine ⟨rfl, fun b => ?_⟩
  by_cases hb : b = cb
  · subst hb; simp [Heap.store, h1, h2, h3]
  · simp [Heap.store, hb]

theorem Heap.SameOwners.so_setWptr (σ : Heap) (p : Nat) (w : Option WeakPtr) :
    σ.SameOwners (σ.setWptr p w) := ⟨rfl, fun _ => ⟨rfl, rfl, rfl⟩⟩

theorem incWeak_sameOwners {cb : Nat} {σ σ' : Heap} (h : incWeak cb σ = .ok σ') :
    σ.SameOwners σ' := by
  have h := (incWeak_modify h).1
  simp only [modify_ok_iff] at h
  obtain ⟨_, _, rfl⟩ := h
  exact Heap.SameOwners.so_store rfl rfl rfl

theorem decWeak_sameOwners {cb : Nat} {σ σ' : Heap} (h : decWeak cb σ = .ok σ') :
    σ.SameOwners σ' := by
  simp only [decWeak, modify_ok_iff] at h
  obtain ⟨_, _, rfl⟩ := h
  exact Heap.SameOwners.so_store rfl rfl rfl

theorem deallocate_sameOwners {cb : Nat} {σ σ' : Heap} (h : deallocate cb σ = .ok σ') :
    σ.SameOwners σ' := by
  simp only [deallocate, modify_ok_iff] at h
  obtain ⟨_, _, rfl⟩ := h
  exact Heap.SameOwners.so_store rfl rfl rfl

theorem call_destructor_sameOwners {cb : Nat} {σ σ' : Heap}
    (h : call_destructor cb σ = .ok σ') : σ.SameOwners σ' := by
  simp only [call_destructor, modify_ok_iff] at h
  obtain ⟨_, _, rfl⟩ := h
  exact Heap.SameOwners.so_store rfl rfl rfl

theorem WeakPtr.weak_dtor_sameOwners {w : WeakPtr} {σ σ' : Heap} (h : w.dtor σ = .ok σ') :
    σ.SameOwners σ' := by
  simp only [WeakPtr.dtor, bind_ok_iff, pure_ok_iff, ite_ok_iff] at h
  rcases h with ⟨_, σ1, h1, b, _, (⟨_, h2⟩ | ⟨_, rfl⟩)⟩ | ⟨_, rfl⟩
  · exact (decWeak_sameOwners h1).so_trans (deallocate_sameOwners h2)
  · exact decWeak_sameOwners h1
  · exact Heap.SameOwners.so_refl _

theorem WeakPtr.weak_from_shared_sameOwners {other : SharedPtr} {σ : Heap} {r : WeakPtr × Heap}
    (h : WeakPtr.from_shared other σ = .ok r) : σ.SameOwners r.2 := by
  simp only [WeakPtr.from_shared, bind_ok_iff, pure_ok_iff] at h
  obtain ⟨σ1, h1, rfl⟩ := h
  exact incWeak_sameOwners h1

theorem WeakPtr.weak_copy_ctor_sameOwners {other : WeakPtr} {σ : Heap} {r : WeakPtr × Heap}
    (h : WeakPtr.copy_ctor other σ = .ok r) : σ.SameOwners r.2 := by
  simp only [WeakPtr.copy_ctor, bind_ok_iff, pure_ok_iff] at h
  obtain ⟨σ1, h1, rfl⟩ := h
  exact incWeak_sameOwners h1

theorem WeakPtr.weak_assign_shared_sameOwners {self : WeakPtr} {other : SharedPtr} {σ : Heap}
    {r : WeakPtr × Heap} (h : self.assign_shared other σ = .ok r) : σ.SameOwners r.2 := by
  simp only [WeakPtr.assign_shared, bind_ok_iff, pure_ok_iff] at h
  obtain ⟨r1, h1, σ2, h2, rfl⟩ := h
  exact (WeakPtr.weak_from_shared_sameOwners h1).so_trans (WeakPtr.weak_dtor_sameOwners h2)

theorem WeakPtr.weak_copy_assign_sameOwners {self other : WeakPtr} {σ : Heap}
    {r : WeakPtr × Heap} (h : self.copy_assign other σ = .ok r) : σ.SameOwners r.2 := by
  simp only [WeakPtr.copy_assign, bind_ok_iff, pure_ok_iff] at h
  obtain ⟨r1, h1, σ2, h2, rfl⟩ := h
  exact (WeakPtr.weak_copy_ctor_sameOwners h1).so_trans (WeakPtr.weak_dtor_sameOwners h2)

theorem SharedPtr.set_wptr_sameOwners {optIn : Bool} {self : SharedPtr} {σ σ' : Heap}
    (h : SharedPtr.set_wptr optIn self σ = .ok σ') : σ.SameOwners σ' := by
  simp only [SharedPtr.set_wptr, bind_ok_iff, pure_ok_iff, ite_ok_iff] at h
  rcases h with ⟨_, w, _, r, h2, rfl⟩ | ⟨_, rfl⟩
  · exact (WeakPtr.weak_assign_shared_sameOwners h2).so_trans (Heap.SameOwners.so_setWptr _ _ _)
  · exact Heap.SameOwners.so_refl _

theorem destroy_object_sameOwners {optIn : Bool} {p : Nat} {σ σ' : Heap}
    (h : destroy_object optIn p σ = .ok σ') : σ.SameOwners σ' := by
  simp only [destroy_object, bind_ok_iff, pure_ok_iff, ite_ok_iff] at h
  rcases h with ⟨_, w, _, σ1, h2, rfl⟩ | ⟨_, rfl⟩
  · exact (WeakPtr.weak_dtor_sameOwners h2).so_trans (Heap.SameOwners.so_setWptr _ _ _)
  · exact Heap.SameOwners.so_refl _

/-! ## Closed forms for a payload type without the self-reference base -/

@[simp] theorem Heap.store_blocks_same (σ : Heap) (cb : Nat) (b : BaseControlBlock) :
    (σ.store cb b).blocks cb = b := by simp [Heap.store]

theorem Heap.store_blocks (σ : Heap) (cb a : Nat) (b : BaseControlBlock) :
    (σ.store cb b).blocks a = if a = cb then b else σ.blocks a := rfl

@[simp] theorem Heap.store_next (σ : Heap) (cb : Nat) (b : BaseControlBlock) :
    (σ.store cb b).next = σ.next := rfl

@[simp] theorem Heap.store_wptr (σ : Heap) (cb : Nat) (b : BaseControlBlock) :
    (σ.store cb b).wptr = σ.wptr := rfl

@[simp] theorem Heap.store_store (σ : Heap) (cb : Nat) (b c : BaseControlBlock) :
    (σ.store cb b).store cb c = σ.store cb c := by
  simp only [Heap.store, Heap.mk.injEq, and_true, true_and]
  funext a
  split_ifs <;> rfl

theorem Heap.load_eq (σ : Heap) (cb : Nat) :
    σ.load cb = if cb = 0 then .error .nullDeref
      else if (σ.blocks cb).deallocations ≠ 0 then .error .useAfterFree
      else .ok (σ.blocks cb) := rfl

theorem Heap.modify_eq (σ : Heap) (cb : Nat) (f : BaseControlBlock → BaseControlBlock) :
    σ.modify cb f = if cb = 0 then .error .nullDeref
      else if (σ.blocks cb).deallocations ≠ 0 then .error .useAfterFree
      else .ok (σ.store cb (f (σ.blocks cb))) := by
  unfold Heap.modify Heap.load
  split_ifs <;> rfl

theorem WeakPtr.weak_dtor_eq (w : WeakPtr) (σ : Heap) :
    w.dtor σ = if w.cb = 0 then .ok σ
      else if (σ.blocks w.cb).deallocations ≠ 0 then .error .useAfterFree
      else .ok (σ.store w.cb (σ.blocks w.cb).unobserved) := by
  unfold WeakPtr.dtor decWeak deallocate
  simp only [Heap.modify_eq, Heap.load_eq]
  by_cases h0 : w.cb = 0
  · simp [h0, pure, Except.pure]
  by_cases h1 : (σ.blocks w.cb).deallocations = 0
  · by_cases h2 : (σ.blocks w.cb).weak_counter - 1 = 0 ∧ (σ.blocks w.cb).shared_counter = 0
    · simp [h0, h1, h2, bind, Except.bind, pure, Except.pure, BaseControlBlock.unobserved]
    · simp [h0, h1, h2, bind, Except.bind, pure, Except.pure, BaseControlBlock.unobserved]
  · simp [h0, h1, bind, Except.bind]

theorem use_deleter_eq (cb : Nat) (σ : Heap) :
    use_deleter false cb σ = if cb = 0 then .error .nullDeref
      else if (σ.blocks cb).deallocations ≠ 0 then .error .useAfterFree
      else .ok (σ.store cb { σ.blocks cb with
        use_deleter_calls := (σ.blocks cb).use_deleter_calls + 1
        deleted := (σ.blocks cb).deleted ++ (σ.blocks cb).variant.deleter_args }) := by
  unfold use_deleter
  simp only [Heap.load_eq]
  by_cases h0 : cb = 0
  · simp [h0, bind, Except.bind]
  by_cases h1 : (σ.blocks cb).deallocations = 0
  · simp only [h0, h1, bind, Except.bind, if_false, ne_eq, not_true_eq_false]
    cases hv : (σ.blocks cb).variant with
    | ControlBlockRegular object deleter =>
      by_cases ho : object = 0
      · simp [ho, Variant.deleter_args, pure, Except.pure]
      · cases hd : deleter.destroys <;>
          simp [ho, hd, Variant.deleter_args, pure, Except.pure, destroy_object]
    | ControlBlockMakeShared v => simp [Variant.deleter_args, pure, Except.pure]
  · simp [h0, h1, bind, Except.bind]

theorem SharedPtr.dtor_eq (self : SharedPtr) (σ : Heap) :
    SharedPtr.dtor false self σ = if self.cb = 0 then .ok σ
      else if (σ.blocks self.cb).deallocations ≠ 0 then .error .useAfterFree
      else .ok (σ.store self.cb ((σ.blocks self.cb).released (decide (self.ptr ≠ 0)))) := by
  unfold SharedPtr.dtor decShared deallocate call_destructor
  simp only [Heap.modify_eq, Heap.load_eq, use_deleter_eq]
  by_cases h0 : self.cb = 0
  · simp [h0, pure, Except.pure]
  by_cases h1 : (σ.blocks self.cb).deallocations = 0
  · by_cases h2 : (σ.blocks self.cb).shared_counter - 1 = 0
    · by_cases h3 : self.ptr = 0 <;> by_cases h4 : (σ.blocks self.cb).weak_counter = 0 <;>
        simp [h0, h1, h2, h3, h4, bind, Except.bind, pure, Except.pure,
          BaseControlBlock.released]
    · simp [h0, h1, h2, bind, Except.bind, pure, Except.pure, BaseControlBlock.released]
  · simp [h0, h1, bind, Except.bind]

theorem SharedPtr.release_in_assign_eq (self : SharedPtr) (σ : Heap) :
    SharedPtr.release_in_assign false self σ = if self.cb = 0 then .ok σ
      else if (σ.blocks self.cb).deallocations ≠ 0 then .error .useAfterFree
      else .ok (σ.store self.cb ((σ.blocks self.cb).released true)) := by
  unfold SharedPtr.release_in_assign decShared deallocate call_destructor
  simp only [Heap.modify_eq, Heap.load_eq, use_deleter_eq]
  by_cases h0 : self.cb = 0
  · simp [h0, pure, Except.pure]
  by_cases h1 : (σ.blocks self.cb).deallocations = 0
  · by_cases h2 : (σ.blocks self.cb).shared_counter - 1 = 0
    · by_cases h4 : (σ.blocks self.cb).weak_counter = 0 <;>
        simp [h0, h1, h2, h4, bind, Except.bind, pure, Except.pure,
          BaseControlBlock.released]
    · simp [h0, h1, h2, bind, Except.bind, pure, Except.pure, BaseControlBlock.released]
  · simp [h0, h1, bind, Except.bind]

/-! ## The owning side of every operation -/

theorem Heap.SameOwners.owners {σ σ' : Heap} (h : σ.SameOwners σ') (c : Bool) :
    σ.Owners σ' 0 0 c := by
  refine ⟨h.1, fun b => ?_⟩
  obtain ⟨h1, h2, h3⟩ := h.2 b
  simp [h1, h2, h3]

theorem Heap.Owners.same_left {σ σ1 σ2 : Heap} {dec inc : Nat} {c : Bool}
    (h1 : σ.SameOwners σ1) (h2 : σ1.Owners σ2 dec inc c) : σ.Owners σ2 dec inc c := by
  refine ⟨h2.1.trans h1.1, fun b => ?_⟩
  obtain ⟨a1, a2, a3⟩ := h1.2 b
  obtain ⟨b1, b2, b3⟩ := h2.2 b
  rw [b1, b2, b3, a1, a2, a3]
  exact ⟨rfl, rfl, rfl⟩

theorem Heap.Owners.same_right {σ σ1 σ2 : Heap} {dec inc : Nat} {c : Bool}
    (h1 : σ.Owners σ1 dec inc c) (h2 : σ1.SameOwners σ2) : σ.Owners σ2 dec inc c := by
  refine ⟨h2.1.trans h1.1, fun b => ?_⟩
  obtain ⟨a1, a2, a3⟩ := h1.2 b
  obtain ⟨b1, b2, b3⟩ := h2.2 b
  rw [b1, b2, b3, a1, a2, a3]
  exact ⟨rfl, rfl, rfl⟩

theorem Heap.Alloc.alloc_same_right {σ σ1 σ2 : Heap} {v : Variant}
    (h1 : σ.Alloc σ1 v) (h2 : σ1.SameOwners σ2) : σ.Alloc σ2 v := by
  obtain ⟨a1, a2, a3, a4, a5⟩ := h1
  refine ⟨h2.1.trans a1, ?_, ?_, ?_, fun b hb => ?_⟩
  · rw [(h2.2 _).2.1, a2]
  · rw [(h2.2 _).1, a3]
  · rw [(h2.2 _).2.2, a4]
  · obtain ⟨b1, b2, b3⟩ := h2.2 b
    obtain ⟨c1, c2, c3⟩ := a5 b hb
    exact ⟨b1.trans c1, b2.trans c2, b3.trans c3⟩

theorem incShared_owners {cb : Nat} {σ σ' : Heap} (h : incShared cb σ = .ok σ') :
    cb ≠ 0 ∧ (σ.blocks cb).deallocations = 0 ∧ σ.Owners σ' 0 cb false := by
  have h := (incShared_modify h).1
  simp only [modify_ok_iff] at h
  obtain ⟨h0, h1, rfl⟩ := h
  refine ⟨h0, h1, rfl, fun b => ?_⟩
  by_cases hb : b = cb
  · subst hb; simp [h0]
  · simp [Heap.store_blocks, hb]

theorem use_deleter_owners {optIn : Bool} {cb : Nat} {σ σ' : Heap}
    (h : use_deleter optIn cb σ = .ok σ') :
    σ'.next = σ.next ∧ ∀ b,
      (σ'.blocks b).variant = (σ.blocks b).variant ∧
      (σ'.blocks b).shared_counter = (σ.blocks b).shared_counter ∧
      (σ'.blocks b).deleted =
        if b = cb then (σ.blocks b).deleted ++ (σ.blocks b).variant.deleter_args
        else (σ.blocks b).deleted := by
  simp only [use_deleter, bind_ok_iff, load_ok_iff] at h
  obtain ⟨blk, ⟨h0, h1, rfl⟩, h2⟩ := h
  have key : ∀ (blk : BaseControlBlock),
      blk.variant = (σ.blocks cb).variant →
      blk.shared_counter = (σ.blocks cb).shared_counter →
      blk.deleted = (σ.blocks cb).deleted ++ (σ.blocks cb).variant.deleter_args →
      (σ.store cb blk).SameOwners σ' →
      σ'.next = σ.next ∧ ∀ b,
        (σ'.blocks b).variant = (σ.blocks b).variant ∧
        (σ'.blocks b).shared_counter = (σ.blocks b).shared_counter ∧
        (σ'.blocks b).deleted =
          if b = cb then (σ.blocks b).deleted ++ (σ.blocks b).variant.deleter_args
          else (σ.blocks b).deleted := by
    intro blk e1 e2 e3 hs
    refine ⟨hs.1, fun b => ?_⟩
    obtain ⟨b1, b2, b3⟩ := hs.2 b
    rw [b1, b2, b3]
    by_cases hb : b = cb
    · subst hb; simp [e1, e2, e3]
    · simp [Heap.store_blocks, hb]
  split at h2
  · rename_i object deleter hv
    simp only [ite_ok_iff, pure_ok_iff] at h2
    rcases h2 with ⟨ho, (⟨_, h3⟩ | ⟨_, rfl⟩)⟩ | ⟨ho, rfl⟩
    · exact key _ (by rfl) (by rfl) (by simp [hv, Variant.deleter_args, ho])
        (destroy_object_sameOwners h3)
    · exact key _ (by rfl) (by rfl) (by simp [hv, Variant.deleter_args, ho]) (Heap.SameOwners.so_refl _)
    · exact key _ (by rfl) (by rfl) (by simp at ho; simp [hv, Variant.deleter_args, ho])
        (Heap.SameOwners.so_refl _)
  · rename_i v hv
    simp only [pure_ok_iff] at h2
    subst h2
    exact key _ (by rfl) (by rfl) (by simp [hv, Variant.deleter_args]) (Heap.SameOwners.so_refl _)

theorem decShared_ok {cb : Nat} {σ σ' : Heap} (h : decShared cb σ = .ok σ') :
    cb ≠ 0 ∧ (σ.blocks cb).deallocations = 0 ∧
      σ' = σ.store cb { σ.blocks cb with shared_counter := (σ.blocks cb).shared_counter - 1 } := by
  simp only [decShared, modify_ok_iff] at h
  exact ⟨h.1, h.2.1, h.2.2.symm⟩

/-- Common part of the destructor and of the release block of the assignment
operators, given what their `use_deleter()` step did. -/
theorem release_owners_aux {c : Bool} {cb : Nat} {σ σ2 σ' : Heap} (h0 : cb ≠ 0)
    (hz : (σ.blocks cb).shared_counter - 1 = 0)
    (h2 : σ2.next = σ.next ∧ ∀ b,
      (σ2.blocks b).variant = (σ.blocks b).variant ∧
      (σ2.blocks b).shared_counter =
        (if b = cb then (σ.blocks b).shared_counter - 1 else (σ.blocks b).shared_counter) ∧
      (σ2.blocks b).deleted =
        if b = cb ∧ c = true then (σ.blocks b).deleted ++ (σ.blocks b).variant.deleter_args
        else (σ.blocks b).deleted)
    (h3 : σ2.SameOwners σ') : σ.Owners σ' cb 0 c := by
  refine ⟨h3.1.trans h2.1, fun b => ?_⟩
  obtain ⟨a1, a2, a3⟩ := h2.2 b
  obtain ⟨b1, b2, b3⟩ := h3.2 b
  rw [b1, b2, b3, a1, a2, a3]
  refine ⟨rfl, ?_, ?_⟩
  · by_cases hb : b = cb <;> simp [hb, h0]
  · by_cases hb : b = cb
    · subst hb
      have : (σ.blocks b).shared_counter = 1 := by omega
      simp [h0, this]
    · simp [hb]

theorem tail_sameOwners {cb : Nat} {σ2 σ' : Heap}
    (h : (call_destructor cb σ2 >>= fun σ3 => σ3.load cb >>= fun b3 =>
      if b3.weak_counter = 0 then deallocate cb σ3 else pure σ3) = .ok σ') :
    σ2.SameOwners σ' := by
  simp only [bind_ok_iff, ite_ok_iff, pure_ok_iff] at h
  obtain ⟨σ3, h3, b3, _, (⟨_, h5⟩ | ⟨_, rfl⟩)⟩ := h
  · exact (call_destructor_sameOwners h3).so_trans (deallocate_sameOwners h5)
  · exact call_destructor_sameOwners h3

theorem SharedPtr.dtor_owners {optIn : Bool} {self : SharedPtr} {σ σ' : Heap}
    (h : SharedPtr.dtor optIn self σ = .ok σ') :
    σ.Owners σ' self.cb 0 (decide (self.ptr ≠ 0)) := by
  unfold SharedPtr.dtor at h
  by_cases h0 : self.cb = 0
  · simp only [h0, ne_eq, not_true_eq_false, if_false, pure_ok_iff] at h
    subst h
    refine ⟨rfl, fun b => ?_⟩
    simp [h0]
  · simp only [ne_eq, h0, not_false_eq_true, if_true] at h
    rw [bind_ok_iff] at h
    obtain ⟨σ1, h1, h⟩ := h
    obtain ⟨-, hd, rfl⟩ := decShared_ok h1
    rw [bind_ok_iff] at h
    obtain ⟨b1, hb1, h⟩ := h
    rw [load_ok_iff] at hb1
    obtain ⟨-, -, rfl⟩ := hb1
    simp only [Heap.store_blocks_same] at h
    by_cases hz : (σ.blocks self.cb).shared_counter - 1 = 0
    · rw [if_pos hz] at h
      rw [bind_ok_iff] at h
      obtain ⟨σ2, h2, h⟩ := h
      refine release_owners_aux h0 hz ?_ (tail_sameOwners h)
      by_cases hp : self.ptr = 0
      · simp only [hp, not_true_eq_false, if_false, pure_ok_iff] at h2
        subst h2
        refine ⟨rfl, fun b => ?_⟩
        by_cases hb : b = self.cb
        · simp [hb, hp]
        · simp [Heap.store_blocks, hb]
      · simp only [hp, not_false_eq_true, if_true] at h2
        obtain ⟨e1, e2⟩ := use_deleter_owners h2
        refine ⟨e1, fun b => ?_⟩
        obtain ⟨a1, a2, a3⟩ := e2 b
        rw [a1, a2, a3]
        by_cases hb : b = self.cb
        · simp [hb, hp]
        · simp [Heap.store_blocks, hb]
    · rw [if_neg hz, pure_ok_iff] at h
      subst h
      refine ⟨rfl, fun b => ?_⟩
      by_cases hb : b = self.cb
      · have : ¬ (σ.blocks self.cb).shared_counter = 1 := by omega
        simp [hb, h0, this]
      · simp [Heap.store_blocks, hb]

theorem SharedPtr.release_in_assign_owners {optIn : Bool} {self : SharedPtr} {σ σ' : Heap}
    (h : SharedPtr.release_in_assign optIn self σ = .ok σ') :
    σ.Owners σ' self.cb 0 true := by
  unfold SharedPtr.release_in_assign at h
  by_cases h0 : self.cb = 0
  · simp only [h0, ne_eq, not_true_eq_false, if_false, pure_ok_iff] at h
    subst h
    refine ⟨rfl, fun b => ?_⟩
    simp [h0]
  · simp only [ne_eq, h0, not_false_eq_true, if_true] at h
    rw [bind_ok_iff] at h
    obtain ⟨σ1, h1, h⟩ := h
    obtain ⟨-, hd, rfl⟩ := decShared_ok h1
    rw [bind_ok_iff] at h
    obtain ⟨b1, hb1, h⟩ := h
    rw [load_ok_iff] at hb1
    obtain ⟨-, -, rfl⟩ := hb1
    simp only [Heap.store_blocks_same] at h
    by_cases hz : (σ.blocks self.cb).shared_counter - 1 = 0
    · rw [if_pos hz] at h
      rw [bind_ok_iff] at h
      obtain ⟨σ2, h2, h⟩ := h
      refine release_owners_aux h0 hz ?_ (tail_sameOwners h)
      obtain ⟨e1, e2⟩ := use_deleter_owners h2
      refine ⟨e1, fun b => ?_⟩
      obtain ⟨a1, a2, a3⟩ := e2 b
      rw [a1, a2, a3]
      by_cases hb : b = self.cb
      · simp [hb]
      · simp [Heap.store_blocks, hb]
    · rw [if_neg hz, pure_ok_iff] at h
      subst h
      refine ⟨rfl, fun b => ?_⟩
      by_cases hb : b = self.cb
      · have : ¬ (σ.blocks self.cb).shared_counter = 1 := by omega
        simp [hb, h0, this]
      · simp [Heap.store_blocks, hb]

theorem SharedPtr.copy_ctor_owners {optIn : Bool} {other : SharedPtr} {σ : Heap}
    {r : SharedPtr × Heap} (h : SharedPtr.copy_ctor optIn other σ = .ok r) :
    r.1 = other ∧ (other.cb ≠ 0 → (σ.blocks other.cb).deallocations = 0) ∧
      σ.Owners r.2 0 other.cb false := by
  unfold SharedPtr.copy_ctor at h
  by_cases h0 : other.cb = 0
  · rw [if_neg (not_not.mpr h0), pure_ok_iff] at h
    subst h
    refine ⟨rfl, fun hc => absurd h0 hc, ?_⟩
    rw [h0]
    exact (Heap.SameOwners.so_refl σ).owners false
  · simp only [ne_eq, h0, not_false_eq_true, if_true, bind_ok_iff, pure_ok_iff] at h
    obtain ⟨σ1, h1, σ2, h2, rfl⟩ := h
    obtain ⟨-, hd, ho⟩ := incShared_owners h1
    exact ⟨rfl, fun _ => hd, ho.same_right (SharedPtr.set_wptr_sameOwners h2)⟩

theorem SharedPtr.copy_ctor_conv_owners {optIn : Bool} {other : SharedPtr} {σ : Heap}
    {r : SharedPtr × Heap} (h : SharedPtr.copy_ctor_conv optIn other σ = .ok r) :
    r.1 = other ∧ other.cb ≠ 0 ∧ (σ.blocks other.cb).deallocations = 0 ∧
      σ.Owners r.2 0 other.cb false := by
  simp only [SharedPtr.copy_ctor_conv, bind_ok_iff, pure_ok_iff] at h
  obtain ⟨σ1, h1, σ2, h2, rfl⟩ := h
  obtain ⟨h0, hd, ho⟩ := incShared_owners h1
  exact ⟨rfl, h0, hd, ho.same_right (SharedPtr.set_wptr_sameOwners h2)⟩

theorem SharedPtr.move_ctor_owners {optIn : Bool} {other : SharedPtr} {σ : Heap}
    {r : SharedPtr × SharedPtr × Heap} (h : SharedPtr.move_ctor optIn other σ = .ok r) :
    r.1 = other ∧ r.2.1 = SharedPtr.null ∧ σ.SameOwners r.2.2 := by
  unfold SharedPtr.move_ctor at h
  by_cases h0 : other.ptr = 0
  · rw [if_neg (not_not.mpr h0), pure_ok_iff] at h
    subst h
    exact ⟨rfl, rfl, Heap.SameOwners.so_refl σ⟩
  · simp only [ne_eq, h0, not_false_eq_true, if_true, bind_ok_iff, pure_ok_iff] at h
    obtain ⟨σ1, h1, rfl⟩ := h
    exact ⟨rfl, rfl, SharedPtr.set_wptr_sameOwners h1⟩

theorem Heap.Owners.then_inc {σ σ1 σ2 : Heap} {dec inc : Nat} {c : Bool}
    (h1 : σ.Owners σ1 dec 0 c) (h2 : σ1.Owners σ2 0 inc false) : σ.Owners σ2 dec inc c := by
  refine ⟨h2.1.trans h1.1, fun b => ?_⟩
  obtain ⟨a1, a2, a3⟩ := h1.2 b
  obtain ⟨b1, b2, b3⟩ := h2.2 b
  rw [b1, b2, b3, a1, a2, a3]
  simp

theorem SharedPtr.copy_assign_owners {optIn : Bool} {self other : SharedPtr} {σ : Heap}
    {r : SharedPtr × Heap} (h : SharedPtr.copy_assign optIn self other σ = .ok r) :
    ((other.cb = self.cb ∨ (other.ptr = self.ptr ∧ self.ptr ≠ 0)) ∧ r = (self, σ)) ∨
    (other.cb ≠ self.cb ∧ r.1 = other ∧ σ.Owners r.2 self.cb other.cb true) := by
  unfold SharedPtr.copy_assign at h
  by_cases hg : other.cb = self.cb ∨ (other.ptr = self.ptr ∧ self.ptr ≠ 0)
  · rw [if_pos hg, pure_ok_iff] at h
    exact Or.inl ⟨hg, h.symm⟩
  · rw [if_neg hg, bind_ok_iff] at h
    obtain ⟨σ4, h4, h⟩ := h
    have ho := SharedPtr.release_in_assign_owners h4
    refine Or.inr ⟨fun hc => hg (Or.inl hc), ?_⟩
    by_cases h0 : other.cb = 0
    · rw [if_neg (not_not.mpr h0), pure_ok_iff] at h
      subst h
      refine ⟨rfl, ?_⟩
      rw [h0]
      exact ho
    · simp only [ne_eq, h0, not_false_eq_true, if_true, bind_ok_iff, pure_ok_iff] at h
      obtain ⟨σ5, h5, rfl⟩ := h
      exact ⟨rfl, ho.then_inc (incShared_owners h5).2.2⟩

theorem SharedPtr.move_assign_conv_owners {optIn : Bool} {self other : SharedPtr} {σ : Heap}
    {r : SharedPtr × SharedPtr × Heap}
    (h : SharedPtr.move_assign_conv optIn self other σ = .ok r) :
    r.1 = other ∧ r.2.1 = SharedPtr.null ∧ σ.Owners r.2.2 self.cb 0 true := by
  simp only [SharedPtr.move_assign_conv, bind_ok_iff, pure_ok_iff] at h
  obtain ⟨σ4, h4, rfl⟩ := h
  exact ⟨rfl, rfl, SharedPtr.release_in_assign_owners h4⟩

theorem SharedPtr.move_assign_owners {optIn : Bool} {self other : SharedPtr} {σ : Heap}
    {r : SharedPtr × SharedPtr × Heap}
    (h : SharedPtr.move_assign optIn self other σ = .ok r) :
    r.1 = other ∧ r.2.1 = SharedPtr.null ∧
      σ.Owners r.2.2 self.cb 0 (decide (self.ptr ≠ 0)) := by
  simp only [SharedPtr.move_assign, bind_ok_iff, pure_ok_iff] at h
  obtain ⟨r1, h1, σ2, h2, rfl⟩ := h
  obtain ⟨e1, e2, e3⟩ := SharedPtr.move_ctor_owners h1
  refine ⟨?_, e2, ?_⟩
  · simp [SharedPtr.swap, e1]
  · exact (SharedPtr.dtor_owners h2).same_left e3

theorem SharedPtr.reset_owners {optIn : Bool} {self : SharedPtr} {σ : Heap}
    {r : SharedPtr × Heap} (h : SharedPtr.reset optIn self σ = .ok r) :
    r.1 = SharedPtr.null ∧ σ.Owners r.2 self.cb 0 (decide (self.ptr ≠ 0)) := by
  simp only [SharedPtr.reset, bind_ok_iff, pure_ok_iff] at h
  obtain ⟨σ1, h1, rfl⟩ := h
  exact ⟨rfl, SharedPtr.dtor_owners h1⟩

theorem SharedPtr.from_raw_owners {optIn : Bool} {pt : Nat} {deleter : Deleter} {σ : Heap}
    {r : SharedPtr × Heap} (h : SharedPtr.from_raw optIn pt deleter σ = .ok r) :
    r.1 = ⟨pt, σ.next + 1⟩ ∧ σ.Alloc r.2 (.ControlBlockRegular pt deleter) := by
  simp only [SharedPtr.from_raw, bind_ok_iff, pure_ok_iff] at h
  obtain ⟨σ2, h2, rfl⟩ := h
  refine ⟨rfl, Heap.Alloc.alloc_same_right ?_ (SharedPtr.set_wptr_sameOwners h2)⟩
  refine ⟨rfl, by simp [Heap.store], by simp [Heap.store], by simp [Heap.store], fun b hb => ?_⟩
  simp [Heap.store, hb]

theorem makeShared_owners (v : Int) (σ : Heap) :
    (makeShared v σ).1 = ⟨0, σ.next + 1⟩ ∧
      σ.Alloc (makeShared v σ).2 (.ControlBlockMakeShared v) := by
  refine ⟨rfl, rfl, by simp [makeShared, allocateShared, Heap.store],
    by simp [makeShared, allocateShared, Heap.store],
    by simp [makeShared, allocateShared, Heap.store], fun b hb => ?_⟩
  simp [makeShared, allocateShared, Heap.store, hb]

theorem SharedPtr.reset_raw_owners {optIn : Bool} {self : SharedPtr} {new_ptr : Nat} {σ : Heap}
    {r : SharedPtr × Heap} (h : SharedPtr.reset_raw optIn self new_ptr σ = .ok r) :
    r.1 = ⟨new_ptr, σ.next + 1⟩ ∧ ∃ σ1,
      σ.Alloc σ1 (.ControlBlockRegular new_ptr Deleter.default_delete) ∧
      σ1.Owners r.2 self.cb 0 (decide (self.ptr ≠ 0)) := by
  simp only [SharedPtr.reset_raw, bind_ok_iff, pure_ok_iff] at h
  obtain ⟨r1, h1, σ2, h2, rfl⟩ := h
  obtain ⟨e1, e2⟩ := SharedPtr.from_raw_owners h1
  refine ⟨?_, r1.2, e2, SharedPtr.dtor_owners h2⟩
  simp [SharedPtr.swap, e1]

theorem WeakPtr.weak_lock_owners {self : WeakPtr} {σ : Heap} {r : SharedPtr × Heap}
    (h : self.lock σ = .ok r) :
    self.cb ≠ 0 ∧ (σ.blocks self.cb).deallocations = 0 ∧
    (((σ.blocks self.cb).shared_counter ≠ 0 ∧ r.1 = ⟨0, self.cb⟩ ∧
        σ.Owners r.2 0 self.cb false) ∨
     ((σ.blocks self.cb).shared_counter = 0 ∧ r = (SharedPtr.null, σ))) := by
  simp only [WeakPtr.lock, WeakPtr.expired, bind_ok_iff, pure_ok_iff, load_ok_iff] at h
  obtain ⟨e, ⟨blk, ⟨h0, hd, rfl⟩, rfl⟩, h⟩ := h
  refine ⟨h0, hd, ?_⟩
  by_cases hz : (σ.blocks self.cb).shared_counter = 0
  · simp only [hz, decide_True, Bool.true_eq_false, if_false, pure_ok_iff] at h
    exact Or.inr ⟨hz, h.symm⟩
  · simp only [hz, decide_False, if_true, bind_ok_iff, pure_ok_iff] at h
    obtain ⟨σ1, h1, rfl⟩ := h
    exact Or.inl ⟨hz, rfl, (incShared_owners h1).2.2⟩

/-! ## Handle variables -/

theorem lookup_mem {α : Type} {l : List (Option α)} {i : Nat} {h : α}
    (hl : lookup l i = some h) : some h ∈ l := by
  induction l generalizing i with
  | nil => simp [lookup] at hl
  | cons o l ih =>
    cases i with
    | zero => simp only [lookup] at hl; simp [hl]
    | succ i => simp only [lookup] at hl; exact List.mem_cons_of_mem _ (ih hl)

theorem lookup_lt {α : Type} {l : List (Option α)} {i : Nat} {h : α}
    (hl : lookup l i = some h) : i < l.length := by
  induction l generalizing i with
  | nil => simp [lookup] at hl
  | cons o l ih =>
    cases i with
    | zero => simp
    | succ i => simp only [lookup] at hl; simpa using ih hl

theorem lookup_set_ne {α : Type} (l : List (Option α)) {i j : Nat} (o : Option α)
    (hij : i ≠ j) : lookup (l.set i o) j = lookup l j := by
  induction l generalizing i j with
  | nil => simp [lookup]
  | cons a l ih =>
    cases i with
    | zero =>
      cases j with
      | zero => exact absurd rfl hij
      | succ j => simp [lookup]
    | succ i =>
      cases j with
      | zero => simp [lookup]
      | succ j => simp only [List.set, lookup]; exact ih (by omega)

theorem holders_single_some {α : Type} (cbOf : α → Nat) (b : Nat) (h : α) :
    holders cbOf b [some h] = if cbOf h = b then 1 else 0 := by
  simp [holders]

theorem holders_single_none {α : Type} (cbOf : α → Nat) (b : Nat) :
    holders cbOf b [(none : Option α)] = 0 := by
  simp [holders]

theorem holders_cons {α : Type} (cbOf : α → Nat) (b : Nat) (o : Option α)
    (l : List (Option α)) : holders cbOf b (o :: l) = holders cbOf b [o] + holders cbOf b l := by
  cases o <;> simp [holders]

theorem holders_append {α : Type} (cbOf : α → Nat) (b : Nat) (l m : List (Option α)) :
    holders cbOf b (l ++ m) = holders cbOf b l + holders cbOf b m := by
  induction l with
  | nil => simp [holders]
  | cons o l ih =>
    rw [List.cons_append, holders_cons, ih, holders_cons cbOf b o l]
    omega

theorem holders_set {α : Type} (cbOf : α → Nat) (b : Nat) {l : List (Option α)} {i : Nat}
    {h : α} (hl : lookup l i = some h) (o : Option α) :
    holders cbOf b (l.set i o) + holders cbOf b [some h] =
      holders cbOf b l + holders cbOf b [o] := by
  induction l generalizing i with
  | nil => simp [lookup] at hl
  | cons a l ih =>
    cases i with
    | zero =>
      simp only [lookup] at hl
      subst hl
      rw [List.set_cons_zero, holders_cons cbOf b o l, holders_cons cbOf b (some h) l]
      omega
    | succ i =>
      simp only [lookup] at hl
      rw [List.set_cons_succ, holders_cons cbOf b a _, holders_cons cbOf b a l]
      have := ih hl
      omega

theorem holders_pos_of_mem {α : Type} (cbOf : α → Nat) {l : List (Option α)} {h : α}
    (hm : some h ∈ l) : 0 < holders cbOf (cbOf h) l := by
  induction l with
  | nil => simp at hm
  | cons a l ih =>
    rw [holders_cons]
    rcases List.mem_cons.mp hm with rfl | hm
    · simp [holders]
    · have := ih hm
      omega

theorem mem_of_mem_set {α : Type} {l : List (Option α)} {i : Nat} {o x : Option α}
    (hm : x ∈ l.set i o) : x ∈ l ∨ x = o :=
  List.mem_or_eq_of_mem_set hm

/-! ## Invariants of the owning side -/

theorem CountsOwners.pos_of_mem {σ : Heap} {sp : List (Option SharedPtr)}
    (hinv : CountsOwners σ sp) {h : SharedPtr} (hm : some h ∈ sp) (h0 : h.cb ≠ 0) :
    0 < (σ.blocks h.cb).shared_counter ∧ h.cb ≤ σ.next := by
  have hp := holders_pos_of_mem SharedPtr.cb hm
  refine ⟨by rw [hinv.1 _ h0]; exact_mod_cast hp, ?_⟩
  by_contra hlt
  have := hinv.2 h.cb (by omega)
  omega

theorem CountsOwners.holders_ne_zero {σ : Heap} {sp : List (Option SharedPtr)}
    (hinv : CountsOwners σ sp) {inc : Nat} (h0 : inc ≠ 0)
    (h : (σ.blocks inc).shared_counter ≠ 0 ∨ ∃ h, some h ∈ sp ∧ h.cb = inc) :
    holders SharedPtr.cb inc sp ≠ 0 := by
  rcases h with h | ⟨x, hm, rfl⟩
  · intro hz
    rw [hinv.1 _ h0, hz] at h
    exact h rfl
  · have := holders_pos_of_mem SharedPtr.cb hm
    omega

theorem Moves.countsOwners {promoted : Bool} {σ σ' : Heap} {sp sp' : List (Option SharedPtr)}
    (hm : Moves promoted σ sp σ' sp') (hinv : CountsOwners σ sp) : CountsOwners σ' sp' := by
  induction hm with
  | @owners σ σ' sp sp' dec inc c ho hcount hinc hdec hmem =>
    refine ⟨fun b hb => ?_, fun b hb => ?_⟩
    · obtain ⟨-, e, -⟩ := ho.2 b
      have h1 := hinv.1 b hb
      have h2 := hcount b hb
      rw [e, h1]
      have e1 : (b = dec ∧ dec ≠ 0) ↔ b = dec := ⟨And.left, fun h => ⟨h, h ▸ hb⟩⟩
      have e2 : (b = inc ∧ inc ≠ 0) ↔ b = inc := ⟨And.left, fun h => ⟨h, h ▸ hb⟩⟩
      simp only [e1, e2]
      split_ifs at h2 ⊢ <;> omega
    · rw [ho.1] at hb
      have hb0 : b ≠ 0 := by omega
      have h1 := hinv.2 b hb
      have h2 := hcount b hb0
      by_cases h4 : b = inc
      · subst h4
        exact absurd h1 (hinv.holders_ne_zero hb0 (hinc hb0))
      · simp only [h4, if_false] at h2
        omega
  | @alloc σ σ' sp pt v ha hv =>
    obtain ⟨a1, a2, a3, a4, a5⟩ := ha
    refine ⟨fun b hb => ?_, fun b hb => ?_⟩
    · rw [holders_append, holders_single_some]
      by_cases h3 : b = σ.next + 1
      · subst h3
        rw [a3, hinv.2 _ (by omega)]
        simp
      · rw [(a5 b h3).1, hinv.1 b hb]
        have : ¬ (σ.next + 1 = b) := fun h => h3 h.symm
        simp [this]
    · rw [a1] at hb
      rw [holders_append, holders_single_some, hinv.2 b (by omega)]
      have : ¬ (σ.next + 1 = b) := by omega
      simp [this]
  | trans _ _ ih1 ih2 => exact ih2 (ih1 hinv)

theorem Moves.same {promoted : Bool} {σ σ' : Heap} (sp : List (Option SharedPtr))
    (h : σ.SameOwners σ') : Moves promoted σ sp σ' sp :=
  Moves.owners (h.owners false) (fun _ _ => rfl) (fun h0 => absurd rfl h0)
    (fun h0 => absurd rfl h0) (fun _ hm => Or.inl hm)

theorem Moves.moves_refl {promoted : Bool} (σ : Heap) (sp : List (Option SharedPtr)) :
    Moves promoted σ sp σ sp :=
  Moves.same sp (Heap.SameOwners.so_refl σ)

/-- A new variable that takes a share of the block of `x`. -/
theorem Moves.append {promoted : Bool} {σ σ' : Heap} {sp : List (Option SharedPtr)}
    {x : SharedPtr} (ho : σ.Owners σ' 0 x.cb false)
    (hinc : x.cb ≠ 0 → (σ.blocks x.cb).shared_counter ≠ 0 ∨ ∃ h, some h ∈ sp ∧ h.cb = x.cb)
    (hx : some x ∈ sp ∨ x.cb = 0 ∨ promoted = true) :
    Moves promoted σ sp σ' (sp ++ [some x]) := by
  refine Moves.owners ho (fun b hb => ?_) hinc (fun h0 => absurd rfl h0) (fun h hm => ?_)
  · rw [holders_append, holders_single_some]
    have e : (x.cb = b) ↔ (b = x.cb) := eq_comm
    simp only [hb, if_false, add_zero, e]
  · rcases List.mem_append.mp hm with h1 | h1
    · exact Or.inl h1
    · simp only [List.mem_singleton, Option.some.injEq] at h1
      subst h1
      exact hx

/-- A variable that gives up its block and takes the value `o`, which is empty,
null or a copy of another variable. -/
theorem Moves.set {promoted : Bool} {σ σ' : Heap} {sp : List (Option SharedPtr)} {i : Nat}
    {self : SharedPtr} {c : Bool} {inc : Nat} {o : Option SharedPtr}
    (hl : lookup sp i = some self) (ho : σ.Owners σ' self.cb inc c)
    (hc : self.ptr ≠ 0 → c = true) (hne : self.cb ≠ 0 → self.cb ≠ inc)
    (hoinc : ∀ b, b ≠ 0 → holders SharedPtr.cb b [o] = if b = inc then 1 else 0)
    (hinc : inc ≠ 0 → ∃ h, some h ∈ sp ∧ h.cb = inc)
    (hx : ∀ h, o = some h → some h ∈ sp ∨ h.cb = 0) :
    Moves promoted σ sp σ' (sp.set i o) := by
  refine Moves.owners ho (fun b hb => ?_) (fun h0 => Or.inr (hinc h0))
    (fun h0 => ⟨hne h0, self, lookup_mem hl, rfl, hc⟩) (fun h hm => ?_)
  · have := holders_set SharedPtr.cb b hl o
    rw [holders_single_some, hoinc b hb] at this
    have e : (self.cb = b) ↔ (b = self.cb) := eq_comm
    simp only [e] at this
    exact this
  · rcases mem_of_mem_set hm with h1 | h1
    · exact Or.inl h1
    · rcases hx h h1.symm with h2 | h2
      · exact Or.inl h2
      · exact Or.inr (Or.inl h2)

theorem holders_set_set {α : Type} (cbOf : α → Nat) (b : Nat) {l : List (Option α)}
    {i j : Nat} {x y : α} (hij : i ≠ j) (hi : lookup l i = some x) (hj : lookup l j = some y)
    (o1 o2 : Option α) :
    holders cbOf b ((l.set i o1).set j o2) + holders cbOf b [some x] + holders cbOf b [some y] =
      holders cbOf b l + holders cbOf b [o1] + holders cbOf b [o2] := by
  have h1 := holders_set cbOf b hi o1
  have hj1 : lookup (l.set i o1) j = some y := by rw [lookup_set_ne l o1 hij]; exact hj
  have h2 := holders_set cbOf b hj1 o2
  omega

theorem mem_of_mem_set_set {α : Type} {l : List (Option α)} {i j : Nat} {o1 o2 x : Option α}
    (hm : x ∈ (l.set i o1).set j o2) : x ∈ l ∨ x = o1 ∨ x = o2 := by
  rcases mem_of_mem_set hm with h | h
  · rcases mem_of_mem_set h with h | h
    · exact Or.inl h
    · exact Or.inr (Or.inl h)
  · exact Or.inr (Or.inr h)

/-- Two variables change at once: `i` gives up its block and takes the handle
of `j`, and `j` becomes null. -/
theorem Moves.set_move {promoted : Bool} {σ σ' : Heap} {sp : List (Option SharedPtr)}
    {i j : Nat} {self other : SharedPtr} {c : Bool} (hij : i ≠ j)
    (hi : lookup sp i = some self) (hj : lookup sp j = some other)
    (ho : σ.Owners σ' self.cb 0 c) (hc : self.ptr ≠ 0 → c = true) :
    Moves promoted σ sp σ' ((sp.set i (some other)).set j (some SharedPtr.null)) := by
  refine Moves.owners ho (fun b hb => ?_) (fun h0 => absurd rfl h0)
    (fun h0 => ⟨h0, self, lookup_mem hi, rfl, hc⟩) (fun h hm => ?_)
  · have := holders_set_set SharedPtr.cb b hij hi hj (some other) (some SharedPtr.null)
    have hn : SharedPtr.null.cb = 0 := rfl
    have e : (self.cb = b) ↔ (b = self.cb) := eq_comm
    simp only [holders_single_some, hn, e, hb.symm, if_false] at this
    simp only [hb, if_false]
    omega
  · rcases mem_of_mem_set_set hm with h1 | h1 | h1
    · exact Or.inl h1
    · rw [h1]; exact Or.inl (lookup_mem hj)
    · simp only [Option.some.injEq] at h1
      subst h1
      exact Or.inr (Or.inl rfl)

theorem step_moves_shared_ctor {optIn : Bool} {s s' : State} {op : Op}
    (hop : op = .ctor_default ∨ (∃ pt d, op = .ctor_raw pt d) ∨ (∃ v, op = .make_shared v) ∨
      (∃ src, op = .copy_ctor src) ∨ (∃ src, op = .copy_ctor_conv src) ∨
      (∃ src, op = .move_ctor src))
    (h : step optIn s op = .ok s') : Moves false s.heap s.sp s'.heap s'.sp := by
  rcases hop with rfl | ⟨pt, d, rfl⟩ | ⟨v, rfl⟩ | ⟨src, rfl⟩ | ⟨src, rfl⟩ | ⟨src, rfl⟩
  · simp only [step, pure_ok_iff] at h
    subst h
    exact Moves.append ((Heap.SameOwners.so_refl _).owners false) (fun h0 => absurd rfl h0)
      (Or.inr (Or.inl rfl))
  · simp only [step, bind_ok_iff, pure_ok_iff] at h
    obtain ⟨r, h1, rfl⟩ := h
    obtain ⟨e1, e2⟩ := SharedPtr.from_raw_owners h1
    simp only [e1]
    refine Moves.alloc e2 (fun p d' hv => ?_)
    simp only [Variant.ControlBlockRegular.injEq] at hv
    exact hv.1
  · simp only [step, pure_ok_iff] at h
    subst h
    obtain ⟨e1, e2⟩ := makeShared_owners v s.heap
    simp only [e1]
    exact Moves.alloc e2 (fun p d' hv => by simp at hv)
  · simp only [step] at h
    split at h
    · rw [pure_ok_iff] at h; subst h; exact Moves.moves_refl _ _
    · rename_i other hl
      simp only [bind_ok_iff, pure_ok_iff] at h
      obtain ⟨r, h1, rfl⟩ := h
      obtain ⟨e1, -, e3⟩ := SharedPtr.copy_ctor_owners h1
      simp only [e1]
      exact Moves.append e3 (fun _ => Or.inr ⟨other, lookup_mem hl, rfl⟩)
        (Or.inl (lookup_mem hl))
  · simp only [step] at h
    split at h
    · rw [pure_ok_iff] at h; subst h; exact Moves.moves_refl _ _
    · rename_i other hl
      simp only [bind_ok_iff, pure_ok_iff] at h
      obtain ⟨r, h1, rfl⟩ := h
      obtain ⟨e1, -, -, e3⟩ := SharedPtr.copy_ctor_conv_owners h1
      simp only [e1]
      exact Moves.append e3 (fun _ => Or.inr ⟨other, lookup_mem hl, rfl⟩)
        (Or.inl (lookup_mem hl))
  · simp only [step] at h
    split at h
    · rw [pure_ok_iff] at h; subst h; exact Moves.moves_refl _ _
    · rename_i other hl
      simp only [bind_ok_iff, pure_ok_iff] at h
      obtain ⟨r, h1, rfl⟩ := h
      obtain ⟨e1, e2, e3⟩ := SharedPtr.move_ctor_owners h1
      simp only [e1, e2]
      refine Moves.owners (e3.owners false) (fun b hb => ?_) (fun h0 => absurd rfl h0)
        (fun h0 => absurd rfl h0) (fun h hm => ?_)
      · have := holders_set SharedPtr.cb b hl (some SharedPtr.null)
        have hn : SharedPtr.null.cb = 0 := rfl
        rw [holders_append]
        simp only [holders_single_some, hn, hb.symm, if_false] at this ⊢
        simp only [hb, if_false]
        omega
      · rcases List.mem_append.mp hm with h1 | h1
        · rcases mem_of_mem_set h1 with h2 | h2
          · exact Or.inl h2
          · simp only [Option.some.injEq] at h2
            subst h2
            exact Or.inr (Or.inl rfl)
        · simp only [List.mem_singleton, Option.some.injEq] at h1
          subst h1
          exact Or.inl (lookup_mem hl)

theorem Moves.mono {promoted : Bool} {σ σ' : Heap} {sp sp' : List (Option SharedPtr)}
    (hm : Moves false σ sp σ' sp') : Moves promoted σ sp σ' sp' := by
  induction hm with
  | owners ho hcount hinc hdec hmem =>
    refine Moves.owners ho hcount hinc hdec (fun h hm => ?_)
    rcases hmem h hm with h1 | h1 | h1
    · exact Or.inl h1
    · exact Or.inr (Or.inl h1)
    · exact absurd h1 (by simp)
  | alloc ha hv => exact Moves.alloc ha hv
  | trans _ _ ih1 ih2 => exact Moves.trans ih1 ih2

theorem set_lookup_same {α : Type} {l : List (Option α)} {i : Nat} {h : α}
    (hl : lookup l i = some h) : l.set i (some h) = l := by
  induction l generalizing i with
  | nil => rfl
  | cons a l ih =>
    cases i with
    | zero => simp only [lookup] at hl; simp [hl]
    | succ i => simp only [lookup] at hl; simp [ih hl]

theorem step_moves_shared_assign {optIn : Bool} {s s' : State} {op : Op}
    (hop : (∃ dst src, op = .copy_assign dst src) ∨ (∃ dst src, op = .move_assign dst src) ∨
      (∃ dst src, op = .move_assign_conv dst src) ∨ (∃ x y, op = .swap x y))
    (h : step optIn s op = .ok s') : Moves false s.heap s.sp s'.heap s'.sp := by
  rcases hop with ⟨dst, src, rfl⟩ | ⟨dst, src, rfl⟩ | ⟨dst, src, rfl⟩ | ⟨x, y, rfl⟩
  · simp only [step] at h
    split_ifs at h with hds
    · rw [pure_ok_iff] at h; subst h; exact Moves.moves_refl _ _
    · split at h
      · rename_i self other h1 h2
        simp only [bind_ok_iff, pure_ok_iff] at h
        obtain ⟨r, hr, rfl⟩ := h
        rcases SharedPtr.copy_assign_owners hr with ⟨-, rfl⟩ | ⟨hne, e1, e2⟩
        · simp only [set_lookup_same h1]
          exact Moves.moves_refl _ _
        · simp only [e1]
          exact Moves.set h1 e2 (fun _ => rfl) (fun _ hc => hne hc.symm)
            (fun b _ => by rw [holders_single_some]; simp only [eq_comm])
            (fun _ => ⟨other, lookup_mem h2, rfl⟩)
            (fun h hh => Or.inl (by
              simp only [Option.some.injEq] at hh
              subst hh
              exact lookup_mem h2))
      · rw [pure_ok_iff] at h; subst h; exact Moves.moves_refl _ _
  · simp only [step] at h
    split_ifs at h with hds
    · rw [pure_ok_iff] at h; subst h; exact Moves.moves_refl _ _
    · split at h
      · rename_i self other h1 h2
        simp only [bind_ok_iff, pure_ok_iff] at h
        obtain ⟨r, hr, rfl⟩ := h
        obtain ⟨e1, e2, e3⟩ := SharedPtr.move_assign_owners hr
        simp only [e1, e2]
        exact Moves.set_move hds h1 h2 e3 (fun hp => by simp [hp])
      · rw [pure_ok_iff] at h; subst h; exact Moves.moves_refl _ _
  · simp only [step] at h
    split_ifs at h with hds
    · rw [pure_ok_iff] at h; subst h; exact Moves.moves_refl _ _
    · split at h
      · rename_i self other h1 h2
        simp only [bind_ok_iff, pure_ok_iff] at h
        obtain ⟨r, hr, rfl⟩ := h
        obtain ⟨e1, e2, e3⟩ := SharedPtr.move_assign_conv_owners hr
        simp only [e1, e2]
        exact Moves.set_move hds h1 h2 e3 (fun _ => rfl)
      · rw [pure_ok_iff] at h; subst h; exact Moves.moves_refl _ _
  · simp only [step] at h
    split_ifs at h with hxy
    · rw [pure_ok_iff] at h; subst h; exact Moves.moves_refl _ _
    · split at h
      · rename_i self other h1 h2
        rw [pure_ok_iff] at h
        subst h
        refine Moves.owners ((Heap.SameOwners.so_refl _).owners false) (fun b hb => ?_)
          (fun h0 => absurd rfl h0) (fun h0 => absurd rfl h0) (fun h hm => ?_)
        · have := holders_set_set SharedPtr.cb b hxy h1 h2
            (some (SharedPtr.swap self other).1) (some (SharedPtr.swap self other).2)
          simp only [holders_single_some, SharedPtr.swap] at this
          simp only [hb, if_false]
          simp only [SharedPtr.swap]
          omega
        · rcases mem_of_mem_set_set hm with h3 | h3 | h3
          · exact Or.inl h3
          · simp only [SharedPtr.swap, Option.some.injEq] at h3
            subst h3
            exact Or.inl (lookup_mem h2)
          · simp only [SharedPtr.swap, Option.some.injEq] at h3
            subst h3
            exact Or.inl (lookup_mem h1)
      · rw [pure_ok_iff] at h; subst h; exact Moves.moves_refl _ _

theorem step_moves_shared_release {optIn : Bool} {s s' : State} {op : Op}
    (hop : (∃ x, op = .reset x) ∨ (∃ x q, op = .reset_raw x q) ∨ (∃ x, op = .dtor x))
    (h : step optIn s op = .ok s') : Moves false s.heap s.sp s'.heap s'.sp := by
  rcases hop with ⟨x, rfl⟩ | ⟨x, q, rfl⟩ | ⟨x, rfl⟩
  · simp only [step] at h
    split at h
    · rw [pure_ok_iff] at h; subst h; exact Moves.moves_refl _ _
    · rename_i self hl
      simp only [bind_ok_iff, pure_ok_iff] at h
      obtain ⟨r, hr, rfl⟩ := h
      obtain ⟨e1, e2⟩ := SharedPtr.reset_owners hr
      simp only [e1]
      exact Moves.set hl e2 (fun hp => by simp [hp]) (fun h0 => h0)
        (fun b hb => by
          rw [holders_single_some]
          have hn : SharedPtr.null.cb = 0 := rfl
          simp only [hn, hb, hb.symm, if_false])
        (fun h0 => absurd rfl h0)
        (fun h hh => Or.inr (by
          simp only [Option.some.injEq] at hh
          subst hh
          rfl))
  · simp only [step] at h
    split at h
    · rw [pure_ok_iff] at h; subst h; exact Moves.moves_refl _ _
    · rename_i self hl
      simp only [bind_ok_iff, pure_ok_iff] at h
      obtain ⟨r, hr, rfl⟩ := h
      obtain ⟨e1, σ1, e2, e3⟩ := SharedPtr.reset_raw_owners hr
      simp only [e1]
      refine Moves.trans (@Moves.alloc false _ _ _ q _ e2 (fun p d hv => ?_)) ?_
      · simp only [Variant.ControlBlockRegular.injEq] at hv
        exact hv.1
      · have hself : some self ∈ s.sp ++ [some ⟨q, s.heap.next + 1⟩] :=
          List.mem_append_left _ (lookup_mem hl)
        refine Moves.owners e3 (fun b hb => ?_) (fun h0 => absurd rfl h0)
          (fun h0 => ⟨h0, self, hself, rfl, fun hp => by simp [hp]⟩) (fun h hm => ?_)
        · have := holders_set SharedPtr.cb b hl (some ⟨q, s.heap.next + 1⟩)
          rw [holders_append]
          have e : (self.cb = b) ↔ (b = self.cb) := eq_comm
          simp only [holders_single_some, e] at this ⊢
          simp only [hb, if_false]
          omega
        · rcases mem_of_mem_set hm with h1 | h1
          · exact Or.inl (List.mem_append_left _ h1)
          · rw [h1]
            exact Or.inl (List.mem_append_right _ (List.mem_singleton.mpr rfl))
  · simp only [step] at h
    split at h
    · rw [pure_ok_iff] at h; subst h; exact Moves.moves_refl _ _
    · rename_i self hl
      simp only [bind_ok_iff, pure_ok_iff] at h
      obtain ⟨σ1, hr, rfl⟩ := h
      exact Moves.set hl (SharedPtr.dtor_owners hr) (fun hp => by simp [hp]) (fun h0 => h0)
        (fun b hb => by rw [holders_single_none]; simp only [hb, if_false])
        (fun h0 => absurd rfl h0) (fun h hh => by simp at hh)

theorem lock_moves {σ : Heap} {sp : List (Option SharedPtr)} {w : WeakPtr}
    {r : SharedPtr × Heap} (h : w.lock σ = .ok r) :
    Moves true σ sp r.2 (sp ++ [some r.1]) := by
  obtain ⟨h0, -, (⟨hz, e1, e2⟩ | ⟨-, rfl⟩)⟩ := WeakPtr.weak_lock_owners h
  · rw [e1]
    exact @Moves.append true _ _ _ ⟨0, w.cb⟩ e2 (fun _ => Or.inl hz) (Or.inr (Or.inr rfl))
  · exact Moves.append ((Heap.SameOwners.so_refl _).owners false) (fun h0 => absurd rfl h0)
      (Or.inr (Or.inl rfl))

theorem step_moves_promote {optIn : Bool} {s s' : State} {op : Op}
    (hop : (∃ w, op = .lock w) ∨ (∃ p, op = .shared_from_this p))
    (h : step optIn s op = .ok s') : Moves true s.heap s.sp s'.heap s'.sp := by
  rcases hop with ⟨w, rfl⟩ | ⟨p, rfl⟩
  · simp only [step] at h
    split at h
    · rw [pure_ok_iff] at h; subst h; exact Moves.moves_refl _ _
    · simp only [bind_ok_iff, pure_ok_iff] at h
      obtain ⟨r, hr, rfl⟩ := h
      exact lock_moves hr
  · simp only [step] at h
    split_ifs at h
    · simp only [EnableSharedFromThis.shared_from_this, bind_ok_iff, pure_ok_iff] at h
      obtain ⟨r, ⟨w, -, hr⟩, rfl⟩ := h
      exact lock_moves hr
    · rw [pure_ok_iff] at h; subst h; exact Moves.moves_refl _ _

theorem step_moves_weak {optIn : Bool} {s s' : State} {op : Op}
    (hop : op = .weak_default ∨ (∃ src, op = .weak_from_shared src) ∨
      (∃ src, op = .weak_copy_ctor src) ∨ (∃ src, op = .weak_move_ctor src) ∨
      (∃ dst src, op = .weak_copy_assign dst src) ∨
      (∃ dst src, op = .weak_assign_shared dst src) ∨ (∃ x y, op = .weak_swap x y) ∨
      (∃ w, op = .weak_dtor w))
    (h : step optIn s op = .ok s') : s'.sp = s.sp ∧ s.heap.SameOwners s'.heap := by
  rcases hop with rfl | ⟨src, rfl⟩ | ⟨src, rfl⟩ | ⟨src, rfl⟩ | ⟨dst, src, rfl⟩ |
    ⟨dst, src, rfl⟩ | ⟨x, y, rfl⟩ | ⟨w, rfl⟩
  · simp only [step, pure_ok_iff] at h
    subst h
    exact ⟨rfl, Heap.SameOwners.so_refl _⟩
  · simp only [step] at h
    split at h
    · rw [pure_ok_iff] at h; subst h; exact ⟨rfl, Heap.SameOwners.so_refl _⟩
    · simp only [bind_ok_iff, pure_ok_iff] at h
      obtain ⟨r, hr, rfl⟩ := h
      exact ⟨rfl, WeakPtr.weak_from_shared_sameOwners hr⟩
  · simp only [step] at h
    split at h
    · rw [pure_ok_iff] at h; subst h; exact ⟨rfl, Heap.SameOwners.so_refl _⟩
    · simp only [bind_ok_iff, pure_ok_iff] at h
      obtain ⟨r, hr, rfl⟩ := h
      exact ⟨rfl, WeakPtr.weak_copy_ctor_sameOwners hr⟩
  · simp only [step] at h
    split at h
    · rw [pure_ok_iff] at h; subst h; exact ⟨rfl, Heap.SameOwners.so_refl _⟩
    · rw [pure_ok_iff] at h; subst h; exact ⟨rfl, Heap.SameOwners.so_refl _⟩
  · simp only [step] at h
    split_ifs at h
    · rw [pure_ok_iff] at h; subst h; exact ⟨rfl, Heap.SameOwners.so_refl _⟩
    · split at h
      · simp only [bind_ok_iff, pure_ok_iff] at h
        obtain ⟨r, hr, rfl⟩ := h
        exact ⟨rfl, WeakPtr.weak_copy_assign_sameOwners hr⟩
      · rw [pure_ok_iff] at h; subst h; exact ⟨rfl, Heap.SameOwners.so_refl _⟩
  · simp only [step] at h
    split at h
    · simp only [bind_ok_iff, pure_ok_iff] at h
      obtain ⟨r, hr, rfl⟩ := h
      exact ⟨rfl, WeakPtr.weak_assign_shared_sameOwners hr⟩
    · rw [pure_ok_iff] at h; subst h; exact ⟨rfl, Heap.SameOwners.so_refl _⟩
  · simp only [step] at h
    split_ifs at h
    · rw [pure_ok_iff] at h; subst h; exact ⟨rfl, Heap.SameOwners.so_refl _⟩
    · split at h
      · rw [pure_ok_iff] at h; subst h; exact ⟨rfl, Heap.SameOwners.so_refl _⟩
      · rw [pure_ok_iff] at h; subst h; exact ⟨rfl, Heap.SameOwners.so_refl _⟩
  · simp only [step] at h
    split at h
    · rw [pure_ok_iff] at h; subst h; exact ⟨rfl, Heap.SameOwners.so_refl _⟩
    · simp only [bind_ok_iff, pure_ok_iff] at h
      obtain ⟨σ1, hr, rfl⟩ := h
      exact ⟨rfl, WeakPtr.weak_dtor_sameOwners hr⟩

/-- Every statement that succeeds moves owners; only `lock` and
`shared_from_this` create a variable from a `WeakPtr`. -/
theorem step_moves {optIn : Bool} {s s' : State} {op : Op}
    (h : step optIn s op = .ok s') : Moves op.promotes s.heap s.sp s'.heap s'.sp := by
  cases op with
  | ctor_default => exact step_moves_shared_ctor (Or.inl rfl) h
  | ctor_raw pt d => exact step_moves_shared_ctor (Or.inr (Or.inl ⟨pt, d, rfl⟩)) h
  | make_shared v => exact step_moves_shared_ctor (Or.inr (Or.inr (Or.inl ⟨v, rfl⟩))) h
  | copy_ctor src =>
    exact step_moves_shared_ctor (Or.inr (Or.inr (Or.inr (Or.inl ⟨src, rfl⟩)))) h
  | copy_ctor_conv src =>
    exact step_moves_shared_ctor (Or.inr (Or.inr (Or.inr (Or.inr (Or.inl ⟨src, rfl⟩))))) h
  | move_ctor src =>
    exact step_moves_shared_ctor (Or.inr (Or.inr (Or.inr (Or.inr (Or.inr ⟨src, rfl⟩))))) h
  | copy_assign dst src => exact step_moves_shared_assign (Or.inl ⟨dst, src, rfl⟩) h
  | move_assign dst src => exact step_moves_shared_assign (Or.inr (Or.inl ⟨dst, src, rfl⟩)) h
  | move_assign_conv dst src =>
    exact step_moves_shared_assign (Or.inr (Or.inr (Or.inl ⟨dst, src, rfl⟩))) h
  | swap x y => exact step_moves_shared_assign (Or.inr (Or.inr (Or.inr ⟨x, y, rfl⟩))) h
  | reset x => exact step_moves_shared_release (Or.inl ⟨x, rfl⟩) h
  | reset_raw x q => exact step_moves_shared_release (Or.inr (Or.inl ⟨x, q, rfl⟩)) h
  | dtor x => exact step_moves_shared_release (Or.inr (Or.inr ⟨x, rfl⟩)) h
  | lock w => exact step_moves_promote (Or.inl ⟨w, rfl⟩) h
  | shared_from_this p => exact step_moves_promote (Or.inr ⟨p, rfl⟩) h
  | weak_default =>
    obtain ⟨e1, e2⟩ := step_moves_weak (Or.inl rfl) h
    rw [e1]; exact Moves.same _ e2
  | weak_from_shared src =>
    obtain ⟨e1, e2⟩ := step_moves_weak (Or.inr (Or.inl ⟨src, rfl⟩)) h
    rw [e1]; exact Moves.same _ e2
  | weak_copy_ctor src =>
    obtain ⟨e1, e2⟩ := step_moves_weak (Or.inr (Or.inr (Or.inl ⟨src, rfl⟩))) h
    rw [e1]; exact Moves.same _ e2
  | weak_move_ctor src =>
    obtain ⟨e1, e2⟩ := step_moves_weak (Or.inr (Or.inr (Or.inr (Or.inl ⟨src, rfl⟩)))) h
    rw [e1]; exact Moves.same _ e2
  | weak_copy_assign dst src =>
    obtain ⟨e1, e2⟩ :=
      step_moves_weak (Or.inr (Or.inr (Or.inr (Or.inr (Or.inl ⟨dst, src, rfl⟩))))) h
    rw [e1]; exact Moves.same _ e2
  | weak_assign_shared dst src =>
    obtain ⟨e1, e2⟩ :=
      step_moves_weak (Or.inr (Or.inr (Or.inr (Or.inr (Or.inr (Or.inl ⟨dst, src, rfl⟩)))))) h
    rw [e1]; exact Moves.same _ e2
  | weak_swap x y =>
    obtain ⟨e1, e2⟩ := step_moves_weak
      (Or.inr (Or.inr (Or.inr (Or.inr (Or.inr (Or.inr (Or.inl ⟨x, y, rfl⟩))))))) h
    rw [e1]; exact Moves.same _ e2
  | weak_dtor w =>
    obtain ⟨e1, e2⟩ := step_moves_weak
      (Or.inr (Or.inr (Or.inr (Or.inr (Or.inr (Or.inr (Or.inr ⟨w, rfl⟩))))))) h
    rw [e1]; exact Moves.same _ e2

/-! ## Storage is handed back only for blocks without owners -/

theorem Heap.FreesUnowned.fu_refl (σ : Heap) : σ.FreesUnowned σ :=
  fun _ hb => Or.inl ⟨hb, rfl⟩

theorem Heap.FreesUnowned.fu_trans {σ1 σ2 σ3 : Heap} (h1 : σ1.FreesUnowned σ2)
    (h2 : σ2.FreesUnowned σ3) : σ1.FreesUnowned σ3 := by
  intro b hb
  rcases h2 b hb with ⟨h3, h4⟩ | h3
  · rcases h1 b h3 with ⟨h5, h6⟩ | h5
    · exact Or.inl ⟨h5, h4.trans h6⟩
    · exact Or.inr (h4.trans h5)
  · exact Or.inr h3

theorem Heap.FreesUnowned.ownedAlive {σ σ' : Heap} (h : σ.FreesUnowned σ')
    (hinv : σ.OwnedAlive) : σ'.OwnedAlive := by
  intro b hb
  rcases h b hb with ⟨h1, h2⟩ | h1
  · rw [h2]; exact hinv b h1
  · exact h1

theorem Heap.FreesUnowned.fu_modify {σ σ' : Heap} {cb : Nat}
    {f : BaseControlBlock → BaseControlBlock}
    (h : σ.modify cb f = .ok σ')
    (hf : ∀ blk, (f blk).deallocations ≠ 0 → blk.deallocations ≠ 0 ∨ (f blk).shared_counter = 0) :
    σ.FreesUnowned σ' := by
  rw [modify_ok_iff] at h
  obtain ⟨-, hd, rfl⟩ := h
  intro b hb
  by_cases hbc : b = cb
  · subst hbc
    simp only [Heap.store_blocks_same] at hb ⊢
    rcases hf _ hb with h1 | h1
    · exact absurd hd h1
    · exact Or.inr h1
  · simp only [Heap.store_blocks, hbc, if_false] at hb ⊢
    exact Or.inl ⟨hb, trivial⟩

theorem Heap.FreesUnowned.fu_setWptr (σ : Heap) (p : Nat) (w : Option WeakPtr) :
    σ.FreesUnowned (σ.setWptr p w) :=
  fun _ hb => Or.inl ⟨hb, rfl⟩

theorem incShared_freesUnowned {cb : Nat} {σ σ' : Heap} (h : incShared cb σ = .ok σ') :
    σ.FreesUnowned σ' := by
  exact Heap.FreesUnowned.fu_modify (incShared_modify h).1 (fun _ hb => Or.inl hb)

theorem decShared_freesUnowned {cb : Nat} {σ σ' : Heap} (h : decShared cb σ = .ok σ') :
    σ.FreesUnowned σ' := by
  unfold decShared at h
  exact Heap.FreesUnowned.fu_modify h (fun _ hb => Or.inl hb)

theorem incWeak_freesUnowned {cb : Nat} {σ σ' : Heap} (h : incWeak cb σ = .ok σ') :
    σ.FreesUnowned σ' := by
  exact Heap.FreesUnowned.fu_modify (incWeak_modify h).1 (fun _ hb => Or.inl hb)

theorem decWeak_freesUnowned {cb : Nat} {σ σ' : Heap} (h : decWeak cb σ = .ok σ') :
    σ.FreesUnowned σ' := by
  unfold decWeak at h
  exact Heap.FreesUnowned.fu_modify h (fun _ hb => Or.inl hb)

theorem call_destructor_freesUnowned {cb : Nat} {σ σ' : Heap}
    (h : call_destructor cb σ = .ok σ') : σ.FreesUnowned σ' := by
  unfold call_destructor at h
  exact Heap.FreesUnowned.fu_modify h (fun _ hb => Or.inl hb)

theorem deallocate_freesUnowned {cb : Nat} {σ σ' : Heap}
    (hz : (σ.blocks cb).shared_counter = 0) (h : deallocate cb σ = .ok σ') :
    σ.FreesUnowned σ' := by
  simp only [deallocate, modify_ok_iff] at h
  obtain ⟨-, hd, rfl⟩ := h
  intro b hb
  by_cases hbc : b = cb
  · subst hbc
    simp only [Heap.store_blocks_same]
    exact Or.inr hz
  · simp only [Heap.store_blocks, hbc, if_false] at hb ⊢
    exact Or.inl ⟨hb, trivial⟩

theorem WeakPtr.weak_dtor_freesUnowned {w : WeakPtr} {σ σ' : Heap} (h : w.dtor σ = .ok σ') :
    σ.FreesUnowned σ' := by
  simp only [WeakPtr.dtor, bind_ok_iff, pure_ok_iff, ite_ok_iff, load_ok_iff] at h
  rcases h with ⟨_, σ1, h1, b, ⟨-, -, rfl⟩, (⟨⟨_, hz⟩, h2⟩ | ⟨_, rfl⟩)⟩ | ⟨_, rfl⟩
  · exact (decWeak_freesUnowned h1).fu_trans (deallocate_freesUnowned hz h2)
  · exact decWeak_freesUnowned h1
  · exact Heap.FreesUnowned.fu_refl _

theorem WeakPtr.weak_from_shared_freesUnowned {other : SharedPtr} {σ : Heap} {r : WeakPtr × Heap}
    (h : WeakPtr.from_shared other σ = .ok r) : σ.FreesUnowned r.2 := by
  simp only [WeakPtr.from_shared, bind_ok_iff, pure_ok_iff] at h
  obtain ⟨σ1, h1, rfl⟩ := h
  exact incWeak_freesUnowned h1

theorem WeakPtr.weak_copy_ctor_freesUnowned {other : WeakPtr} {σ : Heap} {r : WeakPtr × Heap}
    (h : WeakPtr.copy_ctor other σ = .ok r) : σ.FreesUnowned r.2 := by
  simp only [WeakPtr.copy_ctor, bind_ok_iff, pure_ok_iff] at h
  obtain ⟨σ1, h1, rfl⟩ := h
  exact incWeak_freesUnowned h1

theorem WeakPtr.weak_assign_shared_freesUnowned {self : WeakPtr} {other : SharedPtr} {σ : Heap}
    {r : WeakPtr × Heap} (h : self.assign_shared other σ = .ok r) : σ.FreesUnowned r.2 := by
  simp only [WeakPtr.assign_shared, bind_ok_iff, pure_ok_iff] at h
  obtain ⟨r1, h1, σ2, h2, rfl⟩ := h
  exact (WeakPtr.weak_from_shared_freesUnowned h1).fu_trans (WeakPtr.weak_dtor_freesUnowned h2)

theorem WeakPtr.weak_copy_assign_freesUnowned {self other : WeakPtr} {σ : Heap}
    {r : WeakPtr × Heap} (h : self.copy_assign other σ = .ok r) : σ.FreesUnowned r.2 := by
  simp only [WeakPtr.copy_assign, bind_ok_iff, pure_ok_iff] at h
  obtain ⟨r1, h1, σ2, h2, rfl⟩ := h
  exact (WeakPtr.weak_copy_ctor_freesUnowned h1).fu_trans (WeakPtr.weak_dtor_freesUnowned h2)

theorem WeakPtr.weak_lock_freesUnowned {self : WeakPtr} {σ : Heap} {r : SharedPtr × Heap}
    (h : self.lock σ = .ok r) : σ.FreesUnowned r.2 := by
  simp only [WeakPtr.lock, bind_ok_iff, pure_ok_iff, ite_ok_iff] at h
  obtain ⟨e, -, (⟨_, σ1, h1, rfl⟩ | ⟨_, rfl⟩)⟩ := h
  · exact incShared_freesUnowned h1
  · exact Heap.FreesUnowned.fu_refl _

theorem SharedPtr.set_wptr_freesUnowned {optIn : Bool} {self : SharedPtr} {σ σ' : Heap}
    (h : SharedPtr.set_wptr optIn self σ = .ok σ') : σ.FreesUnowned σ' := by
  simp only [SharedPtr.set_wptr, bind_ok_iff, pure_ok_iff, ite_ok_iff] at h
  rcases h with ⟨_, w, _, r, h2, rfl⟩ | ⟨_, rfl⟩
  · exact (WeakPtr.weak_assign_shared_freesUnowned h2).fu_trans (Heap.FreesUnowned.fu_setWptr _ _ _)
  · exact Heap.FreesUnowned.fu_refl _

theorem destroy_object_freesUnowned {optIn : Bool} {p : Nat} {σ σ' : Heap}
    (h : destroy_object optIn p σ = .ok σ') : σ.FreesUnowned σ' := by
  simp only [destroy_object, bind_ok_iff, pure_ok_iff, ite_ok_iff] at h
  rcases h with ⟨_, w, _, σ1, h2, rfl⟩ | ⟨_, rfl⟩
  · exact (WeakPtr.weak_dtor_freesUnowned h2).fu_trans (Heap.FreesUnowned.fu_setWptr _ _ _)
  · exact Heap.FreesUnowned.fu_refl _

theorem Heap.FreesUnowned.fu_store {σ : Heap} {cb : Nat} {blk : BaseControlBlock}
    (hd : blk.deallocations = 0) : σ.FreesUnowned (σ.store cb blk) := by
  intro b hb
  by_cases hbc : b = cb
  · subst hbc
    simp only [Heap.store_blocks_same] at hb
    exact absurd hd hb
  · simp only [Heap.store_blocks, hbc, if_false] at hb ⊢
    exact Or.inl ⟨hb, trivial⟩

theorem use_deleter_freesUnowned {optIn : Bool} {cb : Nat} {σ σ' : Heap}
    (h : use_deleter optIn cb σ = .ok σ') : σ.FreesUnowned σ' := by
  simp only [use_deleter, bind_ok_iff, load_ok_iff] at h
  obtain ⟨blk, ⟨h0, h1, rfl⟩, h2⟩ := h
  split at h2
  · simp only [ite_ok_iff, pure_ok_iff] at h2
    rcases h2 with ⟨ho, (⟨_, h3⟩ | ⟨_, rfl⟩)⟩ | ⟨ho, rfl⟩
    · exact (Heap.FreesUnowned.fu_store (by exact h1)).fu_trans (destroy_object_freesUnowned h3)
    · exact Heap.FreesUnowned.fu_store (by exact h1)
    · exact Heap.FreesUnowned.fu_store (by exact h1)
  · simp only [pure_ok_iff] at h2
    subst h2
    exact Heap.FreesUnowned.fu_store (by exact h1)

theorem tail_freesUnowned {cb : Nat} {σ2 σ' : Heap} (hz : (σ2.blocks cb).shared_counter = 0)
    (h : (call_destructor cb σ2 >>= fun σ3 => σ3.load cb >>= fun b3 =>
      if b3.weak_counter = 0 then deallocate cb σ3 else pure σ3) = .ok σ') :
    σ2.FreesUnowned σ' := by
  simp only [bind_ok_iff, ite_ok_iff, pure_ok_iff] at h
  obtain ⟨σ3, h3, b3, _, (⟨_, h5⟩ | ⟨_, rfl⟩)⟩ := h
  · refine (call_destructor_freesUnowned h3).fu_trans (deallocate_freesUnowned ?_ h5)
    rw [((call_destructor_sameOwners h3).2 cb).1, hz]
  · exact call_destructor_freesUnowned h3

theorem SharedPtr.dtor_freesUnowned {optIn : Bool} {self : SharedPtr} {σ σ' : Heap}
    (h : SharedPtr.dtor optIn self σ = .ok σ') : σ.FreesUnowned σ' := by
  unfold SharedPtr.dtor at h
  by_cases h0 : self.cb = 0
  · rw [if_neg (not_not.mpr h0), pure_ok_iff] at h
    subst h
    exact Heap.FreesUnowned.fu_refl _
  · rw [if_pos h0, bind_ok_iff] at h
    obtain ⟨σ1, h1, h⟩ := h
    rw [bind_ok_iff] at h
    obtain ⟨b1, hb1, h⟩ := h
    rw [load_ok_iff] at hb1
    obtain ⟨-, -, rfl⟩ := hb1
    by_cases hz : (σ1.blocks self.cb).shared_counter = 0
    · rw [if_pos hz, bind_ok_iff] at h
      obtain ⟨σ2, h2, h⟩ := h
      by_cases hp : self.ptr = 0
      · rw [if_neg (not_not.mpr hp), pure_ok_iff] at h2
        subst h2
        exact (decShared_freesUnowned h1).fu_trans (tail_freesUnowned hz h)
      · rw [if_pos hp] at h2
        refine ((decShared_freesUnowned h1).fu_trans (use_deleter_freesUnowned h2)).fu_trans
          (tail_freesUnowned ?_ h)
        rw [((use_deleter_owners h2).2 self.cb).2.1, hz]
    · rw [if_neg hz, pure_ok_iff] at h
      subst h
      exact decShared_freesUnowned h1

theorem SharedPtr.release_in_assign_freesUnowned {optIn : Bool} {self : SharedPtr}
    {σ σ' : Heap} (h : SharedPtr.release_in_assign optIn self σ = .ok σ') :
    σ.FreesUnowned σ' := by
  unfold SharedPtr.release_in_assign at h
  by_cases h0 : self.cb = 0
  · rw [if_neg (not_not.mpr h0), pure_ok_iff] at h
    subst h
    exact Heap.FreesUnowned.fu_refl _
  · rw [if_pos h0, bind_ok_iff] at h
    obtain ⟨σ1, h1, h⟩ := h
    rw [bind_ok_iff] at h
    obtain ⟨b1, hb1, h⟩ := h
    rw [load_ok_iff] at hb1
    obtain ⟨-, -, rfl⟩ := hb1
    by_cases hz : (σ1.blocks self.cb).shared_counter = 0
    · rw [if_pos hz, bind_ok_iff] at h
      obtain ⟨σ2, h2, h⟩ := h
      refine ((decShared_freesUnowned h1).fu_trans (use_deleter_freesUnowned h2)).fu_trans
        (tail_freesUnowned ?_ h)
      rw [((use_deleter_owners h2).2 self.cb).2.1, hz]
    · rw [if_neg hz, pure_ok_iff] at h
      subst h
      exact decShared_freesUnowned h1

theorem SharedPtr.from_raw_freesUnowned {optIn : Bool} {pt : Nat} {deleter : Deleter}
    {σ : Heap} {r : SharedPtr × Heap} (h : SharedPtr.from_raw optIn pt deleter σ = .ok r) :
    σ.FreesUnowned r.2 := by
  simp only [SharedPtr.from_raw, bind_ok_iff, pure_ok_iff] at h
  obtain ⟨σ2, h2, rfl⟩ := h
  refine Heap.FreesUnowned.fu_trans ?_ (SharedPtr.set_wptr_freesUnowned h2)
  exact @Heap.FreesUnowned.fu_store σ _ _ rfl

theorem makeShared_freesUnowned (v : Int) (σ : Heap) : σ.FreesUnowned (makeShared v σ).2 :=
  @Heap.FreesUnowned.fu_store σ _ _ rfl

theorem SharedPtr.copy_ctor_freesUnowned {optIn : Bool} {other : SharedPtr} {σ : Heap}
    {r : SharedPtr × Heap} (h : SharedPtr.copy_ctor optIn other σ = .ok r) :
    σ.FreesUnowned r.2 := by
  simp only [SharedPtr.copy_ctor, bind_ok_iff, pure_ok_iff, ite_ok_iff] at h
  rcases h with ⟨_, σ1, h1, σ2, h2, rfl⟩ | ⟨_, rfl⟩
  · exact (incShared_freesUnowned h1).fu_trans (SharedPtr.set_wptr_freesUnowned h2)
  · exact Heap.FreesUnowned.fu_refl _

theorem SharedPtr.copy_ctor_conv_freesUnowned {optIn : Bool} {other : SharedPtr} {σ : Heap}
    {r : SharedPtr × Heap} (h : SharedPtr.copy_ctor_conv optIn other σ = .ok r) :
    σ.FreesUnowned r.2 := by
  simp only [SharedPtr.copy_ctor_conv, bind_ok_iff, pure_ok_iff] at h
  obtain ⟨σ1, h1, σ2, h2, rfl⟩ := h
  exact (incShared_freesUnowned h1).fu_trans (SharedPtr.set_wptr_freesUnowned h2)

theorem SharedPtr.move_ctor_freesUnowned {optIn : Bool} {other : SharedPtr} {σ : Heap}
    {r : SharedPtr × SharedPtr × Heap} (h : SharedPtr.move_ctor optIn other σ = .ok r) :
    σ.FreesUnowned r.2.2 := by
  simp only [SharedPtr.move_ctor, bind_ok_iff, pure_ok_iff, ite_ok_iff] at h
  rcases h with ⟨_, σ1, h1, rfl⟩ | ⟨_, rfl⟩
  · exact SharedPtr.set_wptr_freesUnowned h1
  · exact Heap.FreesUnowned.fu_refl _

theorem SharedPtr.copy_assign_freesUnowned {optIn : Bool} {self other : SharedPtr} {σ : Heap}
    {r : SharedPtr × Heap} (h : SharedPtr.copy_assign optIn self other σ = .ok r) :
    σ.FreesUnowned r.2 := by
  simp only [SharedPtr.copy_assign, bind_ok_iff, pure_ok_iff, ite_ok_iff] at h
  rcases h with ⟨_, rfl⟩ | ⟨_, σ4, h4, (⟨_, σ5, h5, rfl⟩ | ⟨_, rfl⟩)⟩
  · exact Heap.FreesUnowned.fu_refl _
  · exact (SharedPtr.release_in_assign_freesUnowned h4).fu_trans (incShared_freesUnowned h5)
  · exact SharedPtr.release_in_assign_freesUnowned h4

theorem SharedPtr.move_assign_conv_freesUnowned {optIn : Bool} {self other : SharedPtr}
    {σ : Heap} {r : SharedPtr × SharedPtr × Heap}
    (h : SharedPtr.move_assign_conv optIn self other σ = .ok r) : σ.FreesUnowned r.2.2 := by
  simp only [SharedPtr.move_assign_conv, bind_ok_iff, pure_ok_iff] at h
  obtain ⟨σ4, h4, rfl⟩ := h
  exact SharedPtr.release_in_assign_freesUnowned h4

theorem SharedPtr.move_assign_freesUnowned {optIn : Bool} {self other : SharedPtr}
    {σ : Heap} {r : SharedPtr × SharedPtr × Heap}
    (h : SharedPtr.move_assign optIn self other σ = .ok r) : σ.FreesUnowned r.2.2 := by
  simp only [SharedPtr.move_assign, bind_ok_iff, pure_ok_iff] at h
  obtain ⟨r1, h1, σ2, h2, rfl⟩ := h
  exact (SharedPtr.move_ctor_freesUnowned h1).fu_trans (SharedPtr.dtor_freesUnowned h2)

theorem SharedPtr.reset_freesUnowned {optIn : Bool} {self : SharedPtr} {σ : Heap}
    {r : SharedPtr × Heap} (h : SharedPtr.reset optIn self σ = .ok r) :
    σ.FreesUnowned r.2 := by
  simp only [SharedPtr.reset, bind_ok_iff, pure_ok_iff] at h
  obtain ⟨σ1, h1, rfl⟩ := h
  exact SharedPtr.dtor_freesUnowned h1

theorem SharedPtr.reset_raw_freesUnowned {optIn : Bool} {self : SharedPtr} {new_ptr : Nat}
    {σ : Heap} {r : SharedPtr × Heap}
    (h : SharedPtr.reset_raw optIn self new_ptr σ = .ok r) : σ.FreesUnowned r.2 := by
  simp only [SharedPtr.reset_raw, bind_ok_iff, pure_ok_iff] at h
  obtain ⟨r1, h1, σ2, h2, rfl⟩ := h
  exact (SharedPtr.from_raw_freesUnowned h1).fu_trans (SharedPtr.dtor_freesUnowned h2)

/-- No statement hands back the storage of a block that has owners. -/
theorem step_freesUnowned {optIn : Bool} {s s' : State} {op : Op}
    (h : step optIn s op = .ok s') : s.heap.FreesUnowned s'.heap := by
  cases op <;> simp only [step] at h
  case ctor_default => rw [pure_ok_iff] at h; subst h; exact Heap.FreesUnowned.fu_refl _
  case ctor_raw pt d =>
    simp only [bind_ok_iff, pure_ok_iff] at h
    obtain ⟨r, hr, rfl⟩ := h
    exact SharedPtr.from_raw_freesUnowned hr
  case make_shared v => rw [pure_ok_iff] at h; subst h; exact makeShared_freesUnowned v _
  case copy_ctor src =>
    split at h
    · rw [pure_ok_iff] at h; subst h; exact Heap.FreesUnowned.fu_refl _
    · simp only [bind_ok_iff, pure_ok_iff] at h
      obtain ⟨r, hr, rfl⟩ := h
      exact SharedPtr.copy_ctor_freesUnowned hr
  case copy_ctor_conv src =>
    split at h
    · rw [pure_ok_iff] at h; subst h; exact Heap.FreesUnowned.fu_refl _
    · simp only [bind_ok_iff, pure_ok_iff] at h
      obtain ⟨r, hr, rfl⟩ := h
      exact SharedPtr.copy_ctor_conv_freesUnowned hr
  case move_ctor src =>
    split at h
    · rw [pure_ok_iff] at h; subst h; exact Heap.FreesUnowned.fu_refl _
    · simp only [bind_ok_iff, pure_ok_iff] at h
      obtain ⟨r, hr, rfl⟩ := h
      exact SharedPtr.move_ctor_freesUnowned hr
  case copy_assign dst src =>
    split_ifs at h
    · rw [pure_ok_iff] at h; subst h; exact Heap.FreesUnowned.fu_refl _
    · split at h
      · simp only [bind_ok_iff, pure_ok_iff] at h
        obtain ⟨r, hr, rfl⟩ := h
        exact SharedPtr.copy_assign_freesUnowned hr
      · rw [pure_ok_iff] at h; subst h; exact Heap.FreesUnowned.fu_refl _
  case move_assign dst src =>
    split_ifs at h
    · rw [pure_ok_iff] at h; subst h; exact Heap.FreesUnowned.fu_refl _
    · split at h
      · simp only [bind_ok_iff, pure_ok_iff] at h
        obtain ⟨r, hr, rfl⟩ := h
        exact SharedPtr.move_assign_freesUnowned hr
      · rw [pure_ok_iff] at h; subst h; exact Heap.FreesUnowned.fu_refl _
  case move_assign_conv dst src =>
    split_ifs at h
    · rw [pure_ok_iff] at h; subst h; exact Heap.FreesUnowned.fu_refl _
    · split at h
      · simp only [bind_ok_iff, pure_ok_iff] at h
        obtain ⟨r, hr, rfl⟩ := h
        exact SharedPtr.move_assign_conv_freesUnowned hr
      · rw [pure_ok_iff] at h; subst h; exact Heap.FreesUnowned.fu_refl _
  case reset x =>
    split at h
    · rw [pure_ok_iff] at h; subst h; exact Heap.FreesUnowned.fu_refl _
    · simp only [bind_ok_iff, pure_ok_iff] at h
      obtain ⟨r, hr, rfl⟩ := h
      exact SharedPtr.reset_freesUnowned hr
  case reset_raw x q =>
    split at h
    · rw [pure_ok_iff] at h; subst h; exact Heap.FreesUnowned.fu_refl _
    · simp only [bind_ok_iff, pure_ok_iff] at h
      obtain ⟨r, hr, rfl⟩ := h
      exact SharedPtr.reset_raw_freesUnowned hr
  case swap x y =>
    split_ifs at h
    · rw [pure_ok_iff] at h; subst h; exact Heap.FreesUnowned.fu_refl _
    · split at h <;> (rw [pure_ok_iff] at h; subst h; exact Heap.FreesUnowned.fu_refl _)
  case dtor x =>
    split at h
    · rw [pure_ok_iff] at h; subst h; exact Heap.FreesUnowned.fu_refl _
    · simp only [bind_ok_iff, pure_ok_iff] at h
      obtain ⟨r, hr, rfl⟩ := h
      exact SharedPtr.dtor_freesUnowned hr
  case lock w =>
    split at h
    · rw [pure_ok_iff] at h; subst h; exact Heap.FreesUnowned.fu_refl _
    · simp only [bind_ok_iff, pure_ok_iff] at h
      obtain ⟨r, hr, rfl⟩ := h
      exact WeakPtr.weak_lock_freesUnowned hr
  case shared_from_this p =>
    split_ifs at h
    · simp only [EnableSharedFromThis.shared_from_this, bind_ok_iff, pure_ok_iff] at h
      obtain ⟨r, ⟨w, -, hr⟩, rfl⟩ := h
      exact WeakPtr.weak_lock_freesUnowned hr
    · rw [pure_ok_iff] at h; subst h; exact Heap.FreesUnowned.fu_refl _
  case weak_default => rw [pure_ok_iff] at h; subst h; exact Heap.FreesUnowned.fu_refl _
  case weak_from_shared src =>
    split at h
    · rw [pure_ok_iff] at h; subst h; exact Heap.FreesUnowned.fu_refl _
    · simp only [bind_ok_iff, pure_ok_iff] at h
      obtain ⟨r, hr, rfl⟩ := h
      exact WeakPtr.weak_from_shared_freesUnowned hr
  case weak_copy_ctor src =>
    split at h
    · rw [pure_ok_iff] at h; subst h; exact Heap.FreesUnowned.fu_refl _
    · simp only [bind_ok_iff, pure_ok_iff] at h
      obtain ⟨r, hr, rfl⟩ := h
      exact WeakPtr.weak_copy_ctor_freesUnowned hr
  case weak_move_ctor src =>
    split at h <;> (rw [pure_ok_iff] at h; subst h; exact Heap.FreesUnowned.fu_refl _)
  case weak_copy_assign dst src =>
    split_ifs at h
    · rw [pure_ok_iff] at h; subst h; exact Heap.FreesUnowned.fu_refl _
    · split at h
      · simp only [bind_ok_iff, pure_ok_iff] at h
        obtain ⟨r, hr, rfl⟩ := h
        exact WeakPtr.weak_copy_assign_freesUnowned hr
      · rw [pure_ok_iff] at h; subst h; exact Heap.FreesUnowned.fu_refl _
  case weak_assign_shared dst src =>
    split at h
    · simp only [bind_ok_iff, pure_ok_iff] at h
      obtain ⟨r, hr, rfl⟩ := h
      exact WeakPtr.weak_assign_shared_freesUnowned hr
    · rw [pure_ok_iff] at h; subst h; exact Heap.FreesUnowned.fu_refl _
  case weak_swap x y =>
    split_ifs at h
    · rw [pure_ok_iff] at h; subst h; exact Heap.FreesUnowned.fu_refl _
    · split at h <;> (rw [pure_ok_iff] at h; subst h; exact Heap.FreesUnowned.fu_refl _)
  case weak_dtor w =>
    split at h
    · rw [pure_ok_iff] at h; subst h; exact Heap.FreesUnowned.fu_refl _
    · simp only [bind_ok_iff, pure_ok_iff] at h
      obtain ⟨r, hr, rfl⟩ := h
      exact WeakPtr.weak_dtor_freesUnowned hr

/-! ## Programs -/

theorem CountsOwners.counts_init : CountsOwners State.init.heap State.init.sp :=
  ⟨fun _ _ => by simp [State.init, Heap.empty, holders], fun _ _ => by simp [State.init, holders]⟩

theorem Heap.OwnedAlive.alive_init : State.init.heap.OwnedAlive :=
  fun _ hb => by simp [State.init, Heap.empty] at hb

theorem Moves.stays_released {promoted : Bool} {σ σ' : Heap} {sp sp' : List (Option SharedPtr)}
    (hm : Moves promoted σ sp σ' sp') (hinv : CountsOwners σ sp) {b : Nat} (hb : b ≠ 0)
    (hle : b ≤ σ.next) :
    b ≤ σ'.next ∧ (σ'.blocks b).variant = (σ.blocks b).variant ∧
      (holders SharedPtr.cb b sp = 0 → holders SharedPtr.cb b sp' = 0) := by
  induction hm with
  | @owners σ σ' sp sp' dec inc c ho hcount hinc hdec hmem =>
    refine ⟨by rw [ho.1]; exact hle, (ho.2 b).1, fun hz => ?_⟩
    have hc := hcount b hb
    by_cases h4 : b = inc
    · subst h4
      exact absurd hz (hinv.holders_ne_zero hb (hinc hb))
    · simp only [h4, if_false] at hc
      omega
  | @alloc σ σ' sp pt v ha hv =>
    obtain ⟨a1, a2, a3, a4, a5⟩ := ha
    refine ⟨by omega, (a5 b (by omega)).2.1, fun hz => ?_⟩
    rw [holders_append, holders_single_some, hz]
    have : ¬ (σ.next + 1 = b) := by omega
    simp [this]
  | trans h1 _ ih1 ih2 =>
    obtain ⟨e1, e2, e3⟩ := ih1 hinv hle
    obtain ⟨f1, f2, f3⟩ := ih2 (h1.countsOwners hinv) e1
    exact ⟨f1, f2.trans e2, fun hz => f3 (e3 hz)⟩

theorem run_nil_ok {optIn : Bool} {s s' : State} (h : run optIn s [] = .ok s') : s' = s := by
  simp only [run, pure_ok_iff] at h
  exact h.symm

theorem run_cons_ok {optIn : Bool} {s s' : State} {op : Op} {ops : List Op}
    (h : run optIn s (op :: ops) = .ok s') :
    ∃ s1, step optIn s op = .ok s1 ∧ run optIn s1 ops = .ok s' := by
  simp only [run, bind_ok_iff] at h
  exact h

theorem run_counts {optIn : Bool} {ops : List Op} {s s' : State}
    (h : run optIn s ops = .ok s') (hinv : CountsOwners s.heap s.sp ∧ s.heap.OwnedAlive) :
    CountsOwners s'.heap s'.sp ∧ s'.heap.OwnedAlive := by
  induction ops generalizing s with
  | nil => rw [run_nil_ok h]; exact hinv
  | cons op ops ih =>
    obtain ⟨s1, h1, h2⟩ := run_cons_ok h
    exact ih h2 ⟨(step_moves h1).countsOwners hinv.1, (step_freesUnowned h1).ownedAlive hinv.2⟩

theorem run_stays_released {optIn : Bool} {ops : List Op} {s s' : State}
    (h : run optIn s ops = .ok s') (hinv : CountsOwners s.heap s.sp) {b : Nat} (hb : b ≠ 0)
    (hle : b ≤ s.heap.next) :
    b ≤ s'.heap.next ∧ (s'.heap.blocks b).variant = (s.heap.blocks b).variant ∧
      (s.shared_holders b = 0 → s'.shared_holders b = 0) := by
  induction ops generalizing s with
  | nil => rw [run_nil_ok h]; exact ⟨hle, rfl, fun hz => hz⟩
  | cons op ops ih =>
    obtain ⟨s1, h1, h2⟩ := run_cons_ok h
    obtain ⟨e1, e2, e3⟩ := (step_moves h1).stays_released hinv hb hle
    obtain ⟨f1, f2, f3⟩ := ih h2 ((step_moves h1).countsOwners hinv) e1
    exact ⟨f1, f2.trans e2, fun hz => f3 (e3 hz)⟩

/-! ## The counters stay within `int` -/

theorem Heap.Capped.cap_refl (σ : Heap) : σ.Capped σ :=
  fun _ => ⟨Or.inr (le_refl _), Or.inr (le_refl _)⟩

theorem Heap.Capped.cap_trans {σ1 σ2 σ3 : Heap} (h1 : σ1.Capped σ2) (h2 : σ2.Capped σ3) :
    σ1.Capped σ3 := by
  intro b
  obtain ⟨a1, a2⟩ := h1 b
  obtain ⟨b1, b2⟩ := h2 b
  constructor
  · rcases b1 with h | h
    · exact Or.inl h
    · rcases a1 with g | g
      · exact Or.inl (le_trans h g)
      · exact Or.inr (le_trans h g)
  · rcases b2 with h | h
    · exact Or.inl h
    · rcases a2 with g | g
      · exact Or.inl (le_trans h g)
      · exact Or.inr (le_trans h g)

theorem Heap.Capped.bounded {σ σ' : Heap} (h : σ.Capped σ') (hinv : σ.Bounded) :
    σ'.Bounded := by
  intro b
  obtain ⟨a1, a2⟩ := h b
  obtain ⟨i1, i2⟩ := hinv b
  exact ⟨a1.elim id (fun g => le_trans g i1), a2.elim id (fun g => le_trans g i2)⟩

theorem Heap.Capped.cap_store {σ : Heap} {cb : Nat} {blk : BaseControlBlock}
    (hs : blk.shared_counter ≤ INT_MAX ∨ blk.shared_counter ≤ (σ.blocks cb).shared_counter)
    (hw : blk.weak_counter ≤ INT_MAX ∨ blk.weak_counter ≤ (σ.blocks cb).weak_counter) :
    σ.Capped (σ.store cb blk) := by
  intro b
  by_cases hbc : b = cb
  · subst hbc
    simp only [Heap.store_blocks_same]
    exact ⟨hs, hw⟩
  · simp only [Heap.store_blocks, hbc, if_false]
    exact ⟨Or.inr (le_refl _), Or.inr (le_refl _)⟩

theorem Heap.Capped.cap_record {σ : Heap} {cb : Nat} {blk : BaseControlBlock}
    (hs : blk.shared_counter = (σ.blocks cb).shared_counter)
    (hw : blk.weak_counter = (σ.blocks cb).weak_counter) : σ.Capped (σ.store cb blk) :=
  Heap.Capped.cap_store (Or.inr (le_of_eq hs)) (Or.inr (le_of_eq hw))

theorem Heap.Capped.cap_modify {σ σ' : Heap} {cb : Nat}
    {f : BaseControlBlock → BaseControlBlock} (h : σ.modify cb f = .ok σ')
    (hs : ∀ blk, (f blk).shared_counter ≤ blk.shared_counter)
    (hw : ∀ blk, (f blk).weak_counter ≤ blk.weak_counter) : σ.Capped σ' := by
  rw [modify_ok_iff] at h
  obtain ⟨-, -, rfl⟩ := h
  exact Heap.Capped.cap_store (Or.inr (hs _)) (Or.inr (hw _))

theorem Heap.Capped.cap_setWptr (σ : Heap) (p : Nat) (w : Option WeakPtr) :
    σ.Capped (σ.setWptr p w) :=
  fun _ => ⟨Or.inr (le_refl _), Or.inr (le_refl _)⟩

theorem incShared_capped {cb : Nat} {σ σ' : Heap} (h : incShared cb σ = .ok σ') :
    σ.Capped σ' := by
  obtain ⟨h1, h2⟩ := incShared_modify h
  rw [modify_ok_iff] at h1
  obtain ⟨-, -, rfl⟩ := h1
  refine Heap.Capped.cap_store (Or.inl ?_) (Or.inr (le_refl _))
  show (σ.blocks cb).shared_counter + 1 ≤ INT_MAX
  omega

theorem incWeak_capped {cb : Nat} {σ σ' : Heap} (h : incWeak cb σ = .ok σ') :
    σ.Capped σ' := by
  obtain ⟨h1, h2⟩ := incWeak_modify h
  rw [modify_ok_iff] at h1
  obtain ⟨-, -, rfl⟩ := h1
  refine Heap.Capped.cap_store (Or.inr (le_refl _)) (Or.inl ?_)
  show (σ.blocks cb).weak_counter + 1 ≤ INT_MAX
  omega

theorem decShared_capped {cb : Nat} {σ σ' : Heap} (h : decShared cb σ = .ok σ') :
    σ.Capped σ' := by
  unfold decShared at h
  refine Heap.Capped.cap_modify h (fun blk => ?_) (fun _ => le_refl _)
  show blk.shared_counter - 1 ≤ blk.shared_counter
  omega

theorem decWeak_capped {cb : Nat} {σ σ' : Heap} (h : decWeak cb σ = .ok σ') :
    σ.Capped σ' := by
  unfold decWeak at h
  refine Heap.Capped.cap_modify h (fun _ => le_refl _) (fun blk => ?_)
  show blk.weak_counter - 1 ≤ blk.weak_counter
  omega

theorem call_destructor_capped {cb : Nat} {σ σ' : Heap}
    (h : call_destructor cb σ = .ok σ') : σ.Capped σ' := by
  unfold call_destructor at h
  exact Heap.Capped.cap_modify h (fun _ => le_refl _) (fun _ => le_refl _)

theorem deallocate_capped {cb : Nat} {σ σ' : Heap} (h : deallocate cb σ = .ok σ') :
    σ.Capped σ' := by
  unfold deallocate at h
  exact Heap.Capped.cap_modify h (fun _ => le_refl _) (fun _ => le_refl _)

theorem WeakPtr.weak_dtor_capped {w : WeakPtr} {σ σ' : Heap} (h : w.dtor σ = .ok σ') :
    σ.Capped σ' := by
  simp only [WeakPtr.dtor, bind_ok_iff, pure_ok_iff, ite_ok_iff, load_ok_iff] at h
  rcases h with ⟨_, σ1, h1, b, ⟨-, -, rfl⟩, (⟨_, h2⟩ | ⟨_, rfl⟩)⟩ | ⟨_, rfl⟩
  · exact (decWeak_capped h1).cap_trans (deallocate_capped h2)
  · exact decWeak_capped h1
  · exact Heap.Capped.cap_refl _

theorem WeakPtr.weak_from_shared_capped {other : SharedPtr} {σ : Heap} {r : WeakPtr × Heap}
    (h : WeakPtr.from_shared other σ = .ok r) : σ.Capped r.2 := by
  simp only [WeakPtr.from_shared, bind_ok_iff, pure_ok_iff] at h
  obtain ⟨σ1, h1, rfl⟩ := h
  exact incWeak_capped h1

theorem WeakPtr.weak_copy_ctor_capped {other : WeakPtr} {σ : Heap} {r : WeakPtr × Heap}
    (h : WeakPtr.copy_ctor other σ = .ok r) : σ.Capped r.2 := by
  simp only [WeakPtr.copy_ctor, bind_ok_iff, pure_ok_iff] at h
  obtain ⟨σ1, h1, rfl⟩ := h
  exact incWeak_capped h1

theorem WeakPtr.weak_assign_shared_capped {self : WeakPtr} {other : SharedPtr} {σ : Heap}
    {r : WeakPtr × Heap} (h : self.assign_shared other σ = .ok r) : σ.Capped r.2 := by
  simp only [WeakPtr.assign_shared, bind_ok_iff, pure_ok_iff] at h
  obtain ⟨r1, h1, σ2, h2, rfl⟩ := h
  exact (WeakPtr.weak_from_shared_capped h1).cap_trans (WeakPtr.weak_dtor_capped h2)

theorem WeakPtr.weak_copy_assign_capped {self other : WeakPtr} {σ : Heap}
    {r : WeakPtr × Heap} (h : self.copy_assign other σ = .ok r) : σ.Capped r.2 := by
  simp only [WeakPtr.copy_assign, bind_ok_iff, pure_ok_iff] at h
  obtain ⟨r1, h1, σ2, h2, rfl⟩ := h
  exact (WeakPtr.weak_copy_ctor_capped h1).cap_trans (WeakPtr.weak_dtor_capped h2)

theorem WeakPtr.weak_lock_capped {self : WeakPtr} {σ : Heap} {r : SharedPtr × Heap}
    (h : self.lock σ = .ok r) : σ.Capped r.2 := by
  simp only [WeakPtr.lock, bind_ok_iff, pure_ok_iff, ite_ok_iff] at h
  obtain ⟨e, -, (⟨_, σ1, h1, rfl⟩ | ⟨_, rfl⟩)⟩ := h
  · exact incShared_capped h1
  · exact Heap.Capped.cap_refl _

theorem SharedPtr.set_wptr_capped {optIn : Bool} {self : SharedPtr} {σ σ' : Heap}
    (h : SharedPtr.set_wptr optIn self σ = .ok σ') : σ.Capped σ' := by
  simp only [SharedPtr.set_wptr, bind_ok_iff, pure_ok_iff, ite_ok_iff] at h
  rcases h with ⟨_, w, _, r, h2, rfl⟩ | ⟨_, rfl⟩
  · exact (WeakPtr.weak_assign_shared_capped h2).cap_trans (Heap.Capped.cap_setWptr _ _ _)
  · exact Heap.Capped.cap_refl _

theorem destroy_object_capped {optIn : Bool} {p : Nat} {σ σ' : Heap}
    (h : destroy_object optIn p σ = .ok σ') : σ.Capped σ' := by
  simp only [destroy_object, bind_ok_iff, pure_ok_iff, ite_ok_iff] at h
  rcases h with ⟨_, w, _, σ1, h2, rfl⟩ | ⟨_, rfl⟩
  · exact (WeakPtr.weak_dtor_capped h2).cap_trans (Heap.Capped.cap_setWptr _ _ _)
  · exact Heap.Capped.cap_refl _

theorem use_deleter_capped {optIn : Bool} {cb : Nat} {σ σ' : Heap}
    (h : use_deleter optIn cb σ = .ok σ') : σ.Capped σ' := by
  simp only [use_deleter, bind_ok_iff, load_ok_iff] at h
  obtain ⟨blk, ⟨h0, h1, rfl⟩, h2⟩ := h
  split at h2
  · simp only [ite_ok_iff, pure_ok_iff] at h2
    rcases h2 with ⟨ho, (⟨_, h3⟩ | ⟨_, rfl⟩)⟩ | ⟨ho, rfl⟩
    · refine Heap.Capped.cap_trans ?_ (destroy_object_capped h3)
      apply Heap.Capped.cap_record <;> rfl
    · apply Heap.Capped.cap_record <;> rfl
    · apply Heap.Capped.cap_record <;> rfl
  · simp only [pure_ok_iff] at h2
    subst h2
    apply Heap.Capped.cap_record <;> rfl

theorem tail_capped {cb : Nat} {σ2 σ' : Heap}
    (h : (call_destructor cb σ2 >>= fun σ3 => σ3.load cb >>= fun b3 =>
      if b3.weak_counter = 0 then deallocate cb σ3 else pure σ3) = .ok σ') :
    σ2.Capped σ' := by
  simp only [bind_ok_iff, ite_ok_iff, pure_ok_iff] at h
  obtain ⟨σ3, h3, b3, _, (⟨_, h5⟩ | ⟨_, rfl⟩)⟩ := h
  · exact (call_destructor_capped h3).cap_trans (deallocate_capped h5)
  · exact call_destructor_capped h3

theorem SharedPtr.dtor_capped {optIn : Bool} {self : SharedPtr} {σ σ' : Heap}
    (h : SharedPtr.dtor optIn self σ = .ok σ') : σ.Capped σ' := by
  unfold SharedPtr.dtor at h
  by_cases h0 : self.cb = 0
  · rw [if_neg (not_not.mpr h0), pure_ok_iff] at h
    subst h
    exact Heap.Capped.cap_refl _
  · rw [if_pos h0, bind_ok_iff] at h
    obtain ⟨σ1, h1, h⟩ := h
    rw [bind_ok_iff] at h
    obtain ⟨b1, hb1, h⟩ := h
    rw [load_ok_iff] at hb1
    obtain ⟨-, -, rfl⟩ := hb1
    by_cases hz : (σ1.blocks self.cb).shared_counter = 0
    · rw [if_pos hz, bind_ok_iff] at h
      obtain ⟨σ2, h2, h⟩ := h
      by_cases hp : self.ptr = 0
      · rw [if_neg (not_not.mpr hp), pure_ok_iff] at h2
        subst h2
        exact (decShared_capped h1).cap_trans (tail_capped h)
      · rw [if_pos hp] at h2
        exact ((decShared_capped h1).cap_trans (use_deleter_capped h2)).cap_trans
          (tail_capped h)
    · rw [if_neg hz, pure_ok_iff] at h
      subst h
      exact decShared_capped h1

theorem SharedPtr.release_in_assign_capped {optIn : Bool} {self : SharedPtr}
    {σ σ' : Heap} (h : SharedPtr.release_in_assign optIn self σ = .ok σ') :
    σ.Capped σ' := by
  unfold SharedPtr.release_in_assign at h
  by_cases h0 : self.cb = 0
  · rw [if_neg (not_not.mpr h0), pure_ok_iff] at h
    subst h
    exact Heap.Capped.cap_refl _
  · rw [if_pos h0, bind_ok_iff] at h
    obtain ⟨σ1, h1, h⟩ := h
    rw [bind_ok_iff] at h
    obtain ⟨b1, hb1, h⟩ := h
    rw [load_ok_iff] at hb1
    obtain ⟨-, -, rfl⟩ := hb1
    by_cases hz : (σ1.blocks self.cb).shared_counter = 0
    · rw [if_pos hz, bind_ok_iff] at h
      obtain ⟨σ2, h2, h⟩ := h
      exact ((decShared_capped h1).cap_trans (use_deleter_capped h2)).cap_trans
        (tail_capped h)
    · rw [if_neg hz, pure_ok_iff] at h
      subst h
      exact decShared_capped h1

theorem SharedPtr.from_raw_capped {optIn : Bool} {pt : Nat} {deleter : Deleter}
    {σ : Heap} {r : SharedPtr × Heap} (h : SharedPtr.from_raw optIn pt deleter σ = .ok r) :
    σ.Capped r.2 := by
  simp only [SharedPtr.from_raw, bind_ok_iff, pure_ok_iff] at h
  obtain ⟨σ2, h2, rfl⟩ := h
  refine Heap.Capped.cap_trans ?_ (SharedPtr.set_wptr_capped h2)
  exact Heap.Capped.cap_store (Or.inl (le_of_lt one_lt_INT_MAX)) (Or.inl (le_of_lt zero_lt_INT_MAX))

theorem makeShared_capped (v : Int) (σ : Heap) : σ.Capped (makeShared v σ).2 :=
  Heap.Capped.cap_store (Or.inl (le_of_lt one_lt_INT_MAX)) (Or.inl (le_of_lt zero_lt_INT_MAX))

theorem SharedPtr.copy_ctor_capped {optIn : Bool} {other : SharedPtr} {σ : Heap}
    {r : SharedPtr × Heap} (h : SharedPtr.copy_ctor optIn other σ = .ok r) :
    σ.Capped r.2 := by
  simp only [SharedPtr.copy_ctor, bind_ok_iff, pure_ok_iff, ite_ok_iff] at h
  rcases h with ⟨_, σ1, h1, σ2, h2, rfl⟩ | ⟨_, rfl⟩
  · exact (incShared_capped h1).cap_trans (SharedPtr.set_wptr_capped h2)
  · exact Heap.Capped.cap_refl _

theorem SharedPtr.copy_ctor_conv_capped {optIn : Bool} {other : SharedPtr} {σ : Heap}
    {r : SharedPtr × Heap} (h : SharedPtr.copy_ctor_conv optIn other σ = .ok r) :
    σ.Capped r.2 := by
  simp only [SharedPtr.copy_ctor_conv, bind_ok_iff, pure_ok_iff] at h
  obtain ⟨σ1, h1, σ2, h2, rfl⟩ := h
  exact (incShared_capped h1).cap_trans (SharedPtr.set_wptr_capped h2)

theorem SharedPtr.move_ctor_capped {optIn : Bool} {other : SharedPtr} {σ : Heap}
    {r : SharedPtr × SharedPtr × Heap} (h : SharedPtr.move_ctor optIn other σ = .ok r) :
    σ.Capped r.2.2 := by
  simp only [SharedPtr.move_ctor, bind_ok_iff, pure_ok_iff, ite_ok_iff] at h
  rcases h with ⟨_, σ1, h1, rfl⟩ | ⟨_, rfl⟩
  · exact SharedPtr.set_wptr_capped h1
  · exact Heap.Capped.cap_refl _

theorem SharedPtr.copy_assign_capped {optIn : Bool} {self other : SharedPtr} {σ : Heap}
    {r : SharedPtr × Heap} (h : SharedPtr.copy_assign optIn self other σ = .ok r) :
    σ.Capped r.2 := by
  simp only [SharedPtr.copy_assign, bind_ok_iff, pure_ok_iff, ite_ok_iff] at h
  rcases h with ⟨_, rfl⟩ | ⟨_, σ4, h4, (⟨_, σ5, h5, rfl⟩ | ⟨_, rfl⟩)⟩
  · exact Heap.Capped.cap_refl _
  · exact (SharedPtr.release_in_assign_capped h4).cap_trans (incShared_capped h5)
  · exact SharedPtr.release_in_assign_capped h4

theorem SharedPtr.move_assign_conv_capped {optIn : Bool} {self other : SharedPtr}
    {σ : Heap} {r : SharedPtr × SharedPtr × Heap}
    (h : SharedPtr.move_assign_conv optIn self other σ = .ok r) : σ.Capped r.2.2 := by
  simp only [SharedPtr.move_assign_conv, bind_ok_iff, pure_ok_iff] at h
  obtain ⟨σ4, h4, rfl⟩ := h
  exact SharedPtr.release_in_assign_capped h4

theorem SharedPtr.move_assign_capped {optIn : Bool} {self other : SharedPtr}
    {σ : Heap} {r : SharedPtr × SharedPtr × Heap}
    (h : SharedPtr.move_assign optIn self other σ = .ok r) : σ.Capped r.2.2 := by
  simp only [SharedPtr.move_assign, bind_ok_iff, pure_ok_iff] at h
  obtain ⟨r1, h1, σ2, h2, rfl⟩ := h
  exact (SharedPtr.move_ctor_capped h1).cap_trans (SharedPtr.dtor_capped h2)

theorem SharedPtr.reset_capped {optIn : Bool} {self : SharedPtr} {σ : Heap}
    {r : SharedPtr × Heap} (h : SharedPtr.reset optIn self σ = .ok r) :
    σ.Capped r.2 := by
  simp only [SharedPtr.reset, bind_ok_iff, pure_ok_iff] at h
  obtain ⟨σ1, h1, rfl⟩ := h
  exact SharedPtr.dtor_capped h1

theorem SharedPtr.reset_raw_capped {optIn : Bool} {self : SharedPtr} {new_ptr : Nat}
    {σ : Heap} {r : SharedPtr × Heap}
    (h : SharedPtr.reset_raw optIn self new_ptr σ = .ok r) : σ.Capped r.2 := by
  simp only [SharedPtr.reset_raw, bind_ok_iff, pure_ok_iff] at h
  obtain ⟨r1, h1, σ2, h2, rfl⟩ := h
  exact (SharedPtr.from_raw_capped h1).cap_trans (SharedPtr.dtor_capped h2)

/-- No statement raises a counter beyond `INT_MAX`. -/
theorem step_capped {optIn : Bool} {s s' : State} {op : Op}
    (h : step optIn s op = .ok s') : s.heap.Capped s'.heap := by
  cases op <;> simp only [step] at h
  case ctor_default => rw [pure_ok_iff] at h; subst h; exact Heap.Capped.cap_refl _
  case ctor_raw pt d =>
    simp only [bind_ok_iff, pure_ok_iff] at h
    obtain ⟨r, hr, rfl⟩ := h
    exact SharedPtr.from_raw_capped hr
  case make_shared v => rw [pure_ok_iff] at h; subst h; exact makeShared_capped v _
  case copy_ctor src =>
    split at h
    · rw [pure_ok_iff] at h; subst h; exact Heap.Capped.cap_refl _
    · simp only [bind_ok_iff, pure_ok_iff] at h
      obtain ⟨r, hr, rfl⟩ := h
      exact SharedPtr.copy_ctor_capped hr
  case copy_ctor_conv src =>
    split at h
    · rw [pure_ok_iff] at h; subst h; exact Heap.Capped.cap_refl _
    · simp only [bind_ok_iff, pure_ok_iff] at h
      obtain ⟨r, hr, rfl⟩ := h
      exact SharedPtr.copy_ctor_conv_capped hr
  case move_ctor src =>
    split at h
    · rw [pure_ok_iff] at h; subst h; exact Heap.Capped.cap_refl _
    · simp only [bind_ok_iff, pure_ok_iff] at h
      obtain ⟨r, hr, rfl⟩ := h
      exact SharedPtr.move_ctor_capped hr
  case copy_assign dst src =>
    split_ifs at h
    · rw [pure_ok_iff] at h; subst h; exact Heap.Capped.cap_refl _
    · split at h
      · simp only [bind_ok_iff, pure_ok_iff] at h
        obtain ⟨r, hr, rfl⟩ := h
        exact SharedPtr.copy_assign_capped hr
      · rw [pure_ok_iff] at h; subst h; exact Heap.Capped.cap_refl _
  case move_assign dst src =>
    split_ifs at h
    · rw [pure_ok_iff] at h; subst h; exact Heap.Capped.cap_refl _
    · split at h
      · simp only [bind_ok_iff, pure_ok_iff] at h
        obtain ⟨r, hr, rfl⟩ := h
        exact SharedPtr.move_assign_capped hr
      · rw [pure_ok_iff] at h; subst h; exact Heap.Capped.cap_refl _
  case move_assign_conv dst src =>
    split_ifs at h
    · rw [pure_ok_iff] at h; subst h; exact Heap.Capped.cap_refl _
    · split at h
      · simp only [bind_ok_iff, pure_ok_iff] at h
        obtain ⟨r, hr, rfl⟩ := h
        exact SharedPtr.move_assign_conv_capped hr
      · rw [pure_ok_iff] at h; subst h; exact Heap.Capped.cap_refl _
  case reset x =>
    split at h
    · rw [pure_ok_iff] at h; subst h; exact Heap.Capped.cap_refl _
    · simp only [bind_ok_iff, pure_ok_iff] at h
      obtain ⟨r, hr, rfl⟩ := h
      exact SharedPtr.reset_capped hr
  case reset_raw x q =>
    split at h
    · rw [pure_ok_iff] at h; subst h; exact Heap.Capped.cap_refl _
    · simp only [bind_ok_iff, pure_ok_iff] at h
      obtain ⟨r, hr, rfl⟩ := h
      exact SharedPtr.reset_raw_capped hr
  case swap x y =>
    split_ifs at h
    · rw [pure_ok_iff] at h; subst h; exact Heap.Capped.cap_refl _
    · split at h <;> (rw [pure_ok_iff] at h; subst h; exact Heap.Capped.cap_refl _)
  case dtor x =>
    split at h
    · rw [pure_ok_iff] at h; subst h; exact Heap.Capped.cap_refl _
    · simp only [bind_ok_iff, pure_ok_iff] at h
      obtain ⟨r, hr, rfl⟩ := h
      exact SharedPtr.dtor_capped hr
  case lock w =>
    split at h
    · rw [pure_ok_iff] at h; subst h; exact Heap.Capped.cap_refl _
    · simp only [bind_ok_iff, pure_ok_iff] at h
      obtain ⟨r, hr, rfl⟩ := h
      exact WeakPtr.weak_lock_capped hr
  case shared_from_this p =>
    split_ifs at h
    · simp only [EnableSharedFromThis.shared_from_this, bind_ok_iff, pure_ok_iff] at h
      obtain ⟨r, ⟨w, -, hr⟩, rfl⟩ := h
      exact WeakPtr.weak_lock_capped hr
    · rw [pure_ok_iff] at h; subst h; exact Heap.Capped.cap_refl _
  case weak_default => rw [pure_ok_iff] at h; subst h; exact Heap.Capped.cap_refl _
  case weak_from_shared src =>
    split at h
    · rw [pure_ok_iff] at h; subst h; exact Heap.Capped.cap_refl _
    · simp only [bind_ok_iff, pure_ok_iff] at h
      obtain ⟨r, hr, rfl⟩ := h
      exact WeakPtr.weak_from_shared_capped hr
  case weak_copy_ctor src =>
    split at h
    · rw [pure_ok_iff] at h; subst h; exact Heap.Capped.cap_refl _
    · simp only [bind_ok_iff, pure_ok_iff] at h
      obtain ⟨r, hr, rfl⟩ := h
      exact WeakPtr.weak_copy_ctor_capped hr
  case weak_move_ctor src =>
    split at h <;> (rw [pure_ok_iff] at h; subst h; exact Heap.Capped.cap_refl _)
  case weak_copy_assign dst src =>
    split_ifs at h
    · rw [pure_ok_iff] at h; subst h; exact Heap.Capped.cap_refl _
    · split at h
      · simp only [bind_ok_iff, pure_ok_iff] at h
        obtain ⟨r, hr, rfl⟩ := h
        exact WeakPtr.weak_copy_assign_capped hr
      · rw [pure_ok_iff] at h; subst h; exact Heap.Capped.cap_refl _
  case weak_assign_shared dst src =>
    split at h
    · simp only [bind_ok_iff, pure_ok_iff] at h
      obtain ⟨r, hr, rfl⟩ := h
      exact WeakPtr.weak_assign_shared_capped hr
    · rw [pure_ok_iff] at h; subst h; exact Heap.Capped.cap_refl _
  case weak_swap x y =>
    split_ifs at h
    · rw [pure_ok_iff] at h; subst h; exact Heap.Capped.cap_refl _
    · split at h <;> (rw [pure_ok_iff] at h; subst h; exact Heap.Capped.cap_refl _)
  case weak_dtor w =>
    split at h
    · rw [pure_ok_iff] at h; subst h; exact Heap.Capped.cap_refl _
    · simp only [bind_ok_iff, pure_ok_iff] at h
      obtain ⟨r, hr, rfl⟩ := h
      exact WeakPtr.weak_dtor_capped hr

theorem Heap.Bounded.bounded_init : State.init.heap.Bounded :=
  fun _ => ⟨le_of_lt zero_lt_INT_MAX, le_of_lt zero_lt_INT_MAX⟩

theorem run_bounded {optIn : Bool} {ops : List Op} {s s' : State}
    (h : run optIn s ops = .ok s') (hinv : s.heap.Bounded) : s'.heap.Bounded := by
  induction ops generalizing s with
  | nil => rw [run_nil_ok h]; exact hinv
  | cons op ops ih =>
    obtain ⟨s1, h1, h2⟩ := run_cons_ok h
    exact ih h2 ((step_capped h1).bounded hinv)

/-! ## More closed forms -/

theorem ok_bind {ε α β : Type} (a : α) (f : α → Except ε β) :
    (Except.ok a >>= f) = f a := rfl

theorem error_bind {ε α β : Type} (e : ε) (f : α → Except ε β) :
    ((Except.error e : Except ε α) >>= f) = .error e := rfl

theorem ite_bind {ε α β : Type} (c : Prop) [Decidable c] (x y : Except ε α)
    (f : α → Except ε β) :
    ((if c then x else y) >>= f) = if c then x >>= f else y >>= f := by
  split_ifs <;> rfl

theorem pure_eq_ok {ε α : Type} (a : α) : (pure a : Except ε α) = .ok a := rfl

theorem SharedPtr.set_wptr_eq (self : SharedPtr) (σ : Heap) :
    SharedPtr.set_wptr false self σ = .ok σ := rfl

theorem incShared_eq (cb : Nat) (σ : Heap) :
    incShared cb σ = if cb = 0 then .error .nullDeref
      else if (σ.blocks cb).deallocations ≠ 0 then .error .useAfterFree
      else if INT_MAX ≤ (σ.blocks cb).shared_counter then .error .overflow
      else .ok (σ.store cb { σ.blocks cb with
        shared_counter := (σ.blocks cb).shared_counter + 1 }) := by
  unfold incShared
  rw [Heap.modify_eq, Heap.load_eq]
  by_cases h0 : cb = 0
  · simp [h0, error_bind]
  · by_cases h1 : (σ.blocks cb).deallocations = 0
    · by_cases h2 : INT_MAX ≤ (σ.blocks cb).shared_counter <;> simp [h0, h1, h2, ok_bind]
    · simp [h0, h1, error_bind]

theorem incWeak_eq (cb : Nat) (σ : Heap) :
    incWeak cb σ = if cb = 0 then .error .nullDeref
      else if (σ.blocks cb).deallocations ≠ 0 then .error .useAfterFree
      else if INT_MAX ≤ (σ.blocks cb).weak_counter then .error .overflow
      else .ok (σ.store cb { σ.blocks cb with
        weak_counter := (σ.blocks cb).weak_counter + 1 }) := by
  unfold incWeak
  rw [Heap.modify_eq, Heap.load_eq]
  by_cases h0 : cb = 0
  · simp [h0, error_bind]
  · by_cases h1 : (σ.blocks cb).deallocations = 0
    · by_cases h2 : INT_MAX ≤ (σ.blocks cb).weak_counter <;> simp [h0, h1, h2, ok_bind]
    · simp [h0, h1, error_bind]

theorem SharedPtr.copy_ctor_eq (other : SharedPtr) (σ : Heap) :
    SharedPtr.copy_ctor false other σ = if other.cb = 0 then .ok (other, σ)
      else if (σ.blocks other.cb).deallocations ≠ 0 then .error .useAfterFree
      else if INT_MAX ≤ (σ.blocks other.cb).shared_counter then .error .overflow
      else .ok (other, σ.store other.cb { σ.blocks other.cb with
        shared_counter := (σ.blocks other.cb).shared_counter + 1 }) := by
  unfold SharedPtr.copy_ctor
  simp only [incShared_eq, SharedPtr.set_wptr_eq]
  by_cases h0 : other.cb = 0
  · rw [if_neg (not_not.mpr h0), if_pos h0]; rfl
  · by_cases h1 : (σ.blocks other.cb).deallocations = 0
    · by_cases h2 : INT_MAX ≤ (σ.blocks other.cb).shared_counter <;>
        simp [h0, h1, h2, pure_eq_ok, ok_bind, error_bind]
    · simp [h0, h1, pure_eq_ok, ok_bind, error_bind]

theorem WeakPtr.weak_lock_eq (self : WeakPtr) (σ : Heap) :
    self.lock σ = if self.cb = 0 then .error .nullDeref
      else if (σ.blocks self.cb).deallocations ≠ 0 then .error .useAfterFree
      else if (σ.blocks self.cb).shared_counter = 0 then .ok (SharedPtr.null, σ)
      else if INT_MAX ≤ (σ.blocks self.cb).shared_counter then .error .overflow
      else .ok (⟨0, self.cb⟩, σ.store self.cb { σ.blocks self.cb with
        shared_counter := (σ.blocks self.cb).shared_counter + 1 }) := by
  unfold WeakPtr.lock WeakPtr.expired
  simp only [incShared_eq, Heap.load_eq]
  by_cases h0 : self.cb = 0
  · simp [h0, error_bind]
  · by_cases h1 : (σ.blocks self.cb).deallocations = 0
    · by_cases h2 : (σ.blocks self.cb).shared_counter = 0
      · simp [h0, h1, h2, pure_eq_ok, ok_bind, SharedPtr.null]
      · by_cases h3 : INT_MAX ≤ (σ.blocks self.cb).shared_counter <;>
          simp [h0, h1, h2, h3, pure_eq_ok, ok_bind, error_bind, SharedPtr.null]
    · simp [h0, h1, error_bind]

theorem WeakPtr.weak_expired_eq (self : WeakPtr) (σ : Heap) :
    self.expired σ = if self.cb = 0 then .error .nullDeref
      else if (σ.blocks self.cb).deallocations ≠ 0 then .error .useAfterFree
      else .ok (decide ((σ.blocks self.cb).shared_counter = 0)) := by
  unfold WeakPtr.expired
  simp only [Heap.load_eq]
  split_ifs <;> rfl

theorem WeakPtr.weak_from_shared_eq (other : SharedPtr) (σ : Heap) :
    WeakPtr.from_shared other σ = if other.cb = 0 then .error .nullDeref
      else if (σ.blocks other.cb).deallocations ≠ 0 then .error .useAfterFree
      else if INT_MAX ≤ (σ.blocks other.cb).weak_counter then .error .overflow
      else .ok (⟨other.ptr, other.cb⟩, σ.store other.cb { σ.blocks other.cb with
        weak_counter := (σ.blocks other.cb).weak_counter + 1 }) := by
  unfold WeakPtr.from_shared
  simp only [incWeak_eq]
  split_ifs <;> rfl

theorem WeakPtr.weak_copy_ctor_eq (other : WeakPtr) (σ : Heap) :
    WeakPtr.copy_ctor other σ = if other.cb = 0 then .error .nullDeref
      else if (σ.blocks other.cb).deallocations ≠ 0 then .error .useAfterFree
      else if INT_MAX ≤ (σ.blocks other.cb).weak_counter then .error .overflow
      else .ok (other, σ.store other.cb { σ.blocks other.cb with
        weak_counter := (σ.blocks other.cb).weak_counter + 1 }) := by
  unfold WeakPtr.copy_ctor
  simp only [incWeak_eq]
  split_ifs <;> rfl

theorem SharedPtr.use_count_eq (self : SharedPtr) (σ : Heap) :
    self.use_count σ = if self.cb = 0 then .ok 0
      else if (σ.blocks self.cb).deallocations ≠ 0 then .error .useAfterFree
      else .ok (σ.blocks self.cb).shared_counter := by
  unfold SharedPtr.use_count
  simp only [Heap.load_eq]
  split_ifs <;> rfl

/-! ## Operations on a live block -/

theorem SharedPtr.copy_ctor_live {other : SharedPtr} {σ : Heap} (h0 : other.cb ≠ 0)
    (h1 : (σ.blocks other.cb).deallocations = 0)
    (h2 : (σ.blocks other.cb).shared_counter < INT_MAX) :
    SharedPtr.copy_ctor false other σ = .ok (other, σ.store other.cb { σ.blocks other.cb with
      shared_counter := (σ.blocks other.cb).shared_counter + 1 }) := by
  rw [SharedPtr.copy_ctor_eq, if_neg h0, if_neg (not_not.mpr h1), if_neg (not_le.mpr h2)]

theorem SharedPtr.dtor_live {self : SharedPtr} {σ : Heap} (h0 : self.cb ≠ 0)
    (h1 : (σ.blocks self.cb).deallocations = 0) :
    SharedPtr.dtor false self σ =
      .ok (σ.store self.cb ((σ.blocks self.cb).released (decide (self.ptr ≠ 0)))) := by
  rw [SharedPtr.dtor_eq, if_neg h0, if_neg (not_not.mpr h1)]

theorem SharedPtr.use_count_live {self : SharedPtr} {σ : Heap} (h0 : self.cb ≠ 0)
    (h1 : (σ.blocks self.cb).deallocations = 0) :
    self.use_count σ = .ok (σ.blocks self.cb).shared_counter := by
  rw [SharedPtr.use_count_eq, if_neg h0, if_neg (not_not.mpr h1)]

theorem makeShared_fst (v : Int) (σ : Heap) : (makeShared v σ).1 = ⟨0, σ.next + 1⟩ := rfl

theorem makeShared_block (v : Int) (σ : Heap) :
    (makeShared v σ).2.blocks (σ.next + 1) = ⟨1, 0, .ControlBlockMakeShared v, 0, [], 0, 0⟩ := by
  simp [makeShared, allocateShared, Heap.store]

/-! ## Combined allocation and self-reference -/

/-- C5 (what the code does instead): for every payload value `v` the handle
returned by `makeShared` / `allocateShared` has `get() == nullptr`, because the
private constructor `SharedPtr(BaseControlBlock*)` initialises `ptr` with
`nullptr`; the payload `v` sits in the block, but dereferencing the handle, or
the copy of it that is left after the original has been destroyed, dereferences
a null pointer instead of yielding `v`. -/
theorem makeShared_handle_observes_null (v : Int) (σ : Heap) :
    ((makeShared v σ).2.blocks (makeShared v σ).1.cb).variant = .ControlBlockMakeShared v ∧
    (makeShared v σ).1.get = 0 ∧
    (makeShared v σ).1.deref = .error .nullDeref ∧
    ∃ B σ2 σ3,
      SharedPtr.copy_ctor false (makeShared v σ).1 (makeShared v σ).2 = .ok (B, σ2) ∧
      SharedPtr.dtor false (makeShared v σ).1 σ2 = .ok σ3 ∧
      (σ3.blocks B.cb).variant = .ControlBlockMakeShared v ∧
      B.use_count σ3 = .ok 1 ∧ B.get = 0 ∧ B.deref = .error .nullDeref := by
  have hb := makeShared_block v σ
  have hcb : (makeShared v σ).1.cb = σ.next + 1 := rfl
  refine ⟨by rw [hcb, hb], rfl, rfl, (makeShared v σ).1, _, _,
    SharedPtr.copy_ctor_live (by rw [hcb]; omega) (by rw [hcb, hb])
      (by rw [hcb, hb]; exact one_lt_INT_MAX),
    SharedPtr.dtor_live (by rw [hcb]; omega) (by simp [hcb, hb]), ?_, ?_, rfl, rfl⟩
  · simp [hcb, hb, BaseControlBlock.released]
  · rw [SharedPtr.use_count_live (by rw [hcb]; omega)
      (by simp [hcb, hb, BaseControlBlock.released])]
    simp [hcb, hb, BaseControlBlock.released]

theorem Heap.loadWptr_live {σ : Heap} {p : Nat} {w : WeakPtr} (hp : p ≠ 0)
    (hw : σ.wptr p = some w) : σ.loadWptr p = .ok w := by
  simp [Heap.loadWptr, hp, hw]

/-- C7 (what the code does instead): let `p` be the non-null address of a live
object of a type deriving from `EnableSharedFromThis` whose `wptr` is still
default-constructed, and `S = SharedPtr(p, d)`.  Then `p->shared_from_this()`
succeeds with a handle `H` on the block of `S`, `S.use_count()` goes from 1 to 2
and `H.use_count() == S.use_count()`, but `H.get()` is `nullptr` and not
`S.get() == p`: `lock()` builds `H` with the private constructor
`SharedPtr(BaseControlBlock*)`, which sets `ptr` to `nullptr`. -/
theorem shared_from_this_handle_observes_null (p : Nat) (d : Deleter) (σ : Heap)
    (hp : p ≠ 0) (hw : σ.wptr p = some WeakPtr.null) :
    ∃ S σ1 H σ2,
      SharedPtr.from_raw true p d σ = .ok (S, σ1) ∧
      EnableSharedFromThis.shared_from_this p σ1 = .ok (H, σ2) ∧
      S.get = p ∧ S.use_count σ1 = .ok 1 ∧
      H.cb = S.cb ∧ S.use_count σ2 = .ok 2 ∧ H.use_count σ2 = .ok 2 ∧
      H.get = 0 ∧ H.get ≠ S.get := by
  have h0 : σ.next + 1 ≠ 0 := by omega
  have hraw : ∃ σ1, SharedPtr.from_raw true p d σ = .ok (⟨p, σ.next + 1⟩, σ1) ∧
      σ1.blocks (σ.next + 1) = ⟨1, 1, .ControlBlockRegular p d, 0, [], 0, 0⟩ ∧
      σ1.wptr p = some ⟨p, σ.next + 1⟩ := by
    refine ⟨(({ (σ.store (σ.next + 1) ⟨1, 0, .ControlBlockRegular p d, 0, [], 0, 0⟩) with
          next := σ.next + 1 } : Heap).store (σ.next + 1)
          ⟨1, 1, .ControlBlockRegular p d, 0, [], 0, 0⟩).setWptr p (some ⟨p, σ.next + 1⟩),
      ?_, ?_, ?_⟩
    · unfold SharedPtr.from_raw SharedPtr.set_wptr
      simp only [if_true]
      rw [Heap.loadWptr_live hp (by simpa using hw)]
      simp only [ok_bind, WeakPtr.assign_shared, WeakPtr.weak_from_shared_eq, WeakPtr.weak_dtor_eq,
        WeakPtr.swap, WeakPtr.null, h0, if_false, Heap.store_blocks_same, ne_eq,
        not_true_eq_false, pure_eq_ok, if_true, zero_add, not_INT_MAX_le_zero]
    · simp [Heap.setWptr]
    · simp [Heap.setWptr]
  obtain ⟨σ1, hσ1, hblk, hslot⟩ := hraw
  have hd : (σ1.blocks (σ.next + 1)).deallocations = 0 := by rw [hblk]
  have hlock : EnableSharedFromThis.shared_from_this p σ1 = .ok (⟨0, σ.next + 1⟩,
      σ1.store (σ.next + 1) { σ1.blocks (σ.next + 1) with
        shared_counter := (σ1.blocks (σ.next + 1)).shared_counter + 1 }) := by
    unfold EnableSharedFromThis.shared_from_this
    rw [Heap.loadWptr_live hp hslot, ok_bind, WeakPtr.weak_lock_eq]
    simp only [h0, hd, if_false, ne_eq, not_true_eq_false]
    rw [if_neg (by rw [hblk]; exact one_ne_zero),
      if_neg (by rw [hblk]; exact not_INT_MAX_le_one)]
  refine ⟨_, _, _, _, hσ1, hlock, rfl, ?_, rfl, ?_, ?_, rfl, ?_⟩
  · rw [SharedPtr.use_count_live h0 hd, hblk]
  · rw [SharedPtr.use_count_live h0 (by simp [hd])]
    simp [hblk]
  · rw [SharedPtr.use_count_live h0 (by simp [hd])]
    simp [hblk]
  · simp only [SharedPtr.get]
    exact fun h => hp h.symm

theorem shared_from_this_handle_observes_null_witness :
    Heap.empty.wptr 5 = some WeakPtr.null ∧
    ∃ S σ1 H σ2,
      SharedPtr.from_raw true 5 Deleter.default_delete Heap.empty = .ok (S, σ1) ∧
      EnableSharedFromThis.shared_from_this 5 σ1 = .ok (H, σ2) ∧
      S.get = 5 ∧ S.use_count σ1 = .ok 1 ∧
      H.cb = S.cb ∧ S.use_count σ2 = .ok 2 ∧ H.use_count σ2 = .ok 2 ∧
      H.get = 0 ∧ H.get ≠ S.get :=
  ⟨rfl, shared_from_this_handle_observes_null 5 Deleter.default_delete Heap.empty
    (by decide) rfl⟩

/-- C8 (what the code does instead): for an object of a type deriving from
`EnableSharedFromThis` whose `wptr` is still default-constructed (no
`SharedPtr` was ever constructed for it), `shared_from_this()` does not return
a null handle: `lock()` calls `expired()`, which reads `cb->shared_counter`
through the null `cb` without the test that `use_count()` makes. -/
theorem shared_from_this_without_owner_dereferences_null (p : Nat) (σ : Heap)
    (hw : σ.wptr p = some WeakPtr.null) :
    EnableSharedFromThis.shared_from_this p σ = .error .nullDeref := by
  unfold EnableSharedFromThis.shared_from_this
  by_cases hp : p = 0
  · simp [Heap.loadWptr, hp, error_bind]
  · rw [Heap.loadWptr_live hp hw, ok_bind, WeakPtr.weak_lock_eq]
    simp [WeakPtr.null]

theorem shared_from_this_without_owner_dereferences_null_witness :
    Heap.empty.wptr 5 = some WeakPtr.null ∧
    EnableSharedFromThis.shared_from_this 5 Heap.empty = .error .nullDeref :=
  ⟨rfl, shared_from_this_without_owner_dereferences_null 5 Heap.empty rfl⟩

/-! ## Assignment -/

theorem Heap.Acts.acts_released (σ : Heap) (cb : Nat) (c : Bool) :
    σ.Acts (σ.store cb ((σ.blocks cb).released c)) cb 0 0 0 := by
  refine ⟨rfl, fun b hb => ?_⟩
  by_cases h : b = cb
  · subst h
    simp only [Heap.store_blocks_same, BaseControlBlock.released, hb, if_true, if_false]
    by_cases hz : (σ.blocks b).shared_counter - 1 = 0
    · have h1 : (σ.blocks b).shared_counter = 1 := by omega
      by_cases hw : (σ.blocks b).weak_counter = 0 <;> simp [hz, h1, hw]
    · have h1 : ¬ (σ.blocks b).shared_counter = 1 := by omega
      simp [hz, h1]
  · simp [Heap.store_blocks, h, hb]

theorem Heap.Acts.acts_inc_shared (σ : Heap) (cb : Nat) :
    σ.Acts (σ.store cb { σ.blocks cb with
      shared_counter := (σ.blocks cb).shared_counter + 1 }) 0 cb 0 0 := by
  refine ⟨rfl, fun b hb => ?_⟩
  by_cases h : b = cb
  · subst h; simp [hb]
  · simp [Heap.store_blocks, h, hb]

theorem Heap.Acts.acts_release_inc (σ : Heap) (a c : Nat) :
    σ.Acts ((σ.store a ((σ.blocks a).released true)).store c
      { (σ.store a ((σ.blocks a).released true)).blocks c with
        shared_counter := ((σ.store a ((σ.blocks a).released true)).blocks c).shared_counter + 1 })
      a c 0 0 := by
  have h1 := Heap.Acts.acts_released σ a true
  have h2 := Heap.Acts.acts_inc_shared (σ.store a ((σ.blocks a).released true)) c
  refine ⟨rfl, fun b hb => ?_⟩
  obtain ⟨x1, x2, x3⟩ := h1.2 b hb
  obtain ⟨y1, y2, y3⟩ := h2.2 b hb
  rw [y1, y2, y3, x1, x2, x3]
  simp only [hb, if_false, false_and, or_false, and_false, false_or]
  refine ⟨by omega, by omega, ?_⟩
  by_cases hba : b = a
  · simp [hba]
  · simp [hba]

theorem holders_ne_zero_of_lookup {α : Type} (cbOf : α → Nat) {l : List (Option α)} {i : Nat}
    {h : α} (hl : lookup l i = some h) : holders cbOf (cbOf h) l ≠ 0 := by
  have := holders_pos_of_mem cbOf (lookup_mem hl)
  omega

theorem holders_append_some {α : Type} (cbOf : α → Nat) (b : Nat) (l : List (Option α))
    (x : α) : holders cbOf b (l ++ [some x]) = holders cbOf b l + if b = cbOf x then 1 else 0 := by
  rw [holders_append, holders_single_some]
  have e : (cbOf x = b) ↔ (b = cbOf x) := eq_comm
  simp only [e]

theorem holders_set_some {α : Type} (cbOf : α → Nat) (b : Nat) {l : List (Option α)} {i : Nat}
    {h : α} (hl : lookup l i = some h) (x : α) :
    holders cbOf b (l.set i (some x)) + (if b = cbOf h then 1 else 0) =
      holders cbOf b l + if b = cbOf x then 1 else 0 := by
  have := holders_set cbOf b hl (some x)
  simp only [holders_single_some] at this
  have e1 : (cbOf x = b) ↔ (b = cbOf x) := eq_comm
  have e2 : (cbOf h = b) ↔ (b = cbOf h) := eq_comm
  simp only [e1, e2] at this
  exact this

theorem holders_set_none {α : Type} (cbOf : α → Nat) (b : Nat) {l : List (Option α)} {i : Nat}
    {h : α} (hl : lookup l i = some h) :
    holders cbOf b (l.set i none) + (if b = cbOf h then 1 else 0) = holders cbOf b l := by
  have := holders_set cbOf b hl none
  simp only [holders_single_some, holders_single_none] at this
  have e2 : (cbOf h = b) ↔ (b = cbOf h) := eq_comm
  simp only [e2, add_zero] at this
  exact this

theorem holders_set_set_some {α : Type} (cbOf : α → Nat) (b : Nat) {l : List (Option α)}
    {i j : Nat} {x y : α} (hij : i ≠ j) (hi : lookup l i = some x) (hj : lookup l j = some y)
    (u v : α) :
    holders cbOf b ((l.set i (some u)).set j (some v)) + (if b = cbOf x then 1 else 0)
        + (if b = cbOf y then 1 else 0) =
      holders cbOf b l + (if b = cbOf u then 1 else 0) + (if b = cbOf v then 1 else 0) := by
  have := holders_set_set cbOf b hij hi hj (some u) (some v)
  simp only [holders_single_some] at this
  have e : ∀ z : α, (cbOf z = b) ↔ (b = cbOf z) := fun _ => eq_comm
  simp only [e] at this
  exact this

theorem State.WellCounted.counts_of_wellCounted {s : State} (hinv : s.WellCounted) :
    CountsOwners s.heap s.sp :=
  ⟨fun b hb => (hinv.1 b hb).1, fun b hb => (hinv.2.1 b hb).1⟩

theorem Heap.slot_holders_congr {σ σ' : Heap} {b : Nat}
    (hv : (σ'.blocks b).variant = (σ.blocks b).variant) (hw : σ'.wptr = σ.wptr) :
    σ'.slot_holders b = σ.slot_holders b := by
  unfold Heap.slot_holders
  rw [hv, hw]

theorem loadWptr_ok_iff (σ : Heap) (p : Nat) (w : WeakPtr) :
    σ.loadWptr p = .ok w ↔ p ≠ 0 ∧ σ.wptr p = some w := by
  unfold Heap.loadWptr
  by_cases hp : p = 0
  · simp [hp]
  · rw [if_neg hp]
    cases σ.wptr p <;> simp [hp]

theorem Heap.Observers.ob_refl (σ : Heap) : σ.Observers σ 0 0 :=
  ⟨rfl, rfl, fun _ => ⟨rfl, by simp, fun hb => Or.inl ⟨hb, rfl⟩⟩⟩

theorem Heap.Observers.ob_then {σ1 σ2 σ3 : Heap} {dec inc : Nat}
    (h1 : σ1.Observers σ2 0 inc) (h2 : σ2.Observers σ3 dec 0) : σ1.Observers σ3 dec inc := by
  refine ⟨h2.1.trans h1.1, h2.2.1.trans h1.2.1, fun b => ?_⟩
  obtain ⟨a1, a2, a3⟩ := h1.2.2 b
  obtain ⟨b1, b2, b3⟩ := h2.2.2 b
  refine ⟨b1.trans a1, ?_, fun hb => ?_⟩
  · rw [b2, a2]
    simp only [ne_eq, not_true_eq_false, and_false, if_false, sub_zero, add_zero]
    omega
  · rcases b3 hb with ⟨h3, h4⟩ | h3
    · rcases a3 h3 with ⟨h5, h6⟩ | h5
      · exact Or.inl ⟨h5, h4.trans h6⟩
      · exact Or.inr (h4.trans h5)
    · exact Or.inr h3

theorem incWeak_observers {cb : Nat} {σ σ' : Heap} (h : incWeak cb σ = .ok σ') :
    cb ≠ 0 ∧ σ.Observers σ' 0 cb := by
  have h := (incWeak_modify h).1
  simp only [modify_ok_iff] at h
  obtain ⟨h0, hd, rfl⟩ := h
  refine ⟨h0, rfl, rfl, fun b => ?_⟩
  by_cases hb : b = cb
  · subst hb
    simp [Heap.store_blocks_same, h0, hd]
  · simp only [Heap.store_blocks, hb, if_false, false_and, ne_eq, not_true_eq_false, and_false,
      sub_zero, add_zero, true_and]
    exact fun hb => Or.inl ⟨hb, trivial⟩

theorem WeakPtr.weak_dtor_observers {w : WeakPtr} {σ σ' : Heap} (h : w.dtor σ = .ok σ') :
    σ.Observers σ' w.cb 0 := by
  rw [WeakPtr.weak_dtor_eq] at h
  by_cases h0 : w.cb = 0
  · rw [if_pos h0] at h
    cases h
    rw [h0]
    exact Heap.Observers.ob_refl σ
  · rw [if_neg h0] at h
    by_cases hd : (σ.blocks w.cb).deallocations = 0
    · rw [if_neg (not_not.mpr hd)] at h
      cases h
      refine ⟨rfl, rfl, fun b => ?_⟩
      by_cases hb : b = w.cb
      · subst hb
        simp only [Heap.store_blocks_same, BaseControlBlock.unobserved]
        split_ifs with hc <;> simp_all
      · simp only [Heap.store_blocks, hb, if_false, false_and, ne_eq, not_true_eq_false,
          and_false, sub_zero, add_zero, true_and]
        exact fun hb => Or.inl ⟨hb, trivial⟩
    · rw [if_pos hd] at h
      cases h

theorem WeakPtr.weak_from_shared_observers {other : SharedPtr} {σ : Heap} {r : WeakPtr × Heap}
    (h : WeakPtr.from_shared other σ = .ok r) :
    r.1 = ⟨other.ptr, other.cb⟩ ∧ other.cb ≠ 0 ∧ σ.Observers r.2 0 other.cb := by
  simp only [WeakPtr.from_shared, bind_ok_iff, pure_ok_iff] at h
  obtain ⟨σ1, h1, rfl⟩ := h
  exact ⟨rfl, incWeak_observers h1⟩

theorem WeakPtr.weak_copy_ctor_observers {other : WeakPtr} {σ : Heap} {r : WeakPtr × Heap}
    (h : WeakPtr.copy_ctor other σ = .ok r) :
    r.1 = other ∧ other.cb ≠ 0 ∧ σ.Observers r.2 0 other.cb := by
  simp only [WeakPtr.copy_ctor, bind_ok_iff, pure_ok_iff] at h
  obtain ⟨σ1, h1, rfl⟩ := h
  exact ⟨rfl, incWeak_observers h1⟩

theorem WeakPtr.weak_assign_shared_observers {self : WeakPtr} {other : SharedPtr} {σ : Heap}
    {r : WeakPtr × Heap} (h : self.assign_shared other σ = .ok r) :
    r.1 = ⟨other.ptr, other.cb⟩ ∧ other.cb ≠ 0 ∧ σ.Observers r.2 self.cb other.cb := by
  simp only [WeakPtr.assign_shared, bind_ok_iff, pure_ok_iff] at h
  obtain ⟨r1, h1, σ2, h2, rfl⟩ := h
  obtain ⟨e1, h0, o1⟩ := WeakPtr.weak_from_shared_observers h1
  refine ⟨by simp [WeakPtr.swap, e1], h0, o1.ob_then ?_⟩
  exact WeakPtr.weak_dtor_observers h2

theorem WeakPtr.weak_copy_assign_observers {self other : WeakPtr} {σ : Heap}
    {r : WeakPtr × Heap} (h : self.copy_assign other σ = .ok r) :
    r.1 = other ∧ other.cb ≠ 0 ∧ σ.Observers r.2 self.cb other.cb := by
  simp only [WeakPtr.copy_assign, bind_ok_iff, pure_ok_iff] at h
  obtain ⟨r1, h1, σ2, h2, rfl⟩ := h
  obtain ⟨e1, h0, o1⟩ := WeakPtr.weak_copy_ctor_observers h1
  refine ⟨by simp [WeakPtr.swap, e1], h0, o1.ob_then ?_⟩
  exact WeakPtr.weak_dtor_observers h2

theorem Heap.Steady.st_refl (σ : Heap) : σ.Steady σ :=
  ⟨le_refl _, fun _ _ => rfl, fun _ hb => Or.inl ⟨hb, rfl⟩,
    fun hs => ⟨hs, fun _ _ _ => rfl, fun _ h1 h2 => absurd h2 (not_le.mpr h1)⟩⟩

theorem Heap.Steady.st_trans {σ1 σ2 σ3 : Heap} (h1 : σ1.Steady σ2) (h2 : σ2.Steady σ3) :
    σ1.Steady σ3 := by
  obtain ⟨n1, v1, d1, s1⟩ := h1
  obtain ⟨n2, v2, d2, s2⟩ := h2
  refine ⟨le_trans n1 n2, fun b hb => (v2 b (le_trans hb n1)).trans (v1 b hb), fun b hb => ?_,
    fun hs => ?_⟩
  · rcases d2 b hb with ⟨h3, h4⟩ | h3
    · rcases d1 b h3 with ⟨h5, h6⟩ | h5
      · exact Or.inl ⟨h5, h4.trans h6⟩
      · exact Or.inr (h4.trans h5)
    · exact Or.inr h3
  · obtain ⟨hs2, e1, f1⟩ := s1 hs
    obtain ⟨hs3, e2, f2⟩ := s2 hs2
    refine ⟨hs3, fun b hb hle => (e2 b hb (le_trans hle n1)).trans (e1 b hb hle),
      fun b hlt hle => ?_⟩
    by_cases hb2 : b ≤ σ2.next
    · have := e2 b (by omega) hb2
      have := f1 b hlt hb2
      omega
    · exact f2 b (by omega) hle

theorem Heap.Steady.st_store {σ : Heap} {cb : Nat} {blk : BaseControlBlock}
    (hv : blk.variant = (σ.blocks cb).variant)
    (hw : blk.weak_counter = (σ.blocks cb).weak_counter)
    (hd : blk.deallocations ≠ 0 → (σ.blocks cb).deallocations ≠ 0 ∨ blk.weak_counter = 0) :
    σ.Steady (σ.store cb blk) := by
  have hvar : ∀ b, ((σ.store cb blk).blocks b).variant = (σ.blocks b).variant := by
    intro b
    by_cases hb : b = cb
    · subst hb; simp [Heap.store_blocks_same, hv]
    · simp [Heap.store_blocks, hb]
  have hweak : ∀ b, ((σ.store cb blk).blocks b).weak_counter = (σ.blocks b).weak_counter := by
    intro b
    by_cases hb : b = cb
    · subst hb; simp [Heap.store_blocks_same, hw]
    · simp [Heap.store_blocks, hb]
  refine ⟨le_refl _, fun b _ => hvar b, fun b hb => ?_, fun hs => ⟨?_, fun b _ _ => ?_,
    fun b h1 h2 => absurd h2 (not_le.mpr h1)⟩⟩
  · by_cases hbc : b = cb
    · subst hbc
      simp only [Heap.store_blocks_same] at hb ⊢
      rcases hd hb with h1 | h1
      · exact Or.inl ⟨h1, hw⟩
      · exact Or.inr h1
    · simp only [Heap.store_blocks, hbc, if_false] at hb ⊢
      exact Or.inl ⟨hb, trivial⟩
  · intro p w hp hw0
    obtain ⟨h1, d, h2⟩ := hs p w hp hw0
    exact ⟨h1, d, (hvar _).trans h2⟩
  · rw [hweak, Heap.slot_holders_congr (hvar b) rfl]

theorem Heap.Steady.st_modify {σ σ' : Heap} {cb : Nat}
    {f : BaseControlBlock → BaseControlBlock} (h : σ.modify cb f = .ok σ')
    (hv : ∀ blk, (f blk).variant = blk.variant)
    (hw : ∀ blk, (f blk).weak_counter = blk.weak_counter)
    (hd : ∀ blk, (f blk).deallocations ≠ 0 → blk.deallocations ≠ 0 ∨ (f blk).weak_counter = 0) :
    σ.Steady σ' := by
  rw [modify_ok_iff] at h
  obtain ⟨-, -, rfl⟩ := h
  exact Heap.Steady.st_store (hv _) (hw _) (hd _)

theorem incShared_steady {cb : Nat} {σ σ' : Heap} (h : incShared cb σ = .ok σ') :
    σ.Steady σ' :=
  Heap.Steady.st_modify (incShared_modify h).1 (fun _ => rfl) (fun _ => rfl) (fun _ hb => Or.inl hb)

theorem decShared_steady {cb : Nat} {σ σ' : Heap} (h : decShared cb σ = .ok σ') :
    σ.Steady σ' :=
  Heap.Steady.st_modify h (fun _ => rfl) (fun _ => rfl) (fun _ hb => Or.inl hb)

theorem call_destructor_steady {cb : Nat} {σ σ' : Heap} (h : call_destructor cb σ = .ok σ') :
    σ.Steady σ' :=
  Heap.Steady.st_modify h (fun _ => rfl) (fun _ => rfl) (fun _ hb => Or.inl hb)

theorem deallocate_steady {cb : Nat} {σ σ' : Heap} (hz : (σ.blocks cb).weak_counter = 0)
    (h : deallocate cb σ = .ok σ') : σ.Steady σ' := by
  simp only [deallocate, modify_ok_iff] at h
  obtain ⟨-, -, rfl⟩ := h
  exact Heap.Steady.st_store rfl rfl (fun _ => Or.inr hz)

/-- Allocation of a block at the frontier. -/
theorem Heap.Steady.st_alloc {σ σ' : Heap} (hn : σ'.next = σ.next + 1)
    (hwp : σ'.wptr = σ.wptr) (hblk : ∀ b, b ≠ σ.next + 1 → σ'.blocks b = σ.blocks b)
    (hw : (σ'.blocks (σ.next + 1)).weak_counter = 0)
    (hd : (σ'.blocks (σ.next + 1)).deallocations = 0) : σ.Steady σ' := by
  refine ⟨by omega, fun b hb => ?_, fun b hb => ?_, fun hs => ⟨?_, fun b _ hle => ?_,
    fun b h1 h2 => ?_⟩⟩
  · rw [hblk b (by omega)]
  · by_cases hbc : b = σ.next + 1
    · subst hbc
      exact absurd hd hb
    · rw [hblk b hbc] at hb ⊢
      exact Or.inl ⟨hb, rfl⟩
  · intro p w hp hw0
    rw [hwp] at hp
    obtain ⟨h1, d, h2⟩ := hs p w hp hw0
    refine ⟨by omega, d, ?_⟩
    rw [hblk _ (by omega)]
    exact h2
  · have hne : b ≠ σ.next + 1 := by omega
    rw [Heap.slot_holders_congr (by rw [hblk b hne]) hwp, hblk b hne]
  · have hb : b = σ.next + 1 := by omega
    subst hb
    rw [hw]
    unfold Heap.slot_holders
    cases hvar : (σ'.blocks (σ.next + 1)).variant with
    | ControlBlockMakeShared v => rfl
    | ControlBlockRegular object d =>
      simp only
      rw [hwp]
      cases hslot : σ.wptr object with
      | none => rfl
      | some w =>
        simp only
        by_cases hc : w.cb = σ.next + 1
        · have := (hs object w hslot (by omega)).1
          omega
        · rw [if_neg hc]; rfl

/-- A member `wptr` is replaced: the `WeakPtr` it held is destroyed and the one
it holds afterwards, if any, has been counted on block `inc`. -/
theorem Heap.Observers.steady_setWptr {σ σ2 : Heap} {p inc : Nat} {w : WeakPtr}
    {o : Option WeakPtr} (hob : σ.Observers σ2 w.cb inc) (hslot : σ.wptr p = some w)
    (hsome : ∀ x, o = some x → x.cb = inc ∧ inc ≠ 0 ∧ inc ≤ σ.next ∧
      ∃ d, (σ.blocks inc).variant = .ControlBlockRegular p d)
    (hnone : o = none → inc = 0) : σ.Steady (σ2.setWptr p o) := by
  obtain ⟨hn, hwp, hblk⟩ := hob
  have hb' : ∀ b, (σ2.setWptr p o).blocks b = σ2.blocks b := fun _ => rfl
  have hw' : ∀ q, (σ2.setWptr p o).wptr q = if q = p then o else σ.wptr q := by
    intro q
    simp only [Heap.setWptr, hwp]
  refine ⟨le_of_eq hn.symm, fun b _ => (hblk b).1, fun b hb => (hblk b).2.2 hb,
    fun hs => ⟨?_, fun b hb0 _ => ?_, fun b h1 h2 => ?_⟩⟩
  · intro q x hq hx0
    rw [hw'] at hq
    have hnext : (σ2.setWptr p o).next = σ.next := hn
    rw [hnext, hb']
    by_cases hqp : q = p
    · rw [if_pos hqp] at hq
      obtain ⟨e1, -, e3, d, e4⟩ := hsome x hq
      rw [e1, (hblk inc).1, hqp]
      exact ⟨e3, d, e4⟩
    · rw [if_neg hqp] at hq
      obtain ⟨e1, d, e2⟩ := hs q x hq hx0
      rw [(hblk x.cb).1]
      exact ⟨e1, d, e2⟩
  · have hwc := (hblk b).2.1
    have hvar := (hblk b).1
    rw [hb', hwc]
    have hdec : ∀ q d, (σ.blocks b).variant = .ControlBlockRegular q d → q ≠ p →
        ¬ (b = w.cb ∧ w.cb ≠ 0) := by
      rintro q d hv hqp ⟨e1, e2⟩
      obtain ⟨-, d', e3⟩ := hs p w hslot e2
      rw [← e1, hv] at e3
      cases e3
      exact hqp rfl
    have hinc : ∀ q d, (σ.blocks b).variant = .ControlBlockRegular q d → q ≠ p →
        ¬ (b = inc ∧ inc ≠ 0) := by
      rintro q d hv hqp ⟨e1, e2⟩
      cases ho : o with
      | none => exact e2 (hnone ho)
      | some x =>
        obtain ⟨-, -, -, d', e3⟩ := hsome x ho
        rw [← e1, hv] at e3
        cases e3
        exact hqp rfl
    have hdecM : ∀ v, (σ.blocks b).variant = .ControlBlockMakeShared v →
        ¬ (b = w.cb ∧ w.cb ≠ 0) := by
      rintro v hv ⟨e1, e2⟩
      obtain ⟨-, d', e3⟩ := hs p w hslot e2
      rw [← e1, hv] at e3
      cases e3
    have hincM : ∀ v, (σ.blocks b).variant = .ControlBlockMakeShared v →
        ¬ (b = inc ∧ inc ≠ 0) := by
      rintro v hv ⟨e1, e2⟩
      cases ho : o with
      | none => exact e2 (hnone ho)
      | some x =>
        obtain ⟨-, -, -, d', e3⟩ := hsome x ho
        rw [← e1, hv] at e3
        cases e3
    unfold Heap.slot_holders
    rw [hb', hvar]
    cases hv : (σ.blocks b).variant with
    | ControlBlockMakeShared v =>
      simp only [if_neg (hdecM v hv), if_neg (hincM v hv)]
      simp
    | ControlBlockRegular q d =>
      simp only [hw']
      by_cases hqp : q = p
      · subst hqp
        simp only [if_true, hslot]
        cases ho : o with
        | none =>
          have h2 : ¬ (b = inc ∧ inc ≠ 0) := fun h => h.2 (hnone ho)
          by_cases hc : w.cb = b
          · have h1 : b = w.cb ∧ w.cb ≠ 0 := ⟨hc.symm, by rw [hc]; exact hb0⟩
            simp only [if_pos h1, if_neg h2, if_pos hc]
            simp
          · have h1 : ¬ (b = w.cb ∧ w.cb ≠ 0) := fun h => hc h.1.symm
            simp only [if_neg h1, if_neg h2, if_neg hc]
            simp
        | some x =>
          obtain ⟨e1, e2, -, -⟩ := hsome x ho
          simp only [e1]
          by_cases hc : w.cb = b <;> by_cases hi : inc = b
          · have h1 : b = w.cb ∧ w.cb ≠ 0 := ⟨hc.symm, by rw [hc]; exact hb0⟩
            have h2 : b = inc ∧ inc ≠ 0 := ⟨hi.symm, e2⟩
            simp only [if_pos h1, if_pos h2, if_pos hc, if_pos hi]
            omega
          · have h1 : b = w.cb ∧ w.cb ≠ 0 := ⟨hc.symm, by rw [hc]; exact hb0⟩
            have h2 : ¬ (b = inc ∧ inc ≠ 0) := fun h => hi h.1.symm
            simp only [if_pos h1, if_neg h2, if_pos hc, if_neg hi]
            simp
          · have h1 : ¬ (b = w.cb ∧ w.cb ≠ 0) := fun h => hc h.1.symm
            have h2 : b = inc ∧ inc ≠ 0 := ⟨hi.symm, e2⟩
            simp only [if_neg h1, if_pos h2, if_neg hc, if_pos hi]
            simp
          · have h1 : ¬ (b = w.cb ∧ w.cb ≠ 0) := fun h => hc h.1.symm
            have h2 : ¬ (b = inc ∧ inc ≠ 0) := fun h => hi h.1.symm
            simp only [if_neg h1, if_neg h2, if_neg hc, if_neg hi]
            simp
      · simp only [if_neg hqp, if_neg (hdec q d hv hqp), if_neg (hinc q d hv hqp)]
        simp
  · have hnext : (σ2.setWptr p o).next = σ.next := hn
    omega

theorem destroy_object_steady {optIn : Bool} {p : Nat} {σ σ' : Heap}
    (h : destroy_object optIn p σ = .ok σ') : σ.Steady σ' := by
  simp only [destroy_object, bind_ok_iff, pure_ok_iff, ite_ok_iff, loadWptr_ok_iff] at h
  rcases h with ⟨_, w, ⟨_, hw⟩, σ1, h2, rfl⟩ | ⟨_, rfl⟩
  · exact (WeakPtr.weak_dtor_observers h2).steady_setWptr hw (fun x hx => by cases hx)
      (fun _ => rfl)
  · exact Heap.Steady.st_refl _

theorem SharedPtr.set_wptr_steady {optIn : Bool} {self : SharedPtr} {σ σ' : Heap}
    (h : SharedPtr.set_wptr optIn self σ = .ok σ') (ho : σ.Observes self) : σ.Steady σ' := by
  simp only [SharedPtr.set_wptr, bind_ok_iff, pure_ok_iff, ite_ok_iff, loadWptr_ok_iff] at h
  rcases h with ⟨_, w, ⟨hp, hw⟩, r, h2, rfl⟩ | ⟨_, rfl⟩
  · obtain ⟨e1, h0, ob⟩ := WeakPtr.weak_assign_shared_observers h2
    obtain ⟨hle, d, hv⟩ := ho h0 hp
    refine ob.steady_setWptr hw (fun x hx => ?_) (fun hx => by cases hx)
    cases hx
    rw [e1]
    exact ⟨rfl, h0, hle, d, hv⟩
  · exact Heap.Steady.st_refl _

theorem Heap.Observes.steady {σ σ' : Heap} {h : SharedPtr} (ho : σ.Observes h)
    (hs : σ.Steady σ') : σ'.Observes h := by
  intro h0 hp
  obtain ⟨hle, d, hv⟩ := ho h0 hp
  exact ⟨le_trans hle hs.1, d, (hs.2.1 _ hle).trans hv⟩

theorem Heap.Steady.st_record {σ : Heap} {cb : Nat} {blk : BaseControlBlock}
    (hv : blk.variant = (σ.blocks cb).variant)
    (hw : blk.weak_counter = (σ.blocks cb).weak_counter)
    (hd : blk.deallocations = (σ.blocks cb).deallocations) : σ.Steady (σ.store cb blk) :=
  Heap.Steady.st_store hv hw (fun h => Or.inl (by rw [← hd]; exact h))

theorem use_deleter_steady {optIn : Bool} {cb : Nat} {σ σ' : Heap}
    (h : use_deleter optIn cb σ = .ok σ') : σ.Steady σ' := by
  simp only [use_deleter, bind_ok_iff, load_ok_iff] at h
  obtain ⟨blk, ⟨h0, h1, rfl⟩, h2⟩ := h
  split at h2
  · simp only [ite_ok_iff, pure_ok_iff] at h2
    rcases h2 with ⟨ho, (⟨_, h3⟩ | ⟨_, rfl⟩)⟩ | ⟨ho, rfl⟩
    · refine Heap.Steady.st_trans ?_ (destroy_object_steady h3)
      apply Heap.Steady.st_record <;> rfl
    · apply Heap.Steady.st_record <;> rfl
    · apply Heap.Steady.st_record <;> rfl
  · simp only [pure_ok_iff] at h2
    subst h2
    apply Heap.Steady.st_record <;> rfl

theorem tail_steady {cb : Nat} {σ2 σ' : Heap}
    (h : (call_destructor cb σ2 >>= fun σ3 => σ3.load cb >>= fun b3 =>
      if b3.weak_counter = 0 then deallocate cb σ3 else pure σ3) = .ok σ') :
    σ2.Steady σ' := by
  simp only [bind_ok_iff, ite_ok_iff, pure_ok_iff, load_ok_iff] at h
  obtain ⟨σ3, h3, b3, ⟨-, -, rfl⟩, (⟨hz, h5⟩ | ⟨_, rfl⟩)⟩ := h
  · exact (call_destructor_steady h3).st_trans (deallocate_steady hz h5)
  · exact call_destructor_steady h3

theorem SharedPtr.dtor_steady {optIn : Bool} {self : SharedPtr} {σ σ' : Heap}
    (h : SharedPtr.dtor optIn self σ = .ok σ') : σ.Steady σ' := by
  unfold SharedPtr.dtor at h
  by_cases h0 : self.cb = 0
  · rw [if_neg (not_not.mpr h0), pure_ok_iff] at h
    subst h
    exact Heap.Steady.st_refl _
  · rw [if_pos h0, bind_ok_iff] at h
    obtain ⟨σ1, h1, h⟩ := h
    rw [bind_ok_iff] at h
    obtain ⟨b1, hb1, h⟩ := h
    rw [load_ok_iff] at hb1
    obtain ⟨-, -, rfl⟩ := hb1
    by_cases hz : (σ1.blocks self.cb).shared_counter = 0
    · rw [if_pos hz, bind_ok_iff] at h
      obtain ⟨σ2, h2, h⟩ := h
      by_cases hp : self.ptr = 0
      · rw [if_neg (not_not.mpr hp), pure_ok_iff] at h2
        subst h2
        exact (decShared_steady h1).st_trans (tail_steady h)
      · rw [if_pos hp] at h2
        exact ((decShared_steady h1).st_trans (use_deleter_steady h2)).st_trans (tail_steady h)
    · rw [if_neg hz, pure_ok_iff] at h
      subst h
      exact decShared_steady h1

theorem SharedPtr.release_in_assign_steady {optIn : Bool} {self : SharedPtr} {σ σ' : Heap}
    (h : SharedPtr.release_in_assign optIn self σ = .ok σ') : σ.Steady σ' := by
  unfold SharedPtr.release_in_assign at h
  by_cases h0 : self.cb = 0
  · rw [if_neg (not_not.mpr h0), pure_ok_iff] at h
    subst h
    exact Heap.Steady.st_refl _
  · rw [if_pos h0, bind_ok_iff] at h
    obtain ⟨σ1, h1, h⟩ := h
    rw [bind_ok_iff] at h
    obtain ⟨b1, hb1, h⟩ := h
    rw [load_ok_iff] at hb1
    obtain ⟨-, -, rfl⟩ := hb1
    by_cases hz : (σ1.blocks self.cb).shared_counter = 0
    · rw [if_pos hz, bind_ok_iff] at h
      obtain ⟨σ2, h2, h⟩ := h
      exact ((decShared_steady h1).st_trans (use_deleter_steady h2)).st_trans (tail_steady h)
    · rw [if_neg hz, pure_ok_iff] at h
      subst h
      exact decShared_steady h1

theorem SharedPtr.from_raw_steady {optIn : Bool} {pt : Nat} {deleter : Deleter}
    {σ : Heap} {r : SharedPtr × Heap} (h : SharedPtr.from_raw optIn pt deleter σ = .ok r) :
    σ.Steady r.2 ∧ r.2.Observes r.1 := by
  simp only [SharedPtr.from_raw, bind_ok_iff, pure_ok_iff] at h
  obtain ⟨σ2, h2, rfl⟩ := h
  have ho : Heap.Observes
      { (σ.store (σ.next + 1) ⟨1, 0, .ControlBlockRegular pt deleter, 0, [], 0, 0⟩) with
        next := σ.next + 1 } ⟨pt, σ.next + 1⟩ :=
    fun _ _ => ⟨le_refl _, deleter, by simp [Heap.store]⟩
  have hs2 := SharedPtr.set_wptr_steady h2 ho
  refine ⟨Heap.Steady.st_trans ?_ hs2, ho.steady hs2⟩
  apply Heap.Steady.st_alloc
  · rfl
  · rfl
  · intro b hb
    simp [Heap.store, hb]
  · simp [Heap.store]
  · simp [Heap.store]

theorem makeShared_steady (v : Int) (σ : Heap) : σ.Steady (makeShared v σ).2 := by
  apply Heap.Steady.st_alloc
  · rfl
  · rfl
  · intro b hb
    simp [makeShared, allocateShared, Heap.store, hb]
  · simp [makeShared, allocateShared, Heap.store]
  · simp [makeShared, allocateShared, Heap.store]

theorem SharedPtr.copy_ctor_steady {optIn : Bool} {other : SharedPtr} {σ : Heap}
    {r : SharedPtr × Heap} (h : SharedPtr.copy_ctor optIn other σ = .ok r)
    (ho : σ.Observes other) : σ.Steady r.2 := by
  simp only [SharedPtr.copy_ctor, bind_ok_iff, pure_ok_iff, ite_ok_iff] at h
  rcases h with ⟨_, σ1, h1, σ2, h2, rfl⟩ | ⟨_, rfl⟩
  · have s1 := incShared_steady h1
    exact s1.st_trans (SharedPtr.set_wptr_steady h2 (ho.steady s1))
  · exact Heap.Steady.st_refl _

theorem SharedPtr.copy_ctor_conv_steady {optIn : Bool} {other : SharedPtr} {σ : Heap}
    {r : SharedPtr × Heap} (h : SharedPtr.copy_ctor_conv optIn other σ = .ok r)
    (ho : σ.Observes other) : σ.Steady r.2 := by
  simp only [SharedPtr.copy_ctor_conv, bind_ok_iff, pure_ok_iff] at h
  obtain ⟨σ1, h1, σ2, h2, rfl⟩ := h
  have s1 := incShared_steady h1
  exact s1.st_trans (SharedPtr.set_wptr_steady h2 (ho.steady s1))

theorem SharedPtr.move_ctor_steady {optIn : Bool} {other : SharedPtr} {σ : Heap}
    {r : SharedPtr × SharedPtr × Heap} (h : SharedPtr.move_ctor optIn other σ = .ok r)
    (ho : σ.Observes other) : σ.Steady r.2.2 := by
  simp only [SharedPtr.move_ctor, bind_ok_iff, pure_ok_iff, ite_ok_iff] at h
  rcases h with ⟨_, σ1, h1, rfl⟩ | ⟨_, rfl⟩
  · exact SharedPtr.set_wptr_steady h1 ho
  · exact Heap.Steady.st_refl _

theorem SharedPtr.copy_assign_steady {optIn : Bool} {self other : SharedPtr} {σ : Heap}
    {r : SharedPtr × Heap} (h : SharedPtr.copy_assign optIn self other σ = .ok r) :
    σ.Steady r.2 := by
  simp only [SharedPtr.copy_assign, bind_ok_iff, pure_ok_iff, ite_ok_iff] at h
  rcases h with ⟨_, rfl⟩ | ⟨_, σ4, h4, (⟨_, σ5, h5, rfl⟩ | ⟨_, rfl⟩)⟩
  · exact Heap.Steady.st_refl _
  · exact (SharedPtr.release_in_assign_steady h4).st_trans (incShared_steady h5)
  · exact SharedPtr.release_in_assign_steady h4

theorem SharedPtr.move_assign_conv_steady {optIn : Bool} {self other : SharedPtr}
    {σ : Heap} {r : SharedPtr × SharedPtr × Heap}
    (h : SharedPtr.move_assign_conv optIn self other σ = .ok r) : σ.Steady r.2.2 := by
  simp only [SharedPtr.move_assign_conv, bind_ok_iff, pure_ok_iff] at h
  obtain ⟨σ4, h4, rfl⟩ := h
  exact SharedPtr.release_in_assign_steady h4

theorem SharedPtr.move_assign_steady {optIn : Bool} {self other : SharedPtr}
    {σ : Heap} {r : SharedPtr × SharedPtr × Heap}
    (h : SharedPtr.move_assign optIn self other σ = .ok r) (ho : σ.Observes other) :
    σ.Steady r.2.2 := by
  simp only [SharedPtr.move_assign, bind_ok_iff, pure_ok_iff] at h
  obtain ⟨r1, h1, σ2, h2, rfl⟩ := h
  exact (SharedPtr.move_ctor_steady h1 ho).st_trans (SharedPtr.dtor_steady h2)

theorem SharedPtr.reset_steady {optIn : Bool} {self : SharedPtr} {σ : Heap}
    {r : SharedPtr × Heap} (h : SharedPtr.reset optIn self σ = .ok r) : σ.Steady r.2 := by
  simp only [SharedPtr.reset, bind_ok_iff, pure_ok_iff] at h
  obtain ⟨σ1, h1, rfl⟩ := h
  exact SharedPtr.dtor_steady h1

theorem SharedPtr.reset_raw_steady {optIn : Bool} {self : SharedPtr} {new_ptr : Nat}
    {σ : Heap} {r : SharedPtr × Heap}
    (h : SharedPtr.reset_raw optIn self new_ptr σ = .ok r) :
    σ.Steady r.2 ∧ r.2.Observes r.1 := by
  simp only [SharedPtr.reset_raw, bind_ok_iff, pure_ok_iff] at h
  obtain ⟨r1, h1, σ2, h2, rfl⟩ := h
  obtain ⟨s1, o1⟩ := SharedPtr.from_raw_steady h1
  have s2 := SharedPtr.dtor_steady h2
  exact ⟨s1.st_trans s2, o1.steady s2⟩

theorem WeakPtr.weak_lock_steady {self : WeakPtr} {σ : Heap} {r : SharedPtr × Heap}
    (h : self.lock σ = .ok r) : σ.Steady r.2 ∧ r.1.ptr = 0 := by
  simp only [WeakPtr.lock, bind_ok_iff, pure_ok_iff, ite_ok_iff] at h
  obtain ⟨e, -, (⟨_, σ1, h1, rfl⟩ | ⟨_, rfl⟩)⟩ := h
  · exact ⟨incShared_steady h1, rfl⟩
  · exact ⟨Heap.Steady.st_refl _, rfl⟩

theorem State.Accounted.accounted_init : State.init.Accounted := by
  refine ⟨fun h hm => ?_, fun p w hp hw0 => ?_, fun b _ hle => ?_, fun b _ => ?_,
    fun b hb => ?_⟩
  · simp [State.init] at hm
  · simp only [State.init, Heap.empty, Option.some.injEq] at hp
    subst hp
    exact absurd rfl hw0
  · simp only [State.init, Heap.empty] at hle
    omega
  · simp [State.init, State.weak_holders, holders]
  · simp [State.init, Heap.empty] at hb

/-- An operation on `SharedPtr` handles keeps the account of observers. -/
theorem State.Accounted.of_steady {s : State} (ha : s.Accounted) {σ' : Heap}
    {sp' : List (Option SharedPtr)} (hs : s.heap.Steady σ')
    (hsp : ∀ h, some h ∈ sp' → some h ∈ s.sp ∨ h.ptr = 0 ∨ σ'.Observes h) :
    State.Accounted ⟨σ', sp', s.wp⟩ := by
  obtain ⟨a1, a2, a3, a4, a5⟩ := ha
  obtain ⟨n1, v1, d1, s1⟩ := hs
  obtain ⟨s2, e1, f1⟩ := s1 a2
  refine ⟨fun h hm => ?_, s2, fun b hb hle => ?_, fun b hb => a4 b (lt_of_le_of_lt n1 hb),
    fun b hb => ?_⟩
  · rcases hsp h hm with h1 | h1 | h1
    · exact (a1 h h1).steady ⟨n1, v1, d1, s1⟩
    · exact fun _ hp => absurd h1 hp
    · exact h1
  · show (σ'.blocks b).weak_counter =
      (holders WeakPtr.cb b s.wp : Int) + (σ'.slot_holders b : Int)
    have hle' : b ≤ σ'.next := hle
    by_cases hb2 : b ≤ s.heap.next
    · have := e1 b hb hb2
      have := a3 b hb hb2
      simp only [State.weak_holders] at this
      omega
    · have := f1 b (by omega) hle'
      have := a4 b (by omega)
      simp only [State.weak_holders] at this
      omega
  · rcases d1 b hb with ⟨h1, h2⟩ | h1
    · exact h2.trans (a5 b h1)
    · exact h1

/-- An operation on `WeakPtr` handles keeps the account of observers. -/
theorem State.Accounted.of_observers {s : State} (ha : s.Accounted) {σ' : Heap}
    {wp' : List (Option WeakPtr)} {dec inc : Nat} (ho : s.heap.Observers σ' dec inc)
    (hwp : ∀ b, b ≠ 0 → holders WeakPtr.cb b wp' + (if b = dec then 1 else 0) =
      holders WeakPtr.cb b s.wp + (if b = inc then 1 else 0))
    (hinc : inc ≠ 0 → inc ≤ s.heap.next) :
    State.Accounted ⟨σ', s.sp, wp'⟩ := by
  obtain ⟨a1, a2, a3, a4, a5⟩ := ha
  obtain ⟨hn, hw, hblk⟩ := ho
  refine ⟨fun h hm h0 hp => ?_, fun p w hp hw0 => ?_, fun b hb hle => ?_, fun b hb => ?_,
    fun b hb => ?_⟩
  · obtain ⟨h1, d, h2⟩ := a1 h hm h0 hp
    exact ⟨by rw [hn]; exact h1, d, (hblk _).1.trans h2⟩
  · rw [hw] at hp
    obtain ⟨h1, d, h2⟩ := a2 p w hp hw0
    exact ⟨by rw [hn]; exact h1, d, (hblk _).1.trans h2⟩
  · show (σ'.blocks b).weak_counter =
      (holders WeakPtr.cb b wp' : Int) + (σ'.slot_holders b : Int)
    have h1 : b ≤ s.heap.next := by rw [← hn]; exact hle
    have h2 := a3 b hb h1
    have h3 := hwp b hb
    simp only [State.weak_holders] at h2
    rw [(hblk b).2.1, Heap.slot_holders_congr (hblk b).1 hw, h2]
    by_cases hd : b = dec <;> by_cases hi : b = inc
    · have x1 : b = dec ∧ dec ≠ 0 := ⟨hd, by rw [← hd]; exact hb⟩
      have x2 : b = inc ∧ inc ≠ 0 := ⟨hi, by rw [← hi]; exact hb⟩
      simp only [if_pos x1, if_pos x2]
      simp only [if_pos hd, if_pos hi] at h3
      omega
    · have x1 : b = dec ∧ dec ≠ 0 := ⟨hd, by rw [← hd]; exact hb⟩
      have x2 : ¬ (b = inc ∧ inc ≠ 0) := fun h => hi h.1
      simp only [if_pos x1, if_neg x2]
      simp only [if_pos hd, if_neg hi] at h3
      omega
    · have x1 : ¬ (b = dec ∧ dec ≠ 0) := fun h => hd h.1
      have x2 : b = inc ∧ inc ≠ 0 := ⟨hi, by rw [← hi]; exact hb⟩
      simp only [if_neg x1, if_pos x2]
      simp only [if_neg hd, if_pos hi] at h3
      omega
    · have x1 : ¬ (b = dec ∧ dec ≠ 0) := fun h => hd h.1
      have x2 : ¬ (b = inc ∧ inc ≠ 0) := fun h => hi h.1
      simp only [if_neg x1, if_neg x2]
      simp only [if_neg hd, if_neg hi] at h3
      omega
  · show holders WeakPtr.cb b wp' = 0
    have hb' : s.heap.next < b := by rw [← hn]; exact hb
    have h1 := a4 b hb'
    have h3 := hwp b (by omega)
    simp only [State.weak_holders] at h1
    have hi : b ≠ inc := by
      intro hi
      have := hinc (by omega)
      omega
    simp only [if_neg hi] at h3
    omega
  · rcases (hblk b).2.2 hb with ⟨h1, h2⟩ | h1
    · exact h2.trans (a5 b h1)
    · exact h1

theorem mem_append_some {α : Type} {l : List (Option α)} {x y : α}
    (hm : some x ∈ l ++ [some y]) : some x ∈ l ∨ x = y := by
  rcases List.mem_append.mp hm with h1 | h1
  · exact Or.inl h1
  · simp only [List.mem_singleton, Option.some.injEq] at h1
    exact Or.inr h1

/-- Every statement keeps the account of observers, for any payload type. -/
theorem step_accounted {optIn : Bool} {s s' : State} {op : Op}
    (h : step optIn s op = .ok s') (ha : s.Accounted) (hc : CountsOwners s.heap s.sp) :
    s'.Accounted := by
  have hweak_le : ∀ {i : Nat} {w : WeakPtr}, lookup s.wp i = some w → w.cb ≠ 0 →
      w.cb ≤ s.heap.next := by
    intro i w hl h0
    by_contra hlt
    exact holders_ne_zero_of_lookup WeakPtr.cb hl (ha.2.2.2.1 w.cb (by omega))
  cases op <;> simp only [step] at h
  case ctor_default =>
    rw [pure_ok_iff] at h; subst h
    refine ha.of_steady (Heap.Steady.st_refl _) (fun x hx => ?_)
    rcases mem_append_some hx with h1 | h1
    · exact Or.inl h1
    · subst h1; exact Or.inr (Or.inl rfl)
  case ctor_raw pt d =>
    simp only [bind_ok_iff, pure_ok_iff] at h
    obtain ⟨r, hr, rfl⟩ := h
    obtain ⟨s1, o1⟩ := SharedPtr.from_raw_steady hr
    refine ha.of_steady s1 (fun x hx => ?_)
    rcases mem_append_some hx with h1 | h1
    · exact Or.inl h1
    · subst h1; exact Or.inr (Or.inr o1)
  case make_shared v =>
    rw [pure_ok_iff] at h; subst h
    refine ha.of_steady (makeShared_steady v _) (fun x hx => ?_)
    rcases mem_append_some hx with h1 | h1
    · exact Or.inl h1
    · subst h1; exact Or.inr (Or.inl rfl)
  case copy_ctor src =>
    split at h
    · rw [pure_ok_iff] at h; subst h; exact ha
    · rename_i other hl
      simp only [bind_ok_iff, pure_ok_iff] at h
      obtain ⟨r, hr, rfl⟩ := h
      have hm := lookup_mem hl
      refine ha.of_steady (SharedPtr.copy_ctor_steady hr (ha.1 _ hm)) (fun x hx => ?_)
      rcases mem_append_some hx with h1 | h1
      · exact Or.inl h1
      · rw [h1, (SharedPtr.copy_ctor_owners hr).1]; exact Or.inl hm
  case copy_ctor_conv src =>
    split at h
    · rw [pure_ok_iff] at h; subst h; exact ha
    · rename_i other hl
      simp only [bind_ok_iff, pure_ok_iff] at h
      obtain ⟨r, hr, rfl⟩ := h
      have hm := lookup_mem hl
      refine ha.of_steady (SharedPtr.copy_ctor_conv_steady hr (ha.1 _ hm)) (fun x hx => ?_)
      rcases mem_append_some hx with h1 | h1
      · exact Or.inl h1
      · rw [h1, (SharedPtr.copy_ctor_conv_owners hr).1]; exact Or.inl hm
  case move_ctor src =>
    split at h
    · rw [pure_ok_iff] at h; subst h; exact ha
    · rename_i other hl
      simp only [bind_ok_iff, pure_ok_iff] at h
      obtain ⟨r, hr, rfl⟩ := h
      have hm := lookup_mem hl
      obtain ⟨e1, e2, -⟩ := SharedPtr.move_ctor_owners hr
      refine ha.of_steady (SharedPtr.move_ctor_steady hr (ha.1 _ hm)) (fun x hx => ?_)
      rcases mem_append_some hx with h1 | h1
      · rcases mem_of_mem_set h1 with h2 | h2
        · exact Or.inl h2
        · simp only [Option.some.injEq] at h2
          rw [h2, e2]; exact Or.inr (Or.inl rfl)
      · rw [h1, e1]; exact Or.inl hm
  case copy_assign dst src =>
    split_ifs at h
    · rw [pure_ok_iff] at h; subst h; exact ha
    · split at h
      · rename_i self other hl1 hl2
        simp only [bind_ok_iff, pure_ok_iff] at h
        obtain ⟨r, hr, rfl⟩ := h
        refine ha.of_steady (SharedPtr.copy_assign_steady hr) (fun x hx => ?_)
        rcases mem_of_mem_set hx with h2 | h2
        · exact Or.inl h2
        · simp only [Option.some.injEq] at h2
          rcases SharedPtr.copy_assign_owners hr with ⟨-, e⟩ | ⟨-, e, -⟩
          · rw [h2, e]; exact Or.inl (lookup_mem hl1)
          · rw [h2, e]; exact Or.inl (lookup_mem hl2)
      · rw [pure_ok_iff] at h; subst h; exact ha
  case move_assign dst src =>
    split_ifs at h
    · rw [pure_ok_iff] at h; subst h; exact ha
    · split at h
      · rename_i self other hl1 hl2
        simp only [bind_ok_iff, pure_ok_iff] at h
        obtain ⟨r, hr, rfl⟩ := h
        obtain ⟨e1, e2, -⟩ := SharedPtr.move_assign_owners hr
        refine ha.of_steady (SharedPtr.move_assign_steady hr (ha.1 _ (lookup_mem hl2)))
          (fun x hx => ?_)
        rcases mem_of_mem_set_set hx with h2 | h2 | h2
        · exact Or.inl h2
        · simp only [Option.some.injEq] at h2
          rw [h2, e1]; exact Or.inl (lookup_mem hl2)
        · simp only [Option.some.injEq] at h2
          rw [h2, e2]; exact Or.inr (Or.inl rfl)
      · rw [pure_ok_iff] at h; subst h; exact ha
  case move_assign_conv dst src =>
    split_ifs at h
    · rw [pure_ok_iff] at h; subst h; exact ha
    · split at h
      · rename_i self other hl1 hl2
        simp only [bind_ok_iff, pure_ok_iff] at h
        obtain ⟨r, hr, rfl⟩ := h
        obtain ⟨e1, e2, -⟩ := SharedPtr.move_assign_conv_owners hr
        refine ha.of_steady (SharedPtr.move_assign_conv_steady hr) (fun x hx => ?_)
        rcases mem_of_mem_set_set hx with h2 | h2 | h2
        · exact Or.inl h2
        · simp only [Option.some.injEq] at h2
          rw [h2, e1]; exact Or.inl (lookup_mem hl2)
        · simp only [Option.some.injEq] at h2
          rw [h2, e2]; exact Or.inr (Or.inl rfl)
      · rw [pure_ok_iff] at h; subst h; exact ha
  case reset x =>
    split at h
    · rw [pure_ok_iff] at h; subst h; exact ha
    · simp only [bind_ok_iff, pure_ok_iff] at h
      obtain ⟨r, hr, rfl⟩ := h
      refine ha.of_steady (SharedPtr.reset_steady hr) (fun y hy => ?_)
      rcases mem_of_mem_set hy with h2 | h2
      · exact Or.inl h2
      · simp only [Option.some.injEq] at h2
        rw [h2, (SharedPtr.reset_owners hr).1]; exact Or.inr (Or.inl rfl)
  case reset_raw x q =>
    split at h
    · rw [pure_ok_iff] at h; subst h; exact ha
    · simp only [bind_ok_iff, pure_ok_iff] at h
      obtain ⟨r, hr, rfl⟩ := h
      obtain ⟨s1, o1⟩ := SharedPtr.reset_raw_steady hr
      refine ha.of_steady s1 (fun y hy => ?_)
      rcases mem_of_mem_set hy with h2 | h2
      · exact Or.inl h2
      · simp only [Option.some.injEq] at h2
        rw [h2]; exact Or.inr (Or.inr o1)
  case swap x y =>
    split_ifs at h
    · rw [pure_ok_iff] at h; subst h; exact ha
    · split at h
      · rename_i self other hl1 hl2
        rw [pure_ok_iff] at h; subst h
        refine ha.of_steady (Heap.Steady.st_refl _) (fun z hz => ?_)
        rcases mem_of_mem_set_set hz with h2 | h2 | h2
        · exact Or.inl h2
        · simp only [Option.some.injEq] at h2
          rw [h2]; exact Or.inl (lookup_mem hl2)
        · simp only [Option.some.injEq] at h2
          rw [h2]; exact Or.inl (lookup_mem hl1)
      · rw [pure_ok_iff] at h; subst h; exact ha
  case dtor x =>
    split at h
    · rw [pure_ok_iff] at h; subst h; exact ha
    · simp only [bind_ok_iff, pure_ok_iff] at h
      obtain ⟨r, hr, rfl⟩ := h
      refine ha.of_steady (SharedPtr.dtor_steady hr) (fun y hy => ?_)
      rcases mem_of_mem_set hy with h2 | h2
      · exact Or.inl h2
      · cases h2
  case lock w =>
    split at h
    · rw [pure_ok_iff] at h; subst h; exact ha
    · simp only [bind_ok_iff, pure_ok_iff] at h
      obtain ⟨r, hr, rfl⟩ := h
      obtain ⟨s1, e1⟩ := WeakPtr.weak_lock_steady hr
      refine ha.of_steady s1 (fun y hy => ?_)
      rcases mem_append_some hy with h1 | h1
      · exact Or.inl h1
      · rw [h1]; exact Or.inr (Or.inl e1)
  case shared_from_this p =>
    split_ifs at h
    · simp only [EnableSharedFromThis.shared_from_this, bind_ok_iff, pure_ok_iff] at h
      obtain ⟨r, ⟨w, -, hr⟩, rfl⟩ := h
      obtain ⟨s1, e1⟩ := WeakPtr.weak_lock_steady hr
      refine ha.of_steady s1 (fun y hy => ?_)
      rcases mem_append_some hy with h1 | h1
      · exact Or.inl h1
      · rw [h1]; exact Or.inr (Or.inl e1)
    · rw [pure_ok_iff] at h; subst h; exact ha
  case weak_default =>
    rw [pure_ok_iff] at h; subst h
    refine ha.of_observers (Heap.Observers.ob_refl _) (fun b hb => ?_) (fun h0 => absurd rfl h0)
    rw [holders_append_some]
    have hn : WeakPtr.null.cb = 0 := rfl
    simp only [hn, hb, if_false, add_zero]
  case weak_from_shared src =>
    split at h
    · rw [pure_ok_iff] at h; subst h; exact ha
    · rename_i other hl
      simp only [bind_ok_iff, pure_ok_iff] at h
      obtain ⟨r, hr, rfl⟩ := h
      obtain ⟨e1, h0, ob⟩ := WeakPtr.weak_from_shared_observers hr
      refine ha.of_observers ob (fun b hb => ?_)
        (fun _ => (hc.pos_of_mem (lookup_mem hl) h0).2)
      rw [holders_append_some, e1]
      simp only [hb, if_false, add_zero]
  case weak_copy_ctor src =>
    split at h
    · rw [pure_ok_iff] at h; subst h; exact ha
    · rename_i other hl
      simp only [bind_ok_iff, pure_ok_iff] at h
      obtain ⟨r, hr, rfl⟩ := h
      obtain ⟨e1, h0, ob⟩ := WeakPtr.weak_copy_ctor_observers hr
      refine ha.of_observers ob (fun b hb => ?_) (fun _ => hweak_le hl h0)
      rw [holders_append_some, e1]
      simp only [hb, if_false, add_zero]
  case weak_move_ctor src =>
    split at h
    · rw [pure_ok_iff] at h; subst h; exact ha
    · rename_i other hl
      rw [pure_ok_iff] at h; subst h
      refine ha.of_observers (Heap.Observers.ob_refl _) (fun b hb => ?_)
        (fun h0 => absurd rfl h0)
      have := holders_set_some WeakPtr.cb b hl (WeakPtr.move_ctor other).2
      rw [holders_append_some]
      simp only [WeakPtr.move_ctor, hb, if_false, add_zero] at this ⊢
      omega
  case weak_copy_assign dst src =>
    split_ifs at h
    · rw [pure_ok_iff] at h; subst h; exact ha
    · split at h
      · rename_i self other hl1 hl2
        simp only [bind_ok_iff, pure_ok_iff] at h
        obtain ⟨r, hr, rfl⟩ := h
        obtain ⟨e1, h0, ob⟩ := WeakPtr.weak_copy_assign_observers hr
        refine ha.of_observers ob (fun b _ => ?_) (fun _ => hweak_le hl2 h0)
        rw [e1]
        exact holders_set_some WeakPtr.cb b hl1 other
      · rw [pure_ok_iff] at h; subst h; exact ha
  case weak_assign_shared dst src =>
    split at h
    · rename_i self other hl1 hl2
      simp only [bind_ok_iff, pure_ok_iff] at h
      obtain ⟨r, hr, rfl⟩ := h
      obtain ⟨e1, h0, ob⟩ := WeakPtr.weak_assign_shared_observers hr
      refine ha.of_observers ob (fun b _ => ?_)
        (fun _ => (hc.pos_of_mem (lookup_mem hl2) h0).2)
      rw [e1]
      exact holders_set_some WeakPtr.cb b hl1 ⟨other.ptr, other.cb⟩
    · rw [pure_ok_iff] at h; subst h; exact ha
  case weak_swap x y =>
    split_ifs at h with hxy
    · rw [pure_ok_iff] at h; subst h; exact ha
    · split at h
      · rename_i self other hl1 hl2
        rw [pure_ok_iff] at h; subst h
        refine ha.of_observers (Heap.Observers.ob_refl _) (fun b hb => ?_)
          (fun h0 => absurd rfl h0)
        have := holders_set_set_some WeakPtr.cb b hxy hl1 hl2
          (WeakPtr.swap self other).1 (WeakPtr.swap self other).2
        simp only [WeakPtr.swap, hb, if_false, add_zero] at this ⊢
        omega
      · rw [pure_ok_iff] at h; subst h; exact ha
  case weak_dtor w =>
    split at h
    · rw [pure_ok_iff] at h; subst h; exact ha
    · rename_i self hl
      simp only [bind_ok_iff, pure_ok_iff] at h
      obtain ⟨r, hr, rfl⟩ := h
      refine ha.of_observers (WeakPtr.weak_dtor_observers hr) (fun b hb => ?_)
        (fun h0 => absurd rfl h0)
      have := holders_set_none WeakPtr.cb b hl
      simp only [hb, if_false, add_zero] at this ⊢
      exact this

theorem run_accounted {optIn : Bool} {ops : List Op} {s s' : State}
    (h : run optIn s ops = .ok s') (ha : s.Accounted) (hc : CountsOwners s.heap s.sp) :
    s'.Accounted := by
  induction ops generalizing s with
  | nil => rw [run_nil_ok h]; exact ha
  | cons op ops ih =>
    obtain ⟨s1, h1, h2⟩ := run_cons_ok h
    exact ih h2 (step_accounted h1 ha hc) ((step_moves h1).countsOwners hc)

/-- A live `WeakPtr` variable with a non-null block keeps the block's storage
alive. -/
theorem State.Accounted.weak_live {s : State} (ha : s.Accounted) {i : Nat} {w : WeakPtr}
    (hl : lookup s.wp i = some w) (h0 : w.cb ≠ 0) :
    (s.heap.blocks w.cb).deallocations = 0 ∧ w.cb ≤ s.heap.next := by
  obtain ⟨-, -, a3, a4, a5⟩ := ha
  have hh := holders_ne_zero_of_lookup WeakPtr.cb hl
  have hle : w.cb ≤ s.heap.next := by
    by_contra hlt
    exact hh (a4 w.cb (by omega))
  refine ⟨?_, hle⟩
  by_contra hd
  have h1 := a5 w.cb hd
  have h2 := a3 w.cb h0 hle
  simp only [State.weak_holders] at h2
  omega

/-- C4: for any payload type, take any point of a program at which a live
`WeakPtr` `W` has a non-null block.  `W.expired()` is defined there and is false
exactly while a live `SharedPtr` points to the block.  Once none does,
`W.lock()` returns a null `SharedPtr` (`get() == nullptr`, `use_count() == 0`)
and changes nothing in memory, and at every later point of the program every
live `WeakPtr` on that block is expired and its `lock()` again returns the null
handle and changes nothing. -/
theorem weak_expired_once_last_owner_gone (optIn : Bool) (ops1 ops2 : List Op)
    (s1 s2 : State) (i : Nat) (W : WeakPtr) (hrun1 : run optIn State.init ops1 = .ok s1)
    (hrun2 : run optIn s1 ops2 = .ok s2) (hW : lookup s1.wp i = some W) (h0 : W.cb ≠ 0) :
    W.expired s1.heap = .ok (decide (s1.shared_holders W.cb = 0)) ∧
    (s1.shared_holders W.cb = 0 →
      W.lock s1.heap = .ok (SharedPtr.null, s1.heap) ∧
      SharedPtr.null.get = 0 ∧ SharedPtr.null.use_count s1.heap = .ok 0 ∧
      ∀ j W2, lookup s2.wp j = some W2 → W2.cb = W.cb →
        W2.expired s2.heap = .ok true ∧ W2.lock s2.heap = .ok (SharedPtr.null, s2.heap)) := by
  have c1 := (run_counts hrun1 ⟨CountsOwners.counts_init, Heap.OwnedAlive.alive_init⟩).1
  have c2 := (run_counts hrun2 ⟨c1, (run_counts hrun1
    ⟨CountsOwners.counts_init, Heap.OwnedAlive.alive_init⟩).2⟩).1
  have a1 := run_accounted hrun1 State.Accounted.accounted_init CountsOwners.counts_init
  have a2 := run_accounted hrun2 a1 c1
  have key : ∀ (s : State), s.Accounted → CountsOwners s.heap s.sp →
      ∀ j (V : WeakPtr), lookup s.wp j = some V → V.cb ≠ 0 →
        V.expired s.heap = .ok (decide (s.shared_holders V.cb = 0)) ∧
        (s.shared_holders V.cb = 0 → V.lock s.heap = .ok (SharedPtr.null, s.heap)) := by
    intro s hs hcs j V hV hV0
    have hl := (hs.weak_live hV hV0).1
    have hc : (s.heap.blocks V.cb).shared_counter = (s.shared_holders V.cb : Int) :=
      hcs.1 V.cb hV0
    refine ⟨?_, fun hz => ?_⟩
    · rw [WeakPtr.weak_expired_eq, if_neg hV0, if_neg (not_not.mpr hl), hc]
      simp
    · rw [WeakPtr.weak_lock_eq, if_neg hV0, if_neg (not_not.mpr hl), if_pos]
      rw [hc, hz]
      rfl
  obtain ⟨k1, k2⟩ := key s1 a1 c1 i W hW h0
  refine ⟨k1, fun hz => ⟨k2 hz, rfl, rfl, fun j W2 hW2 hcb => ?_⟩⟩
  have hle := (a1.weak_live hW h0).2
  have hz2 := (run_stays_released hrun2 c1 h0 hle).2.2 hz
  obtain ⟨m1, m2⟩ := key s2 a2 c2 j W2 hW2 (by rw [hcb]; exact h0)
  rw [hcb] at m1 m2
  refine ⟨?_, m2 hz2⟩
  rw [m1, hz2]
  rfl

theorem weak_expired_once_last_owner_gone_witness :
    ∃ s1 s2 : State,
      run true State.init [.ctor_raw 5 ⟨1, true⟩, .copy_ctor 0, .weak_from_shared 1, .dtor 0,
        .dtor 1] = .ok s1 ∧
      run true s1 [.weak_copy_ctor 0, .lock 1] = .ok s2 ∧
      lookup s1.wp 0 = some ⟨5, 1⟩ ∧
      WeakPtr.expired ⟨5, 1⟩ s1.heap = .ok true ∧
      WeakPtr.lock ⟨5, 1⟩ s1.heap = .ok (SharedPtr.null, s1.heap) ∧
      WeakPtr.expired ⟨5, 1⟩ s2.heap = .ok true := by
  refine ⟨_, _, rfl, rfl, rfl, ?_, ?_, ?_⟩
  · exact (weak_expired_once_last_owner_gone true [.ctor_raw 5 ⟨1, true⟩, .copy_ctor 0,
      .weak_from_shared 1, .dtor 0, .dtor 1] [.weak_copy_ctor 0, .lock 1] _ _ 0 ⟨5, 1⟩ rfl
      rfl rfl (by decide)).1
  · exact ((weak_expired_once_last_owner_gone true [.ctor_raw 5 ⟨1, true⟩, .copy_ctor 0,
      .weak_from_shared 1, .dtor 0, .dtor 1] [.weak_copy_ctor 0, .lock 1] _ _ 0 ⟨5, 1⟩ rfl
      rfl rfl (by decide)).2 (by decide)).1
  · exact (((weak_expired_once_last_owner_gone true [.ctor_raw 5 ⟨1, true⟩, .copy_ctor 0,
      .weak_from_shared 1, .dtor 0, .dtor 1] [.weak_copy_ctor 0, .lock 1] _ _ 0 ⟨5, 1⟩ rfl
      rfl rfl (by decide)).2 (by decide)).2.2.2 1 ⟨5, 1⟩ rfl rfl).1

theorem lookup_set_same {α : Type} {l : List (Option α)} {i : Nat} (o : Option α)
    (hi : i < l.length) : lookup (l.set i o) i = o := by
  induction l generalizing i with
  | nil => simp at hi
  | cons a l ih =>
    cases i with
    | zero => rfl
    | succ i =>
      simp only [List.set, lookup]
      exact ih (by simpa using hi)

/-- C11: for any payload type, the self-assignment `a = a` of a live handle
variable leaves the whole program state as it is, and so does the
copy-assignment `a = b` from another variable whose handle points to the same
block (both null included): `a` keeps its address and block, and no counter, no
record of deleter invocations and no deallocation count of any block changes.
The operator itself returns `a` and the memory unchanged. -/
theorem copy_assign_same_block_is_noop (optIn : Bool) (s : State) (x y : Nat)
    (a b : SharedPtr) (σ : Heap) (ha : lookup s.sp x = some a)
    (hb : lookup s.sp y = some b) (hcb : b.cb = a.cb) :
    step optIn s (.copy_assign x x) = .ok s ∧
    step optIn s (.copy_assign x y) = .ok s ∧
    SharedPtr.copy_assign optIn a b σ = .ok (a, σ) := by
  have hfun : ∀ τ : Heap, SharedPtr.copy_assign optIn a b τ = .ok (a, τ) := by
    intro τ
    unfold SharedPtr.copy_assign
    rw [if_pos (Or.inl hcb)]
    rfl
  refine ⟨by simp [step, pure_eq_ok], ?_, hfun σ⟩
  simp only [step]
  by_cases hxy : x = y
  · rw [if_pos hxy]; rfl
  · rw [if_neg hxy, ha, hb]
    simp only [hfun, ok_bind, pure_eq_ok, set_lookup_same ha]

theorem copy_assign_same_block_is_noop_witness :
    ∃ s : State,
      run true State.init [.ctor_raw 5 ⟨1, false⟩, .copy_ctor 0, .ctor_default, .ctor_default]
        = .ok s ∧
      step true s (.copy_assign 0 0) = .ok s ∧ step true s (.copy_assign 0 1) = .ok s ∧
      step true s (.copy_assign 2 3) = .ok s := by
  refine ⟨_, rfl, ?_, ?_, ?_⟩
  · exact (copy_assign_same_block_is_noop true _ 0 1 ⟨5, 1⟩ ⟨5, 1⟩ Heap.empty (by rfl) (by rfl) rfl).1
  · exact (copy_assign_same_block_is_noop true _ 0 1 ⟨5, 1⟩ ⟨5, 1⟩ Heap.empty (by rfl) (by rfl) rfl).2.1
  · exact (copy_assign_same_block_is_noop true _ 2 3 ⟨0, 0⟩ ⟨0, 0⟩ Heap.empty (by rfl) (by rfl) rfl).2.1

/-- C14 (what the code does instead): for a default-constructed `WeakPtr` and
for one that has been moved from (`cb == nullptr`), `use_count()` returns 0 but
`expired()` is not defined: it evaluates `cb->shared_counter` through the null
`cb`, without the test `cb == nullptr` that `use_count()` makes. -/
theorem expired_on_null_handle_dereferences_null (w : WeakPtr) (σ : Heap) :
    WeakPtr.null.use_count σ = .ok 0 ∧ WeakPtr.null.expired σ = .error .nullDeref ∧
    (WeakPtr.move_ctor w).2.use_count σ = .ok 0 ∧
    (WeakPtr.move_ctor w).2.expired σ = .error .nullDeref :=
  ⟨rfl, rfl, rfl, rfl⟩

theorem set_set_restore {α : Type} {l : List (Option α)} {i j : Nat} {a b : α}
    (hij : i ≠ j) (ha : lookup l i = some a) (hb : lookup l j = some b) (u v : Option α) :
    ((((l.set i u).set j v).set i (some a)).set j (some b)) = l := by
  rw [List.set_comm v (some a) (l.set i u) (Ne.symm hij), List.set_set, List.set_set,
    set_lookup_same ha]
  exact set_lookup_same hb

/-- C15: for any payload type and two different live handle variables `a` and
`b`, `a.swap(b)` succeeds, leaves `a` with the former address and block of `b`
and `b` with those of `a`, leaves every other variable and the whole memory (all
counters, all records of deleter and destructor calls, all deallocation counts)
as they were; a second `a.swap(b)` restores the original state, and `b.swap(a)`
gives the same state as `a.swap(b)`. -/
theorem swap_exchanges_handles (optIn : Bool) (s : State) (x y : Nat) (a b : SharedPtr)
    (hxy : x ≠ y) (ha : lookup s.sp x = some a) (hb : lookup s.sp y = some b) :
    SharedPtr.swap a b = (b, a) ∧
    ∃ s1, step optIn s (.swap x y) = .ok s1 ∧
      lookup s1.sp x = some b ∧ lookup s1.sp y = some a ∧
      (∀ z, z ≠ x → z ≠ y → lookup s1.sp z = lookup s.sp z) ∧
      s1.heap = s.heap ∧ s1.wp = s.wp ∧
      step optIn s1 (.swap x y) = .ok s ∧
      step optIn s (.swap y x) = .ok s1 := by
  have hx := lookup_lt ha
  have hy := lookup_lt hb
  have e1 : lookup ((s.sp.set x (some b)).set y (some a)) x = some b := by
    rw [lookup_set_ne _ _ (Ne.symm hxy)]
    exact lookup_set_same _ hx
  have e2 : lookup ((s.sp.set x (some b)).set y (some a)) y = some a :=
    lookup_set_same _ (by simpa using hy)
  refine ⟨rfl, ⟨s.heap, (s.sp.set x (some b)).set y (some a), s.wp⟩, ?_, e1, e2,
    fun z hzx hzy => ?_, rfl, rfl, ?_, ?_⟩
  · simp only [step, if_neg hxy, ha, hb, pure_eq_ok]
    rfl
  · show lookup ((s.sp.set x (some b)).set y (some a)) z = lookup s.sp z
    rw [lookup_set_ne _ _ (Ne.symm hzy), lookup_set_ne _ _ (Ne.symm hzx)]
  · simp only [step, if_neg hxy, e1, e2, pure_eq_ok]
    have := set_set_restore hxy ha hb (some b) (some a)
    simp only [SharedPtr.swap]
    rw [this]
  · simp only [step, if_neg (Ne.symm hxy), ha, hb, pure_eq_ok, SharedPtr.swap]
    rw [List.set_comm _ _ _ (Ne.symm hxy)]

theorem swap_exchanges_handles_witness :
    ∃ s : State,
      run true State.init [.ctor_raw 5 ⟨1, false⟩, .make_shared 7] = .ok s ∧
      SharedPtr.swap ⟨5, 1⟩ ⟨0, 2⟩ = (⟨0, 2⟩, ⟨5, 1⟩) ∧
      ∃ s1, step true s (.swap 0 1) = .ok s1 ∧
        lookup s1.sp 0 = some ⟨0, 2⟩ ∧ lookup s1.sp 1 = some ⟨5, 1⟩ ∧
        (∀ z, z ≠ 0 → z ≠ 1 → lookup s1.sp z = lookup s.sp z) ∧
        s1.heap = s.heap ∧ s1.wp = s.wp ∧
        step true s1 (.swap 0 1) = .ok s ∧ step true s (.swap 1 0) = .ok s1 := by
  refine ⟨_, rfl, ?_⟩
  exact swap_exchanges_handles true _ 0 1 ⟨5, 1⟩ ⟨0, 2⟩ (by decide) (by rfl) (by rfl)

/-! ## Release through the destructor with a self-reference slot -/

/-- Construction from a raw pointer to a fresh object of a type deriving from
`EnableSharedFromThis`: the block counts the object's `wptr`. -/
theorem SharedPtr.from_raw_fresh {p : Nat} (d : Deleter) {σ : Heap} (hp : p ≠ 0)
    (hw : σ.wptr p = some WeakPtr.null) :
    ∃ σ1, SharedPtr.from_raw true p d σ = .ok (⟨p, σ.next + 1⟩, σ1) ∧
      σ1.blocks (σ.next + 1) = ⟨1, 1, .ControlBlockRegular p d, 0, [], 0, 0⟩ ∧
      σ1.wptr p = some ⟨p, σ.next + 1⟩ := by
  have h0 : σ.next + 1 ≠ 0 := by omega
  refine ⟨(({ (σ.store (σ.next + 1) ⟨1, 0, .ControlBlockRegular p d, 0, [], 0, 0⟩) with
        next := σ.next + 1 } : Heap).store (σ.next + 1)
        ⟨1, 1, .ControlBlockRegular p d, 0, [], 0, 0⟩).setWptr p (some ⟨p, σ.next + 1⟩),
    ?_, ?_, ?_⟩
  · unfold SharedPtr.from_raw SharedPtr.set_wptr
    simp only [if_true]
    rw [Heap.loadWptr_live hp (by simpa using hw)]
    simp only [ok_bind, WeakPtr.assign_shared, WeakPtr.weak_from_shared_eq, WeakPtr.weak_dtor_eq,
      WeakPtr.swap, WeakPtr.null, h0, if_false, Heap.store_blocks_same, ne_eq,
      not_true_eq_false, pure_eq_ok, if_true, zero_add, not_INT_MAX_le_zero]
  · simp [Heap.setWptr]
  · simp [Heap.setWptr]

/-- The destructor of the sole owner of a block whose only observer is the
`wptr` of the payload, with a deleter that destroys the payload. -/
theorem SharedPtr.dtor_sole_owner_with_slot {p cb : Nat} {d : Deleter} {σ : Heap}
    (hp : p ≠ 0) (h0 : cb ≠ 0) (hd : d.destroys = true)
    (hblk : σ.blocks cb = ⟨1, 1, .ControlBlockRegular p d, 0, [], 0, 0⟩)
    (hslot : σ.wptr p = some ⟨p, cb⟩) :
    (∃ σa σb, decShared cb σ = .ok σa ∧ use_deleter true cb σa = .ok σb ∧
      (σb.blocks cb).shared_counter = 0 ∧ (σb.blocks cb).weak_counter = 0 ∧
      (σb.blocks cb).deleted = [p] ∧ (σb.blocks cb).deallocations = 1 ∧
      call_destructor cb σb = .error .useAfterFree) ∧
    SharedPtr.dtor true ⟨p, cb⟩ σ = .error .useAfterFree := by
  have e1 : decShared cb σ = .ok (σ.store cb ⟨0, 1, .ControlBlockRegular p d, 0, [], 0, 0⟩) := by
    unfold decShared
    rw [Heap.modify_eq, if_neg h0, if_neg (by rw [hblk]; simp), hblk]
    rfl
  have e2 : use_deleter true cb (σ.store cb ⟨0, 1, .ControlBlockRegular p d, 0, [], 0, 0⟩) =
      .ok (((σ.store cb ⟨0, 1, .ControlBlockRegular p d, 0, [], 0, 0⟩).store cb
        ⟨0, 0, .ControlBlockRegular p d, 1, [p], 0, 1⟩).setWptr p none) := by
    unfold use_deleter
    rw [Heap.load_eq, if_neg h0, if_neg (by simp), ok_bind]
    simp only [Heap.store_blocks_same, hp, ne_eq, not_false_eq_true, if_true, hd,
      List.nil_append, zero_add]
    unfold destroy_object
    rw [if_pos rfl, Heap.loadWptr_live hp (by simpa using hslot), ok_bind,
      WeakPtr.weak_dtor_eq]
    simp only [h0, if_false, Heap.store_blocks_same, ne_eq, not_true_eq_false, ok_bind,
      pure_eq_ok, BaseControlBlock.unobserved, Heap.store_store]
    simp
  have e3 : call_destructor cb (((σ.store cb ⟨0, 1, .ControlBlockRegular p d, 0, [], 0, 0⟩).store
      cb ⟨0, 0, .ControlBlockRegular p d, 1, [p], 0, 1⟩).setWptr p none) =
      .error .useAfterFree := by
    unfold call_destructor
    rw [Heap.modify_eq, if_neg h0, if_pos]
    simp [Heap.setWptr]
  refine ⟨⟨_, _, e1, e2, ?_, ?_, ?_, ?_, e3⟩, ?_⟩
  · simp [Heap.setWptr]
  · simp [Heap.setWptr]
  · simp [Heap.setWptr]
  · simp [Heap.setWptr]
  · unfold SharedPtr.dtor
    simp only [h0, ne_eq, not_false_eq_true, if_true, e1, ok_bind, Heap.load_eq, if_false,
      Heap.store_blocks_same, not_true_eq_false, hp, e2, e3, error_bind]

/-- C18 (what the code does instead): let `p` be the non-null address of a
fresh object of a type deriving from `EnableSharedFromThis` and
`S = SharedPtr(p)` with the default deleter, so that the block's only observer
is `p->wptr`.  In `~SharedPtr()` of this sole owner, `use_deleter()` deletes the
object, the destructor of `p->wptr` brings `weak_counter` to 0 with
`shared_counter` already 0 and calls `deallocate()`; after that the destructor
of `S` still calls the virtual `cb->call_destructor()` on the freed block (and
would go on to read `cb->weak_counter`): the block is used after
`deallocate()`. -/
theorem destructor_touches_block_after_deallocate (p : Nat) (σ : Heap) (hp : p ≠ 0)
    (hw : σ.wptr p = some WeakPtr.null) :
    ∃ S σ1, SharedPtr.from_raw true p Deleter.default_delete σ = .ok (S, σ1) ∧
      S.get = p ∧ S.use_count σ1 = .ok 1 ∧ (σ1.blocks S.cb).weak_counter = 1 ∧
      (∃ σa σb, decShared S.cb σ1 = .ok σa ∧ use_deleter true S.cb σa = .ok σb ∧
        (σb.blocks S.cb).shared_counter = 0 ∧ (σb.blocks S.cb).weak_counter = 0 ∧
        (σb.blocks S.cb).deleted = [p] ∧ (σb.blocks S.cb).deallocations = 1 ∧
        call_destructor S.cb σb = .error .useAfterFree) ∧
      SharedPtr.dtor true S σ1 = .error .useAfterFree := by
  obtain ⟨σ1, e1, hblk, hslot⟩ := SharedPtr.from_raw_fresh Deleter.default_delete hp hw
  have h0 : σ.next + 1 ≠ 0 := by omega
  obtain ⟨t1, t2⟩ := @SharedPtr.dtor_sole_owner_with_slot p (σ.next + 1)
    Deleter.default_delete σ1 hp h0 rfl hblk hslot
  refine ⟨_, σ1, e1, rfl, ?_, ?_, t1, t2⟩
  · rw [SharedPtr.use_count_live h0 (by rw [hblk]), hblk]
  · show (σ1.blocks (σ.next + 1)).weak_counter = 1
    rw [hblk]

theorem destructor_touches_block_after_deallocate_witness :
    Heap.empty.wptr 5 = some WeakPtr.null ∧
    run true State.init [.ctor_raw 5 Deleter.default_delete, .dtor 0] = .error .useAfterFree ∧
    ∃ S σ1, SharedPtr.from_raw true 5 Deleter.default_delete Heap.empty = .ok (S, σ1) ∧
      S.get = 5 ∧ S.use_count σ1 = .ok 1 ∧ (σ1.blocks S.cb).weak_counter = 1 ∧
      (∃ σa σb, decShared S.cb σ1 = .ok σa ∧ use_deleter true S.cb σa = .ok σb ∧
        (σb.blocks S.cb).shared_counter = 0 ∧ (σb.blocks S.cb).weak_counter = 0 ∧
        (σb.blocks S.cb).deleted = [5] ∧ (σb.blocks S.cb).deallocations = 1 ∧
        call_destructor S.cb σb = .error .useAfterFree) ∧
      SharedPtr.dtor true S σ1 = .error .useAfterFree :=
  ⟨rfl, rfl, destructor_touches_block_after_deallocate 5 Heap.empty (by decide) rfl⟩

/-- C17 (what the code does instead): `S = SharedPtr(p, d)` over the non-null
address `p = 5`, a `WeakPtr` `W` on it and `L = W.lock()`.  After `S` has been
destroyed, `L` is the last owner; destroying `L`, resetting it, or move-assigning
a null handle to it takes `shared_counter` from 1 to 0 without invoking the
deleter, because `L.ptr` is `nullptr` and the destructor tests `ptr != nullptr`
before `use_deleter()`; only the copy-assignment of a null handle to `L` invokes
`d(p)`. -/
theorem lock_handle_release_skips_deleter :
    (∃ s, run false State.init [.ctor_raw 5 ⟨1, false⟩, .weak_from_shared 0, .lock 0, .dtor 0,
        .dtor 1] = .ok s ∧
      (s.heap.blocks 1).variant = .ControlBlockRegular 5 ⟨1, false⟩ ∧
      (s.heap.blocks 1).shared_counter = 0 ∧ (s.heap.blocks 1).deleted = []) ∧
    (∃ s, run false State.init [.ctor_raw 5 ⟨1, false⟩, .weak_from_shared 0, .lock 0, .dtor 0,
        .reset 1] = .ok s ∧
      (s.heap.blocks 1).shared_counter = 0 ∧ (s.heap.blocks 1).deleted = []) ∧
    (∃ s, run false State.init [.ctor_raw 5 ⟨1, false⟩, .weak_from_shared 0, .lock 0, .dtor 0,
        .ctor_default, .move_assign 1 2] = .ok s ∧
      (s.heap.blocks 1).shared_counter = 0 ∧ (s.heap.blocks 1).deleted = []) ∧
    (∃ s, run false State.init [.ctor_raw 5 ⟨1, false⟩, .weak_from_shared 0, .lock 0, .dtor 0,
        .ctor_default, .copy_assign 1 2] = .ok s ∧
      (s.heap.blocks 1).shared_counter = 0 ∧ (s.heap.blocks 1).deleted = [5]) := by
  refine ⟨⟨_, rfl, ?_, ?_, ?_⟩, ⟨_, rfl, ?_, ?_⟩, ⟨_, rfl, ?_, ?_⟩, ⟨_, rfl, ?_, ?_⟩⟩ <;> decide

/-- C16 (what the code does instead): constructing a `WeakPtr` from a
`SharedPtr` with a live block whose `weak_counter` is below `INT_MAX` adds one
to that `weak_counter` and changes nothing else in memory; destroying a
`WeakPtr` with a live block takes one from its `weak_counter`, calls
`deallocate()` exactly if both counters are then zero, and changes nothing
else.  But take `S = SharedPtr(p, d)` over
`p = 5`, `W = WeakPtr(S)`, `L = W.lock()`, and destroy `S`, then `L`, the last
owner, while `W` is alive: `shared_counter` is 0, the block is not freed, and
the payload has not been destroyed (no deleter invocation), because `L.ptr` is
`nullptr`.  When `W` is destroyed next, the block is freed and the payload has
never been released.  Without the `lock()` the same steps do release the
payload when the last owner goes. -/
theorem last_owner_from_lock_leaves_payload :
    (∀ (H : SharedPtr) (σ : Heap), H.cb ≠ 0 → (σ.blocks H.cb).deallocations = 0 →
      (σ.blocks H.cb).weak_counter < INT_MAX →
      ∃ σ', WeakPtr.from_shared H σ = .ok (⟨H.ptr, H.cb⟩, σ') ∧
        σ'.blocks H.cb =
          { σ.blocks H.cb with weak_counter := (σ.blocks H.cb).weak_counter + 1 } ∧
        (∀ b, b ≠ H.cb → σ'.blocks b = σ.blocks b) ∧ σ'.wptr = σ.wptr) ∧
    (∀ (W : WeakPtr) (σ : Heap), W.cb ≠ 0 → (σ.blocks W.cb).deallocations = 0 →
      ∃ σ', W.dtor σ = .ok σ' ∧
        (σ'.blocks W.cb).weak_counter = (σ.blocks W.cb).weak_counter - 1 ∧
        (σ'.blocks W.cb).shared_counter = (σ.blocks W.cb).shared_counter ∧
        (σ'.blocks W.cb).variant = (σ.blocks W.cb).variant ∧
        (σ'.blocks W.cb).deleted = (σ.blocks W.cb).deleted ∧
        (σ'.blocks W.cb).use_deleter_calls = (σ.blocks W.cb).use_deleter_calls ∧
        (σ'.blocks W.cb).call_destructor_calls = (σ.blocks W.cb).call_destructor_calls ∧
        (σ'.blocks W.cb).deallocations =
          (if (σ.blocks W.cb).weak_counter - 1 = 0 ∧ (σ.blocks W.cb).shared_counter = 0
            then 1 else 0) ∧
        (∀ b, b ≠ W.cb → σ'.blocks b = σ.blocks b) ∧ σ'.wptr = σ.wptr) ∧
    (∃ s s', run false State.init [.ctor_raw 5 ⟨1, false⟩, .weak_from_shared 0, .lock 0,
        .dtor 0, .dtor 1] = .ok s ∧
      s.shared_holders 1 = 0 ∧ lookup s.wp 0 = some ⟨5, 1⟩ ∧
      (s.heap.blocks 1).shared_counter = 0 ∧ (s.heap.blocks 1).weak_counter = 1 ∧
      (s.heap.blocks 1).deallocations = 0 ∧
      (s.heap.blocks 1).use_deleter_calls = 0 ∧ (s.heap.blocks 1).deleted = [] ∧
      step false s (.weak_dtor 0) = .ok s' ∧
      (s'.heap.blocks 1).deallocations = 1 ∧ (s'.heap.blocks 1).deleted = []) ∧
    (∃ s s', run false State.init [.ctor_raw 5 ⟨1, false⟩, .weak_from_shared 0, .dtor 0]
        = .ok s ∧
      (s.heap.blocks 1).shared_counter = 0 ∧ (s.heap.blocks 1).weak_counter = 1 ∧
      (s.heap.blocks 1).deallocations = 0 ∧ (s.heap.blocks 1).deleted = [5] ∧
      step false s (.weak_dtor 0) = .ok s' ∧
      (s'.heap.blocks 1).deallocations = 1 ∧ (s'.heap.blocks 1).deleted = [5]) := by
  refine ⟨fun H σ h0 hd hw => ?_, fun W σ h0 hd => ?_,
    ⟨_, _, rfl, ?_, rfl, ?_, ?_, ?_, ?_, ?_, rfl, ?_, ?_⟩,
    ⟨_, _, rfl, ?_, ?_, ?_, ?_, rfl, ?_, ?_⟩⟩
  · rw [WeakPtr.weak_from_shared_eq, if_neg h0, if_neg (not_not.mpr hd),
      if_neg (not_le.mpr hw)]
    exact ⟨_, rfl, Heap.store_blocks_same _ _ _,
      fun b hb => by rw [Heap.store_blocks, if_neg hb], rfl⟩
  · rw [WeakPtr.weak_dtor_eq, if_neg h0, if_neg (not_not.mpr hd)]
    refine ⟨_, rfl, ?_⟩
    simp only [Heap.store_blocks_same, BaseControlBlock.unobserved]
    refine ⟨?_, ?_, ?_, ?_, ?_, ?_, ?_, fun b hb => by rw [Heap.store_blocks, if_neg hb], rfl⟩ <;>
      split_ifs <;> simp [hd]
  all_goals decide

theorem last_owner_from_lock_leaves_payload_witness :
    ∃ σ', WeakPtr.from_shared ⟨0, 1⟩ (makeShared 7 Heap.empty).2 = .ok (⟨0, 1⟩, σ') ∧
      (σ'.blocks 1).weak_counter = 1 ∧ (σ'.blocks 1).shared_counter = 1 := by
  obtain ⟨σ', e, hb, -, -⟩ := last_owner_from_lock_leaves_payload.1 ⟨0, 1⟩
    (makeShared 7 Heap.empty).2 (by decide) (by decide) zero_lt_INT_MAX
  have hb' : σ'.blocks 1 = _ := hb
  exact ⟨σ', e, by rw [hb']; decide, by rw [hb']; decide⟩

/-! ## The three release paths side by side -/

/-- C19 (what the code does instead): for a handle `h` on a block, the release
blocks of `h = n` for a null lvalue `n` (copy assignment) and of
`h = SharedPtr<U>()` (converting move assignment) are the same statement
sequence, and `~SharedPtr()` agrees with it when `h` observes a non-null
address.  When `h.ptr` is `nullptr` (a handle from `makeShared`, `lock()` or
`shared_from_this()`) and `h` is the last owner of a live block, the three
paths perform the same `shared_counter` decrement, `call_destructor()` and
`deallocate()` calls, but the destructor makes no `use_deleter()` call (it
tests `ptr != nullptr` first) while the two assignments make one and invoke the
deleter on a non-null object. -/
theorem release_paths_differ_without_address (optIn : Bool) (h : SharedPtr) (σ : Heap)
    (hcb : h.cb ≠ 0) :
    SharedPtr.copy_assign optIn h SharedPtr.null σ =
      (SharedPtr.release_in_assign optIn h σ >>= fun σ' => pure (SharedPtr.null, σ')) ∧
    SharedPtr.move_assign_conv optIn h SharedPtr.null σ =
      (SharedPtr.release_in_assign optIn h σ >>= fun σ' =>
        pure (SharedPtr.null, SharedPtr.null, σ')) ∧
    (h.ptr ≠ 0 → SharedPtr.dtor optIn h σ = SharedPtr.release_in_assign optIn h σ) ∧
    (h.ptr = 0 → (σ.blocks h.cb).deallocations = 0 → (σ.blocks h.cb).shared_counter = 1 →
      ∃ σ1 σ2, SharedPtr.dtor false h σ = .ok σ1 ∧
        SharedPtr.release_in_assign false h σ = .ok σ2 ∧
        (σ1.blocks h.cb).shared_counter = 0 ∧ (σ2.blocks h.cb).shared_counter = 0 ∧
        (σ1.blocks h.cb).call_destructor_calls = (σ.blocks h.cb).call_destructor_calls + 1 ∧
        (σ2.blocks h.cb).call_destructor_calls = (σ.blocks h.cb).call_destructor_calls + 1 ∧
        (σ1.blocks h.cb).deallocations = (σ2.blocks h.cb).deallocations ∧
        (σ1.blocks h.cb).use_deleter_calls = (σ.blocks h.cb).use_deleter_calls ∧
        (σ2.blocks h.cb).use_deleter_calls = (σ.blocks h.cb).use_deleter_calls + 1 ∧
        (σ1.blocks h.cb).deleted = (σ.blocks h.cb).deleted ∧
        (σ2.blocks h.cb).deleted =
          (σ.blocks h.cb).deleted ++ (σ.blocks h.cb).variant.deleter_args) := by
  refine ⟨?_, rfl, ?_, ?_⟩
  · unfold SharedPtr.copy_assign
    have hg : ¬ (SharedPtr.null.cb = h.cb ∨ (SharedPtr.null.ptr = h.ptr ∧ h.ptr ≠ 0)) := by
      rintro (e | ⟨e, ne⟩)
      · exact hcb e.symm
      · exact ne e.symm
    rw [if_neg hg]
    rfl
  · intro hp
    unfold SharedPtr.dtor SharedPtr.release_in_assign
    simp only [if_pos hp]
  · intro hp hlive h1
    have e2 : SharedPtr.release_in_assign false h σ =
        .ok (σ.store h.cb ((σ.blocks h.cb).released true)) := by
      rw [SharedPtr.release_in_assign_eq, if_neg hcb, if_neg (not_not.mpr hlive)]
    refine ⟨_, _, SharedPtr.dtor_live hcb hlive, e2, ?_⟩
    · have hz : (σ.blocks h.cb).shared_counter - 1 = 0 := by omega
      simp only [Heap.store_blocks_same, BaseControlBlock.released, if_pos hz, hp]
      simp [hz]

theorem release_paths_differ_without_address_witness :
    ((makeShared 7 Heap.empty).2.blocks 1).deallocations = 0 ∧
    ((makeShared 7 Heap.empty).2.blocks 1).shared_counter = 1 ∧
    ∃ σ1 σ2, SharedPtr.dtor false ⟨0, 1⟩ (makeShared 7 Heap.empty).2 = .ok σ1 ∧
      SharedPtr.release_in_assign false ⟨0, 1⟩ (makeShared 7 Heap.empty).2 = .ok σ2 ∧
      (σ1.blocks 1).use_deleter_calls = 0 ∧ (σ2.blocks 1).use_deleter_calls = 1 := by
  obtain ⟨σ1, σ2, e1, e2, -, -, -, -, -, u1, u2, -, -⟩ :=
    (release_paths_differ_without_address false ⟨0, 1⟩ (makeShared 7 Heap.empty).2
      (by decide)).2.2.2 rfl (by decide) (by decide)
  exact ⟨by decide, by decide, σ1, σ2, e1, e2, u1, u2⟩

/-! ## The account of observers in every reachable state -/

theorem Heap.SlotsSound.ncard_slots {σ : Heap} (hs : σ.SlotsSound) {b : Nat} (hb : b ≠ 0) :
    Set.ncard {p | ∃ w, σ.wptr p = some w ∧ w.cb = b} = σ.slot_holders b := by
  have huniq : ∀ p w, σ.wptr p = some w → w.cb = b →
      ∃ d, (σ.blocks b).variant = .ControlBlockRegular p d := by
    intro p w hw hc
    obtain ⟨-, d, hd⟩ := hs p w hw (by rw [hc]; exact hb)
    rw [hc] at hd
    exact ⟨d, hd⟩
  have hempty : (∀ p w, σ.wptr p = some w → w.cb = b → False) →
      Set.ncard {p | ∃ w, σ.wptr p = some w ∧ w.cb = b} = 0 := by
    intro hno
    have : {p | ∃ w, σ.wptr p = some w ∧ w.cb = b} = (∅ : Set Nat) := by
      ext p
      simp only [Set.mem_setOf_eq, Set.mem_empty_iff_false, iff_false]
      rintro ⟨w, hw, hc⟩
      exact hno p w hw hc
    rw [this, Set.ncard_empty]
  unfold Heap.slot_holders
  cases hv : (σ.blocks b).variant with
  | ControlBlockRegular object dl =>
    simp only
    cases ho : σ.wptr object with
    | none =>
      simp only
      refine hempty (fun p w hw hc => ?_)
      obtain ⟨d, hd⟩ := huniq p w hw hc
      rw [hv] at hd
      cases hd
      rw [ho] at hw
      cases hw
    | some w0 =>
      simp only
      by_cases hc0 : w0.cb = b
      · rw [if_pos hc0]
        have : {p | ∃ w, σ.wptr p = some w ∧ w.cb = b} = ({object} : Set Nat) := by
          ext p
          simp only [Set.mem_setOf_eq, Set.mem_singleton_iff]
          constructor
          · rintro ⟨w, hw, hc⟩
            obtain ⟨d, hd⟩ := huniq p w hw hc
            rw [hv] at hd
            cases hd
            rfl
          · rintro rfl
            exact ⟨w0, ho, hc0⟩
        rw [this, Set.ncard_singleton]
      · rw [if_neg hc0]
        refine hempty (fun p w hw hc => ?_)
        obtain ⟨d, hd⟩ := huniq p w hw hc
        rw [hv] at hd
        cases hd
        rw [ho] at hw
        cases hw
        exact hc0 hc
  | ControlBlockMakeShared v =>
    simp only
    refine hempty (fun p w hw hc => ?_)
    obtain ⟨d, hd⟩ := huniq p w hw hc
    rw [hv] at hd
    cases hd

theorem State.Accounted.slot_live {s : State} (ha : s.Accounted) {p : Nat} {w : WeakPtr}
    (hw : s.heap.wptr p = some w) (h0 : w.cb ≠ 0) :
    w.cb ≤ s.heap.next ∧ 1 ≤ (s.heap.blocks w.cb).weak_counter ∧
      (s.heap.blocks w.cb).deallocations = 0 := by
  obtain ⟨-, a2, a3, -, a5⟩ := ha
  obtain ⟨hle, d, hd⟩ := a2 p w hw h0
  have h3 := a3 w.cb h0 hle
  have hsl : s.heap.slot_holders w.cb = 1 := by
    unfold Heap.slot_holders
    rw [hd]
    simp only
    rw [hw]
    simp
  rw [hsl] at h3
  have h1 : 1 ≤ (s.heap.blocks w.cb).weak_counter := by
    rw [h3]
    have : (0 : Int) ≤ (s.weak_holders w.cb : Int) := Int.natCast_nonneg _
    push_cast
    omega
  refine ⟨hle, h1, ?_⟩
  by_contra hdl
  have := a5 w.cb hdl
  omega

theorem State.Accounted.counted {s : State} (ha : s.Accounted)
    (hc : CountsOwners s.heap s.sp) (b : Nat) (hb : b ≠ 0) (hle : b ≤ s.heap.next) :
    (s.heap.blocks b).weak_counter = (s.weak_holders b : Int) +
      (Set.ncard {p | ∃ w, s.heap.wptr p = some w ∧ w.cb = b} : Int) ∧
    0 ≤ (s.heap.blocks b).shared_counter ∧ 0 ≤ (s.heap.blocks b).weak_counter := by
  have h3 := ha.2.2.1 b hb hle
  rw [ha.2.1.ncard_slots hb]
  refine ⟨h3, ?_, ?_⟩
  · rw [hc.1 b hb]
    exact Int.natCast_nonneg _
  · rw [h3]
    have h1 : (0 : Int) ≤ (s.weak_holders b : Int) := Int.natCast_nonneg _
    have h2 : (0 : Int) ≤ (s.heap.slot_holders b : Int) := Int.natCast_nonneg _
    omega

theorem WeakPtr.weak_dtor_ok {w : WeakPtr} {σ : Heap}
    (h : w.cb ≠ 0 → (σ.blocks w.cb).deallocations = 0) : ∃ σ', w.dtor σ = .ok σ' := by
  rw [WeakPtr.weak_dtor_eq]
  by_cases h0 : w.cb = 0
  · exact ⟨_, if_pos h0⟩
  · rw [if_neg h0, if_neg (not_not.mpr (h h0))]
    exact ⟨_, rfl⟩

/-! ## `reset(Tp*)`: the fresh block and the released one -/

theorem lookup_append_left {α : Type} {l m : List (Option α)} {i : Nat} (hi : i < l.length) :
    lookup (l ++ m) i = lookup l i := by
  induction l generalizing i with
  | nil => simp at hi
  | cons a l ih =>
    cases i with
    | zero => rfl
    | succ i =>
      simp only [List.cons_append, lookup]
      exact ih (by simpa using hi)

theorem run_append (optIn : Bool) (s : State) (l1 l2 : List Op) :
    run optIn s (l1 ++ l2) = run optIn s l1 >>= fun s1 => run optIn s1 l2 := by
  induction l1 generalizing s with
  | nil => rfl
  | cons op l1 ih =>
    simp only [List.cons_append, run]
    cases step optIn s op with
    | error e => rfl
    | ok s1 => simp only [ok_bind]; exact ih s1

/-- Copying the handle in variable 0 `n` times, for a payload type without the
self-reference base: the `shared_counter` of its block grows by `n`. -/
theorem run_copy_ctors {s : State} {h : SharedPtr} (n : Nat) (hl : lookup s.sp 0 = some h)
    (h0 : h.cb ≠ 0) (hd : (s.heap.blocks h.cb).deallocations = 0)
    (hn : (s.heap.blocks h.cb).shared_counter + (n : Int) ≤ INT_MAX) :
    ∃ s', run false s (List.replicate n (.copy_ctor 0)) = .ok s' ∧
      s'.wp = s.wp ∧
      (∀ i, i < s.sp.length → lookup s'.sp i = lookup s.sp i) ∧
      s'.shared_holders h.cb = s.shared_holders h.cb + n ∧
      (s'.heap.blocks h.cb).shared_counter = (s.heap.blocks h.cb).shared_counter + n ∧
      (s'.heap.blocks h.cb).weak_counter = (s.heap.blocks h.cb).weak_counter ∧
      (s'.heap.blocks h.cb).variant = (s.heap.blocks h.cb).variant ∧
      (s'.heap.blocks h.cb).deleted = (s.heap.blocks h.cb).deleted ∧
      (s'.heap.blocks h.cb).deallocations = 0 ∧
      ∀ b, b ≠ h.cb → s'.heap.blocks b = s.heap.blocks b := by
  induction n generalizing s with
  | zero =>
    exact ⟨s, rfl, rfl, fun _ _ => rfl, rfl, by simp, rfl, rfl, rfl, hd, fun _ _ => rfl⟩
  | succ n ih =>
    have hlt : (s.heap.blocks h.cb).shared_counter < INT_MAX := by
      push_cast at hn; omega
    have hpos : 0 < s.sp.length := by
      have := lookup_lt hl; omega
    have e1 : step false s (.copy_ctor 0) = .ok ⟨s.heap.store h.cb { s.heap.blocks h.cb with
        shared_counter := (s.heap.blocks h.cb).shared_counter + 1 }, s.sp ++ [some h], s.wp⟩ := by
      simp only [step, hl, SharedPtr.copy_ctor_live h0 hd hlt, ok_bind, pure_eq_ok]
    obtain ⟨s', r1, r2, r3, r4, r5, r6, r7, r8, r9, r10⟩ := @ih
      ⟨s.heap.store h.cb { s.heap.blocks h.cb with
        shared_counter := (s.heap.blocks h.cb).shared_counter + 1 }, s.sp ++ [some h], s.wp⟩
      (by show lookup (s.sp ++ [some h]) 0 = some h
          rw [lookup_append_left hpos]; exact hl)
      (by show ((s.heap.store h.cb _).blocks h.cb).deallocations = 0
          rw [Heap.store_blocks_same]; exact hd)
      (by show ((s.heap.store h.cb _).blocks h.cb).shared_counter + (n : Int) ≤ INT_MAX
          rw [Heap.store_blocks_same]
          show (s.heap.blocks h.cb).shared_counter + 1 + (n : Int) ≤ INT_MAX
          push_cast at hn; omega)
    refine ⟨s', ?_, r2, fun i hi => ?_, ?_, ?_, ?_, ?_, ?_, r9, fun b hb => ?_⟩
    · rw [List.replicate_succ]
      simp only [run, e1, ok_bind]
      exact r1
    · have := r3 i (by show i < (s.sp ++ [some h]).length
                       rw [List.length_append]; omega)
      rw [this]
      exact lookup_append_left hi
    · rw [r4]
      show holders SharedPtr.cb h.cb (s.sp ++ [some h]) + n = holders SharedPtr.cb h.cb s.sp + (n + 1)
      rw [holders_append_some]
      simp
      omega
    · rw [r5, Heap.store_blocks_same]
      show (s.heap.blocks h.cb).shared_counter + 1 + (n : Int) = _
      push_cast; omega
    · rw [r6, Heap.store_blocks_same]
    · rw [r7, Heap.store_blocks_same]
    · rw [r8, Heap.store_blocks_same]
    · rw [r10 b hb]
      show (s.heap.store h.cb _).blocks b = _
      rw [Heap.store_blocks, if_neg hb]

/-- Copying the `WeakPtr` in variable 0 `n` times: the `weak_counter` of its
block grows by `n`. -/
theorem run_weak_copy_ctors {optIn : Bool} {s : State} {w : WeakPtr} (n : Nat)
    (hl : lookup s.wp 0 = some w)
    (h0 : w.cb ≠ 0) (hd : (s.heap.blocks w.cb).deallocations = 0)
    (hn : (s.heap.blocks w.cb).weak_counter + (n : Int) ≤ INT_MAX) :
    ∃ s', run optIn s (List.replicate n (.weak_copy_ctor 0)) = .ok s' ∧
      s'.sp = s.sp ∧ s'.heap.wptr = s.heap.wptr ∧
      (∀ i, i < s.wp.length → lookup s'.wp i = lookup s.wp i) ∧
      s'.weak_holders w.cb = s.weak_holders w.cb + n ∧
      (s'.heap.blocks w.cb).weak_counter = (s.heap.blocks w.cb).weak_counter + n ∧
      (s'.heap.blocks w.cb).shared_counter = (s.heap.blocks w.cb).shared_counter ∧
      (s'.heap.blocks w.cb).variant = (s.heap.blocks w.cb).variant ∧
      (s'.heap.blocks w.cb).deallocations = 0 ∧
      ∀ b, b ≠ w.cb → s'.heap.blocks b = s.heap.blocks b := by
  induction n generalizing s with
  | zero =>
    exact ⟨s, rfl, rfl, rfl, fun _ _ => rfl, rfl, by simp, rfl, rfl, hd, fun _ _ => rfl⟩
  | succ n ih =>
    have hlt : ¬ INT_MAX ≤ (s.heap.blocks w.cb).weak_counter := by
      push_cast at hn; omega
    have hpos : 0 < s.wp.length := by
      have := lookup_lt hl; omega
    have e1 : step optIn s (.weak_copy_ctor 0) = .ok ⟨s.heap.store w.cb { s.heap.blocks w.cb with
        weak_counter := (s.heap.blocks w.cb).weak_counter + 1 }, s.sp, s.wp ++ [some w]⟩ := by
      simp only [step, hl, WeakPtr.weak_copy_ctor_eq, if_neg h0, if_neg (not_not.mpr hd),
        if_neg hlt, ok_bind, pure_eq_ok]
    obtain ⟨s', r1, r2, r2', r3, r4, r5, r6, r7, r9, r10⟩ := @ih
      ⟨s.heap.store w.cb { s.heap.blocks w.cb with
        weak_counter := (s.heap.blocks w.cb).weak_counter + 1 }, s.sp, s.wp ++ [some w]⟩
      (by show lookup (s.wp ++ [some w]) 0 = some w
          rw [lookup_append_left hpos]; exact hl)
      (by show ((s.heap.store w.cb _).blocks w.cb).deallocations = 0
          rw [Heap.store_blocks_same]; exact hd)
      (by show ((s.heap.store w.cb _).blocks w.cb).weak_counter + (n : Int) ≤ INT_MAX
          rw [Heap.store_blocks_same]
          show (s.heap.blocks w.cb).weak_counter + 1 + (n : Int) ≤ INT_MAX
          push_cast at hn; omega)
    refine ⟨s', ?_, r2, r2', fun i hi => ?_, ?_, ?_, ?_, ?_, r9, fun b hb => ?_⟩
    · rw [List.replicate_succ]
      simp only [run, e1, ok_bind]
      exact r1
    · have := r3 i (by show i < (s.wp ++ [some w]).length
                       rw [List.length_append]; omega)
      rw [this]
      exact lookup_append_left hi
    · rw [r4]
      show holders WeakPtr.cb w.cb (s.wp ++ [some w]) + n = holders WeakPtr.cb w.cb s.wp + (n + 1)
      rw [holders_append_some]
      simp
      omega
    · rw [r5, Heap.store_blocks_same]
      show (s.heap.blocks w.cb).weak_counter + 1 + (n : Int) = _
      push_cast; omega
    · rw [r6, Heap.store_blocks_same]
    · rw [r7, Heap.store_blocks_same]
    · rw [r10 b hb]
      show (s.heap.store w.cb _).blocks b = _
      rw [Heap.store_blocks, if_neg hb]

/-! ## The deleter and the use count, up to `INT_MAX` handles -/

/-- C2 (as stated, refuted): `makeShared(7)` followed by 2147483646 copy
constructions reaches a state with `INT_MAX` live handles on the block and
`shared_counter == INT_MAX`; constructing one more copy executes
`++cb->shared_counter` on `INT_MAX`, a signed overflow: the `int` counter cannot
equal the number 2147483648 of live handles the claim requires next. -/
theorem owners_beyond_INT_MAX_are_not_counted :
    ∃ s, run false State.init
        ([.make_shared 7] ++ List.replicate 2147483646 (.copy_ctor 0)) = .ok s ∧
      lookup s.sp 0 = some ⟨0, 1⟩ ∧
      s.shared_holders 1 = 2147483647 ∧ (s.heap.blocks 1).shared_counter = INT_MAX ∧
      SharedPtr.use_count ⟨0, 1⟩ s.heap = .ok INT_MAX ∧
      step false s (.copy_ctor 0) = .error .overflow := by
  obtain ⟨s0, e0, l0, c0, d0, h0⟩ : ∃ s0 : State,
      run false State.init [.make_shared 7] = .ok s0 ∧
      lookup s0.sp 0 = some ⟨0, 1⟩ ∧ (s0.heap.blocks 1).shared_counter = 1 ∧
      (s0.heap.blocks 1).deallocations = 0 ∧ s0.shared_holders 1 = 1 :=
    ⟨_, rfl, rfl, by decide, by decide, by decide⟩
  obtain ⟨s, r1, -, r3, r4, r5, -, -, -, r9, -⟩ := @run_copy_ctors s0 ⟨0, 1⟩ 2147483646 l0
    (by decide) d0 (by
      show (s0.heap.blocks 1).shared_counter + ((2147483646 : Nat) : Int) ≤ INT_MAX
      rw [c0]; unfold INT_MAX; norm_num)
  have hc : (s.heap.blocks 1).shared_counter = INT_MAX := by
    have : (s.heap.blocks 1).shared_counter =
        (s0.heap.blocks 1).shared_counter + ((2147483646 : Nat) : Int) := r5
    rw [this, c0]; unfold INT_MAX; norm_num
  have hl : lookup s.sp 0 = some ⟨0, 1⟩ := by
    rw [r3 0 (lookup_lt l0)]; exact l0
  refine ⟨s, ?_, hl, ?_, hc, ?_, ?_⟩
  · rw [run_append, e0, ok_bind]; exact r1
  · have : s.shared_holders 1 = s0.shared_holders 1 + 2147483646 := r4
    rw [this, h0]
  · rw [SharedPtr.use_count_live (by decide) r9]
    exact congrArg _ hc
  · have e : SharedPtr.copy_ctor false ⟨0, 1⟩ s.heap = .error .overflow := by
      rw [SharedPtr.copy_ctor_eq, if_neg (by decide), if_neg (not_not.mpr r9),
        if_pos (le_of_eq hc.symm)]
    simp only [step, hl, e, error_bind]

/-- C2 (amended): in every state reached by a program of public operations
(so without a counter overflow), the `shared_counter` of every block is the
number of live `SharedPtr` variables pointing to it, which is at most `INT_MAX`;
`use_count()` of a live handle with a non-null block returns that number, which
is at least 1; and when it is `INT_MAX`, copy-constructing from the handle
overflows the counter. -/
theorem use_count_is_number_of_live_owners (optIn : Bool) (ops : List Op) (s : State)
    (hrun : run optIn State.init ops = .ok s) :
    (∀ b, b ≠ 0 → (s.heap.blocks b).shared_counter = (s.shared_holders b : Int) ∧
      s.shared_holders b ≤ 2147483647) ∧
    (∀ i h, lookup s.sp i = some h → h.cb ≠ 0 →
      h.use_count s.heap = .ok (s.shared_holders h.cb : Int) ∧ 1 ≤ s.shared_holders h.cb ∧
      (s.shared_holders h.cb = 2147483647 →
        step optIn s (.copy_ctor i) = .error .overflow)) := by
  obtain ⟨hC, hA⟩ := run_counts hrun ⟨CountsOwners.counts_init, Heap.OwnedAlive.alive_init⟩
  have hB := run_bounded hrun Heap.Bounded.bounded_init
  refine ⟨fun b hb => ⟨hC.1 b hb, ?_⟩, fun i h hl h0 => ?_⟩
  · have h1 := (hB b).1
    rw [hC.1 b hb] at h1
    have h2 : ((s.shared_holders b : Nat) : Int) ≤ ((2147483647 : Nat) : Int) := h1
    exact Int.ofNat_le.mp h2
  have hpos := (hC.pos_of_mem (lookup_mem hl) h0).1
  have hlive : (s.heap.blocks h.cb).deallocations = 0 := by
    by_contra hd
    have := hA _ hd
    omega
  have hh : 1 ≤ s.shared_holders h.cb := holders_pos_of_mem SharedPtr.cb (lookup_mem hl)
  refine ⟨?_, hh, fun hfull => ?_⟩
  · rw [SharedPtr.use_count_live h0 hlive, hC.1 _ h0]
    rfl
  · have hc : INT_MAX ≤ (s.heap.blocks h.cb).shared_counter := by
      rw [hC.1 _ h0]
      show INT_MAX ≤ ((holders SharedPtr.cb h.cb s.sp : Nat) : Int)
      have : holders SharedPtr.cb h.cb s.sp = 2147483647 := hfull
      rw [this]
      unfold INT_MAX
      norm_num
    have e : SharedPtr.copy_ctor optIn h s.heap = .error .overflow := by
      unfold SharedPtr.copy_ctor
      rw [if_pos h0, incShared_eq, if_neg h0, if_neg (not_not.mpr hlive), if_pos hc]
      rfl
    simp only [step, hl, e, error_bind]

theorem use_count_is_number_of_live_owners_witness :
    ∃ s : State,
      run false State.init [.make_shared 42, .copy_ctor 0, .weak_from_shared 1, .lock 0] = .ok s ∧
      ((∀ b, b ≠ 0 → (s.heap.blocks b).shared_counter = (s.shared_holders b : Int) ∧
        s.shared_holders b ≤ 2147483647) ∧
       (∀ i h, lookup s.sp i = some h → h.cb ≠ 0 →
         h.use_count s.heap = .ok (s.shared_holders h.cb : Int) ∧
           1 ≤ s.shared_holders h.cb ∧
           (s.shared_holders h.cb = 2147483647 →
             step false s (.copy_ctor i) = .error .overflow))) := by
  refine ⟨_, rfl, ?_⟩
  exact use_count_is_number_of_live_owners false
    [.make_shared 42, .copy_ctor 0, .weak_from_shared 1, .lock 0] _ rfl

/-! ## Combined allocation, copy and destruction -/

/-- C6 (what the code does instead): for a payload type without the
self-reference base the scenario runs as claimed: the handle `A` returned by
`makeShared` has `use_count() == 1` and its block has `weak_counter == 0`,
copy-constructing `B` from `A` makes both use counts 2, and destroying `A`
leaves `B.use_count() == 1` with neither `call_destructor` nor `deallocate`
invoked.  For a payload type deriving from `EnableSharedFromThis` the copy
construction of `B` from `A` dereferences a null pointer: the handle returned
by `makeShared` has `ptr == nullptr`, and the copy constructor executes
`ptr->wptr = *this`. -/
theorem makeShared_copy_destroy_use_counts (v : Int) (σ : Heap) :
    (makeShared v σ).1.use_count (makeShared v σ).2 = .ok 1 ∧
    ((makeShared v σ).2.blocks (makeShared v σ).1.cb).weak_counter = 0 ∧
    (∃ B σ2 σ3,
      SharedPtr.copy_ctor false (makeShared v σ).1 (makeShared v σ).2 = .ok (B, σ2) ∧
      (makeShared v σ).1.use_count σ2 = .ok 2 ∧ B.use_count σ2 = .ok 2 ∧
      SharedPtr.dtor false (makeShared v σ).1 σ2 = .ok σ3 ∧
      B.use_count σ3 = .ok 1 ∧
      (σ3.blocks B.cb).call_destructor_calls = 0 ∧ (σ3.blocks B.cb).deallocations = 0) ∧
    (makeShared v σ).1.get = 0 ∧
    SharedPtr.copy_ctor true (makeShared v σ).1 (makeShared v σ).2 = .error .nullDeref ∧
    run true State.init [.make_shared 42, .copy_ctor 0] = .error .nullDeref := by
  have hb := makeShared_block v σ
  have hcb : (makeShared v σ).1.cb = σ.next + 1 := rfl
  have h0 : (makeShared v σ).1.cb ≠ 0 := by rw [hcb]; omega
  have hu2 : (makeShared v σ).1.use_count ((makeShared v σ).2.store (makeShared v σ).1.cb
      { (makeShared v σ).2.blocks (makeShared v σ).1.cb with
        shared_counter := ((makeShared v σ).2.blocks (makeShared v σ).1.cb).shared_counter + 1 })
      = .ok 2 := by
    rw [SharedPtr.use_count_live h0 (by simp [hcb, hb])]
    simp [hcb, hb]
  refine ⟨?_, by rw [hcb, hb], ⟨(makeShared v σ).1, _, _,
    SharedPtr.copy_ctor_live h0 (by rw [hcb, hb]) (by rw [hcb, hb]; exact one_lt_INT_MAX),
    hu2, hu2,
    SharedPtr.dtor_live h0 (by simp [hcb, hb]), ?_, ?_, ?_⟩, rfl, ?_, rfl⟩
  · rw [SharedPtr.use_count_live h0 (by rw [hcb, hb]), hcb, hb]
  · rw [SharedPtr.use_count_live h0 (by simp [hcb, hb, BaseControlBlock.released])]
    simp [hcb, hb, BaseControlBlock.released]
  · simp [hcb, hb, BaseControlBlock.released]
  · simp [hcb, hb, BaseControlBlock.released]
  · unfold SharedPtr.copy_ctor
    rw [if_pos h0, incShared_eq, if_neg h0, if_neg (not_not.mpr (by rw [hcb, hb])),
      if_neg (by rw [hcb, hb]; exact not_INT_MAX_le_one), ok_bind]
    have hp : (makeShared v σ).1.ptr = 0 := rfl
    simp only [SharedPtr.set_wptr, hp, Heap.loadWptr, if_true, error_bind]

/-! ## Promotion by `lock()` -/

/-- C13 (as stated, refuted): `S = SharedPtr(p, d)`, `W = WeakPtr(S)` and
2147483646 copies of `S` reach a state where the block of `W` has
`shared_counter == INT_MAX` with as many live owners, so `W` is not expired;
`W.lock()` then executes `++cb->shared_counter` on `INT_MAX`, a signed overflow,
instead of returning a handle with `use_count() == n + 1`. -/
theorem lock_at_INT_MAX_owners_overflows :
    ∃ s, run false State.init
        ([.ctor_raw 5 ⟨1, false⟩, .weak_from_shared 0] ++
          List.replicate 2147483646 (.copy_ctor 0)) = .ok s ∧
      lookup s.wp 0 = some ⟨5, 1⟩ ∧
      s.shared_holders 1 = 2147483647 ∧ (s.heap.blocks 1).shared_counter = INT_MAX ∧
      WeakPtr.expired ⟨5, 1⟩ s.heap = .ok false ∧
      WeakPtr.lock ⟨5, 1⟩ s.heap = .error .overflow ∧
      step false s (.lock 0) = .error .overflow := by
  obtain ⟨s0, e0, l0, w0, c0, d0, h0⟩ : ∃ s0 : State,
      run false State.init [.ctor_raw 5 ⟨1, false⟩, .weak_from_shared 0] = .ok s0 ∧
      lookup s0.sp 0 = some ⟨5, 1⟩ ∧ lookup s0.wp 0 = some ⟨5, 1⟩ ∧
      (s0.heap.blocks 1).shared_counter = 1 ∧
      (s0.heap.blocks 1).deallocations = 0 ∧ s0.shared_holders 1 = 1 :=
    ⟨_, rfl, rfl, rfl, by decide, by decide, by decide⟩
  obtain ⟨s, r1, r2, -, r4, r5, -, -, -, r9, -⟩ := @run_copy_ctors s0 ⟨5, 1⟩ 2147483646 l0
    (by decide) d0 (by
      show (s0.heap.blocks 1).shared_counter + ((2147483646 : Nat) : Int) ≤ INT_MAX
      rw [c0]; unfold INT_MAX; norm_num)
  have hc : (s.heap.blocks 1).shared_counter = INT_MAX := by
    have : (s.heap.blocks 1).shared_counter =
        (s0.heap.blocks 1).shared_counter + ((2147483646 : Nat) : Int) := r5
    rw [this, c0]; unfold INT_MAX; norm_num
  have hd : (s.heap.blocks 1).deallocations = 0 := r9
  have hw : lookup s.wp 0 = some ⟨5, 1⟩ := by rw [r2]; exact w0
  have hne : (s.heap.blocks 1).shared_counter ≠ 0 := by
    rw [hc]; unfold INT_MAX; norm_num
  have hlock : WeakPtr.lock ⟨5, 1⟩ s.heap = .error .overflow := by
    rw [WeakPtr.weak_lock_eq, if_neg (by decide), if_neg (not_not.mpr hd), if_neg hne,
      if_pos (le_of_eq hc.symm)]
  refine ⟨s, ?_, hw, ?_, hc, ?_, hlock, ?_⟩
  · rw [run_append, e0, ok_bind]; exact r1
  · have : s.shared_holders 1 = s0.shared_holders 1 + 2147483646 := r4
    rw [this, h0]
  · unfold WeakPtr.expired
    rw [Heap.load_eq, if_neg (by decide), if_neg (not_not.mpr hd), ok_bind]
    simp only [pure_eq_ok, hne, decide_False]
  · simp only [step, hw, hlock, error_bind]

/-- C13 (amended): for any payload type, take any point of a program and a live
`WeakPtr` `W` with a non-null block.  If the block's `shared_counter` is `n`
with `1 <= n < INT_MAX`, `W.lock()` succeeds with a `SharedPtr` on the same
block, raises that `shared_counter` to exactly `n + 1`, leaves `weak_counter`
and every other block unchanged, and `use_count()` of the returned handle is
`n + 1`.  If the `shared_counter` is `INT_MAX`, the increment in `W.lock()`
overflows.  If the `shared_counter` is 0, `W.lock()` returns the null handle and
changes nothing, so no handle with a non-null block is ever returned for an
expired block.  No other value of the counter occurs. -/
theorem lock_promotes_live_owner (optIn : Bool) (ops : List Op) (s : State) (i : Nat)
    (W : WeakPtr) (hrun : run optIn State.init ops = .ok s) (hW : lookup s.wp i = some W)
    (h0 : W.cb ≠ 0) :
    (1 ≤ (s.heap.blocks W.cb).shared_counter →
      (s.heap.blocks W.cb).shared_counter < INT_MAX →
      ∃ H σ', W.lock s.heap = .ok (H, σ') ∧ H.cb = W.cb ∧
        (σ'.blocks W.cb).shared_counter = (s.heap.blocks W.cb).shared_counter + 1 ∧
        (σ'.blocks W.cb).weak_counter = (s.heap.blocks W.cb).weak_counter ∧
        H.use_count σ' = .ok ((s.heap.blocks W.cb).shared_counter + 1) ∧
        ∀ b, b ≠ W.cb → σ'.blocks b = s.heap.blocks b) ∧
    ((s.heap.blocks W.cb).shared_counter = INT_MAX → W.lock s.heap = .error .overflow) ∧
    ((s.heap.blocks W.cb).shared_counter = 0 →
      W.lock s.heap = .ok (SharedPtr.null, s.heap) ∧ SharedPtr.null.cb = 0) ∧
    0 ≤ (s.heap.blocks W.cb).shared_counter ∧ (s.heap.blocks W.cb).shared_counter ≤ INT_MAX := by
  have a1 := run_accounted hrun State.Accounted.accounted_init CountsOwners.counts_init
  obtain ⟨hC, -⟩ := run_counts hrun ⟨CountsOwners.counts_init, Heap.OwnedAlive.alive_init⟩
  have hB := run_bounded hrun Heap.Bounded.bounded_init
  have hl := (a1.weak_live hW h0).1
  rw [WeakPtr.weak_lock_eq, if_neg h0, if_neg (not_not.mpr hl)]
  refine ⟨fun hn hlt => ?_, fun hmax => ?_, fun hz => ?_, ?_, (hB W.cb).1⟩
  · have hne : (s.heap.blocks W.cb).shared_counter ≠ 0 := by omega
    rw [if_neg hne, if_neg (not_le.mpr hlt)]
    refine ⟨_, _, rfl, rfl, ?_, ?_, ?_, fun b hb => ?_⟩
    · simp
    · simp
    · rw [SharedPtr.use_count_live h0 (by simpa using hl)]
      simp
    · simp [Heap.store_blocks, hb]
  · have hne : (s.heap.blocks W.cb).shared_counter ≠ 0 := by
      rw [hmax]; unfold INT_MAX; norm_num
    rw [if_neg hne, if_pos (le_of_eq hmax.symm)]
  · rw [if_pos hz]
    exact ⟨rfl, rfl⟩
  · rw [hC.1 W.cb h0]
    exact Int.natCast_nonneg _

theorem lock_promotes_live_owner_witness :
    ∃ s : State,
      run true State.init [.ctor_raw 5 ⟨1, false⟩, .copy_ctor 0, .weak_from_shared 1] = .ok s ∧
      lookup s.wp 0 = some ⟨5, 1⟩ ∧ (s.heap.blocks 1).shared_counter = 2 ∧
      ∃ H σ', WeakPtr.lock ⟨5, 1⟩ s.heap = .ok (H, σ') ∧ H.cb = 1 ∧
        (σ'.blocks 1).shared_counter = (s.heap.blocks 1).shared_counter + 1 ∧
        (σ'.blocks 1).weak_counter = (s.heap.blocks 1).weak_counter ∧
        H.use_count σ' = .ok ((s.heap.blocks 1).shared_counter + 1) ∧
        ∀ b, b ≠ 1 → σ'.blocks b = s.heap.blocks b := by
  refine ⟨_, rfl, rfl, by decide, ?_⟩
  exact (lock_promotes_live_owner true [.ctor_raw 5 ⟨1, false⟩, .copy_ctor 0,
    .weak_from_shared 1] _ 0 ⟨5, 1⟩ (by rfl) (by rfl) (by decide)).1 (by decide) (by decide)

/-! ## Copy assignment between different blocks -/

/-- C20 (as stated, refuted): `S = makeShared(7)`, `W = WeakPtr(S)`, a null
`WeakPtr` `N` and 2147483646 copies of `W` reach a state where the block has
`weak_counter == INT_MAX` with as many live `WeakPtr` handles.  One more copy
construction from `W`, the copy assignment `N = W` and the assignment `W = S`
each execute `++cb->weak_counter` on `INT_MAX`, a signed overflow, so they do
not preserve the account of the counter. -/
theorem weak_copies_overflow_weak_counter :
    ∃ s, run false State.init
        ([.make_shared 7, .weak_from_shared 0, .weak_default] ++
          List.replicate 2147483646 (.weak_copy_ctor 0)) = .ok s ∧
      lookup s.sp 0 = some ⟨0, 1⟩ ∧ lookup s.wp 0 = some ⟨0, 1⟩ ∧
      lookup s.wp 1 = some ⟨0, 0⟩ ∧
      s.weak_holders 1 = 2147483647 ∧ (s.heap.blocks 1).weak_counter = INT_MAX ∧
      step false s (.weak_copy_ctor 0) = .error .overflow ∧
      step false s (.weak_copy_assign 1 0) = .error .overflow ∧
      step false s (.weak_assign_shared 0 0) = .error .overflow := by
  obtain ⟨s0, e0, l0, w0, w1, c0, d0, h0⟩ : ∃ s0 : State,
      run false State.init [.make_shared 7, .weak_from_shared 0, .weak_default] = .ok s0 ∧
      lookup s0.sp 0 = some ⟨0, 1⟩ ∧ lookup s0.wp 0 = some ⟨0, 1⟩ ∧
      lookup s0.wp 1 = some ⟨0, 0⟩ ∧
      (s0.heap.blocks 1).weak_counter = 1 ∧
      (s0.heap.blocks 1).deallocations = 0 ∧ s0.weak_holders 1 = 1 :=
    ⟨_, rfl, rfl, rfl, rfl, by decide, by decide, by decide⟩
  obtain ⟨s, r1, r2, -, r4, r5, r6, -, -, r9, -⟩ :=
    @run_weak_copy_ctors false s0 ⟨0, 1⟩ 2147483646 w0
    (by decide) d0 (by
      show (s0.heap.blocks 1).weak_counter + ((2147483646 : Nat) : Int) ≤ INT_MAX
      rw [c0]; unfold INT_MAX; norm_num)
  have hc : (s.heap.blocks 1).weak_counter = INT_MAX := by
    have : (s.heap.blocks 1).weak_counter =
        (s0.heap.blocks 1).weak_counter + ((2147483646 : Nat) : Int) := r6
    rw [this, c0]; unfold INT_MAX; norm_num
  have hd : (s.heap.blocks 1).deallocations = 0 := r9
  have hl0 : lookup s.sp 0 = some ⟨0, 1⟩ := by rw [r2]; exact l0
  have hw0 : lookup s.wp 0 = some ⟨0, 1⟩ := by rw [r4 0 (lookup_lt w0)]; exact w0
  have hw1 : lookup s.wp 1 = some ⟨0, 0⟩ := by rw [r4 1 (lookup_lt w1)]; exact w1
  have hcc : WeakPtr.copy_ctor ⟨0, 1⟩ s.heap = .error .overflow := by
    rw [WeakPtr.weak_copy_ctor_eq, if_neg (by decide), if_neg (not_not.mpr hd),
      if_pos (le_of_eq hc.symm)]
  have hfs : WeakPtr.from_shared ⟨0, 1⟩ s.heap = .error .overflow := by
    rw [WeakPtr.weak_from_shared_eq, if_neg (by decide), if_neg (not_not.mpr hd),
      if_pos (le_of_eq hc.symm)]
  refine ⟨s, ?_, hl0, hw0, hw1, ?_, hc, ?_, ?_, ?_⟩
  · rw [run_append, e0, ok_bind]; exact r1
  · have : s.weak_holders 1 = s0.weak_holders 1 + 2147483646 := r5
    rw [this, h0]
  · simp only [step, hw0, hcc, error_bind]
  · simp only [step, if_neg (show ¬ (1 : Nat) = 0 by decide), hw0, hw1, WeakPtr.copy_assign,
      hcc, error_bind]
  · simp only [step, hw0, hl0, WeakPtr.assign_shared, hfs, error_bind]

/-- C20 (amended): for any payload type, in every state reached by a program
from the empty state and for every allocated control block `b`: `weak_counter`
is the number of live `WeakPtr` variables whose `cb` is `b` plus the number of
live payload objects whose `wptr` slot has `cb == b`, and both counters are
between 0 and `INT_MAX`.  A live `WeakPtr` variable or `wptr` slot with a
non-null `cb` points to an allocated block with `weak_counter >= 1` whose
storage has not been handed back.  Every statement that completes, among them
the `WeakPtr` copy constructor, move constructor, copy assignment and
assignment from a `SharedPtr`, leads to a state with the same account; the
`WeakPtr` move constructor always completes; the other three complete when
their source has a non-null block whose `weak_counter` is below `INT_MAX`, and
overflow that counter when it is `INT_MAX`. -/
theorem weak_counter_counts_live_observers (optIn : Bool) (ops : List Op) (s : State)
    (hrun : run optIn State.init ops = .ok s) :
    (∀ b, b ≠ 0 → b ≤ s.heap.next →
      (s.heap.blocks b).weak_counter = (s.weak_holders b : Int) +
        (Set.ncard {p | ∃ w, s.heap.wptr p = some w ∧ w.cb = b} : Int) ∧
      0 ≤ (s.heap.blocks b).shared_counter ∧ (s.heap.blocks b).shared_counter ≤ INT_MAX ∧
      0 ≤ (s.heap.blocks b).weak_counter ∧ (s.heap.blocks b).weak_counter ≤ INT_MAX) ∧
    (∀ i W, lookup s.wp i = some W → W.cb ≠ 0 →
      W.cb ≤ s.heap.next ∧ 1 ≤ (s.heap.blocks W.cb).weak_counter ∧
      (s.heap.blocks W.cb).deallocations = 0) ∧
    (∀ p w, s.heap.wptr p = some w → w.cb ≠ 0 →
      w.cb ≤ s.heap.next ∧ 1 ≤ (s.heap.blocks w.cb).weak_counter ∧
      (s.heap.blocks w.cb).deallocations = 0) ∧
    (∀ op s', step optIn s op = .ok s' → ∀ b, b ≠ 0 → b ≤ s'.heap.next →
      (s'.heap.blocks b).weak_counter = (s'.weak_holders b : Int) +
        (Set.ncard {p | ∃ w, s'.heap.wptr p = some w ∧ w.cb = b} : Int) ∧
      0 ≤ (s'.heap.blocks b).shared_counter ∧ (s'.heap.blocks b).shared_counter ≤ INT_MAX ∧
      0 ≤ (s'.heap.blocks b).weak_counter ∧ (s'.heap.blocks b).weak_counter ≤ INT_MAX) ∧
    (∀ i, ∃ s', step optIn s (.weak_move_ctor i) = .ok s') ∧
    (∀ i W, lookup s.wp i = some W → W.cb ≠ 0 →
      ((s.heap.blocks W.cb).weak_counter < INT_MAX →
        (∃ s', step optIn s (.weak_copy_ctor i) = .ok s') ∧
        ∀ j, ∃ s', step optIn s (.weak_copy_assign j i) = .ok s') ∧
      ((s.heap.blocks W.cb).weak_counter = INT_MAX →
        step optIn s (.weak_copy_ctor i) = .error .overflow ∧
        ∀ j D, j ≠ i → lookup s.wp j = some D →
          step optIn s (.weak_copy_assign j i) = .error .overflow)) ∧
    (∀ i H, lookup s.sp i = some H → H.cb ≠ 0 →
      ((s.heap.blocks H.cb).weak_counter < INT_MAX →
        ∀ j, ∃ s', step optIn s (.weak_assign_shared j i) = .ok s') ∧
      ((s.heap.blocks H.cb).weak_counter = INT_MAX →
        ∀ j D, lookup s.wp j = some D →
          step optIn s (.weak_assign_shared j i) = .error .overflow)) := by
  obtain ⟨hC, hA⟩ := run_counts hrun ⟨CountsOwners.counts_init, Heap.OwnedAlive.alive_init⟩
  have ha : s.Accounted := run_accounted hrun State.Accounted.accounted_init
    CountsOwners.counts_init
  have hB := run_bounded hrun Heap.Bounded.bounded_init
  have hwl : ∀ i W, lookup s.wp i = some W → W.cb ≠ 0 →
      W.cb ≤ s.heap.next ∧ 1 ≤ (s.heap.blocks W.cb).weak_counter ∧
      (s.heap.blocks W.cb).deallocations = 0 := by
    intro i W hl h0
    obtain ⟨hd, hle⟩ := ha.weak_live hl h0
    refine ⟨hle, ?_, hd⟩
    have h3 := ha.2.2.1 W.cb h0 hle
    have hh := holders_ne_zero_of_lookup WeakPtr.cb hl
    have h2 : (0 : Int) ≤ (s.heap.slot_holders W.cb : Int) := Int.natCast_nonneg _
    simp only [State.weak_holders] at h3
    omega
  refine ⟨fun b hb hle => ?_, hwl, fun p w hw h0 => ha.slot_live hw h0,
    ?_, ?_, ?_, ?_⟩
  · obtain ⟨c1, c2, c3⟩ := ha.counted hC b hb hle
    exact ⟨c1, c2, (hB b).1, c3, (hB b).2⟩
  · intro op s' hstep b hb hle
    obtain ⟨c1, c2, c3⟩ :=
      (step_accounted hstep ha hC).counted ((step_moves hstep).countsOwners hC) b hb hle
    have hB' := (step_capped hstep).bounded hB
    exact ⟨c1, c2, (hB' b).1, c3, (hB' b).2⟩
  · intro i
    simp only [step]
    cases lookup s.wp i <;> exact ⟨_, rfl⟩
  · intro i W hl h0
    obtain ⟨-, -, hd⟩ := hwl i W hl h0
    refine ⟨fun hlt => ?_, fun hmax => ?_⟩
    · have hcc : WeakPtr.copy_ctor W s.heap = .ok (⟨W.ptr, W.cb⟩, s.heap.store W.cb
          { s.heap.blocks W.cb with
            weak_counter := (s.heap.blocks W.cb).weak_counter + 1 }) := by
        rw [WeakPtr.weak_copy_ctor_eq, if_neg h0, if_neg (not_not.mpr hd),
          if_neg (not_le.mpr hlt)]
      refine ⟨?_, fun j => ?_⟩
      · simp only [step, hl, hcc]
        exact ⟨_, rfl⟩
      · simp only [step]
        by_cases hji : j = i
        · rw [if_pos hji]
          exact ⟨_, rfl⟩
        · rw [if_neg hji, hl]
          cases hj : lookup s.wp j with
          | none => exact ⟨_, rfl⟩
          | some self =>
            simp only [WeakPtr.copy_assign, hcc, ok_bind, WeakPtr.swap]
            have hself : (⟨self.ptr, self.cb⟩ : WeakPtr).cb ≠ 0 →
                ((s.heap.store W.cb { s.heap.blocks W.cb with
                  weak_counter := (s.heap.blocks W.cb).weak_counter + 1 }).blocks
                    (⟨self.ptr, self.cb⟩ : WeakPtr).cb).deallocations = 0 := by
              intro hs0
              obtain ⟨-, -, hds⟩ := hwl j self hj hs0
              show ((s.heap.store W.cb _).blocks self.cb).deallocations = 0
              by_cases e : self.cb = W.cb
              · rw [e, Heap.store_blocks_same]
                exact hd
              · rw [Heap.store_blocks, if_neg e]
                exact hds
            obtain ⟨σ', hσ'⟩ := WeakPtr.weak_dtor_ok hself
            rw [hσ']
            exact ⟨_, rfl⟩
    · have hcc : WeakPtr.copy_ctor W s.heap = .error .overflow := by
        rw [WeakPtr.weak_copy_ctor_eq, if_neg h0, if_neg (not_not.mpr hd),
          if_pos (le_of_eq hmax.symm)]
      refine ⟨?_, fun j D hji hj => ?_⟩
      · simp only [step, hl, hcc, error_bind]
      · simp only [step, if_neg hji, hl, hj, WeakPtr.copy_assign, hcc, error_bind]
  · intro i H hl h0
    have hpos := hC.pos_of_mem (lookup_mem hl) h0
    have hd : (s.heap.blocks H.cb).deallocations = 0 := by
      by_contra hne
      have := hA H.cb hne
      omega
    refine ⟨fun hlt j => ?_, fun hmax j D hj => ?_⟩
    · have hfs : WeakPtr.from_shared H s.heap = .ok (⟨H.ptr, H.cb⟩, s.heap.store H.cb
          { s.heap.blocks H.cb with
            weak_counter := (s.heap.blocks H.cb).weak_counter + 1 }) := by
        rw [WeakPtr.weak_from_shared_eq, if_neg h0, if_neg (not_not.mpr hd),
          if_neg (not_le.mpr hlt)]
      simp only [step, hl]
      cases hj : lookup s.wp j with
      | none => exact ⟨_, rfl⟩
      | some self =>
        simp only [WeakPtr.assign_shared, hfs, ok_bind, WeakPtr.swap]
        have hself : (⟨self.ptr, self.cb⟩ : WeakPtr).cb ≠ 0 →
            ((s.heap.store H.cb { s.heap.blocks H.cb with
              weak_counter := (s.heap.blocks H.cb).weak_counter + 1 }).blocks
                (⟨self.ptr, self.cb⟩ : WeakPtr).cb).deallocations = 0 := by
          intro hs0
          obtain ⟨-, -, hds⟩ := hwl j self hj hs0
          show ((s.heap.store H.cb _).blocks self.cb).deallocations = 0
          by_cases e : self.cb = H.cb
          · rw [e, Heap.store_blocks_same]
            exact hd
          · rw [Heap.store_blocks, if_neg e]
            exact hds
        obtain ⟨σ', hσ'⟩ := WeakPtr.weak_dtor_ok hself
        rw [hσ']
        exact ⟨_, rfl⟩
    · have hfs : WeakPtr.from_shared H s.heap = .error .overflow := by
        rw [WeakPtr.weak_from_shared_eq, if_neg h0, if_neg (not_not.mpr hd),
          if_pos (le_of_eq hmax.symm)]
      simp only [step, hl, hj, WeakPtr.assign_shared, hfs, error_bind]

theorem weak_counter_counts_live_observers_witness :
    ∃ s, run true State.init [.ctor_raw 5 ⟨1, false⟩, .weak_from_shared 0, .weak_copy_ctor 0,
        .weak_default, .weak_copy_assign 2 0, .weak_move_ctor 0] = .ok s ∧
      (s.heap.blocks 1).weak_counter = (s.weak_holders 1 : Int) +
        (Set.ncard {p | ∃ w, s.heap.wptr p = some w ∧ w.cb = 1} : Int) ∧
      s.weak_holders 1 = 3 ∧ s.heap.wptr 5 = some ⟨5, 1⟩ ∧
      (s.heap.blocks 1).weak_counter = 4 := by
  refine ⟨_, rfl, ?_, ?_, ?_, ?_⟩
  · exact ((weak_counter_counts_live_observers true
      [.ctor_raw 5 ⟨1, false⟩, .weak_from_shared 0, .weak_copy_ctor 0,
        .weak_default, .weak_copy_assign 2 0, .weak_move_ctor 0] _ (by rfl)).1 1
      (by decide) (by decide)).1
  · decide
  · rfl
  · decide

end SmartPointers
